import Mathlib

/-!
# Pointomatic: a bounded score ledger over a Redis sorted set

Shallow embedding of `index.js` (class `Pointomatic`) together with the part of the
Redis command set it calls through `ioredis`.

Modelling conventions

* JavaScript numbers are idealised: a finite number is an exact rational, and the three
  non-finite values `NaN`, `+Infinity`, `-Infinity` are kept apart.  The sums of `add` are
  also given rounded to the nearest IEEE-754 double (`roundDouble`, `addRounded`), for the
  one property that depends on the rounding: two increments against their sum.
* Every `async` method is executed as one uninterrupted step: it takes the Redis state and
  returns its outcome (a value or the thrown error) together with the next Redis state.
  Only `create` is also given step by step, cut at its `await`s, for two calls that run
  concurrently; its steps run one after the other are the method (`createStep_create`).
* `new Date().toUTCString()` is an input of the methods that write a log entry.
* Sorted sets and hashes live in two separate key spaces (no `WRONGTYPE` replies).
-/

/-! ## JavaScript values -/

/-- A JavaScript number: `NaN`, the two infinities, or a finite (idealised, exact) value. -/
inductive JSNum where
  | nan
  | negInf
  | posInf
  | fin (q : ℚ)
  deriving DecidableEq, Repr

namespace JSNum

/-- The JavaScript `+` on numbers. -/
def add : JSNum → JSNum → JSNum
  | nan, _ => nan
  | _, nan => nan
  | posInf, negInf => nan
  | negInf, posInf => nan
  | posInf, _ => posInf
  | _, posInf => posInf
  | negInf, _ => negInf
  | _, negInf => negInf
  | fin a, fin b => fin (a + b)

/-- The JavaScript unary `-` on numbers. -/
def neg : JSNum → JSNum
  | nan => nan
  | negInf => posInf
  | posInf => negInf
  | fin a => fin (-a)

/-- The JavaScript `<` on numbers: false as soon as one side is `NaN`. -/
def lt : JSNum → JSNum → Bool
  | nan, _ => false
  | _, nan => false
  | negInf, negInf => false
  | negInf, _ => true
  | _, negInf => false
  | posInf, _ => false
  | fin _, posInf => true
  | fin a, fin b => decide (a < b)

/-- The JavaScript `>` on numbers. -/
def gt (a b : JSNum) : Bool := lt b a

/-- The JavaScript `<=` on numbers: false as soon as one side is `NaN`. -/
def le : JSNum → JSNum → Bool
  | nan, _ => false
  | _, nan => false
  | a, b => !(lt b a)

/-- The JavaScript `isNaN` on a number. -/
def isNaN : JSNum → Bool
  | nan => true
  | _ => false

end JSNum

/-- The JavaScript values that reach the ledger's methods. -/
inductive JSVal where
  | undefined
  | null
  | bool (b : Bool)
  | num (n : JSNum)
  | str (s : String)
  deriving DecidableEq, Repr

/-- The test `typeof(v) === 'number'`. -/
def JSVal.isNumber : JSVal → Bool
  | .num _ => true
  | _ => false

/-! ## `parseFloat` -/

/-- The characters `parseFloat` skips at the start of its input (WhiteSpace and
LineTerminator of ECMAScript). -/
def isStrWhiteSpace (c : Char) : Bool :=
  let n := c.toNat
  n = 0x09 || n = 0x0A || n = 0x0B || n = 0x0C || n = 0x0D || n = 0x20 || n = 0xA0 ||
  n = 0x1680 || (0x2000 ≤ n && n ≤ 0x200A) || n = 0x2028 || n = 0x2029 || n = 0x202F ||
  n = 0x205F || n = 0x3000 || n = 0xFEFF

/-- The value of a run of decimal digits, read left to right from the accumulator `acc`. -/
def digitsValue (acc : Nat) : List Char → Nat
  | [] => acc
  | c :: cs => digitsValue (10 * acc + (c.toNat - 48)) cs

/-- The exponent part `e[+-]digits` at the head of `cs`, or `0` when there is none. -/
def exponentPart (cs : List Char) : Int :=
  match cs with
  | e :: rest =>
    if e = 'e' ∨ e = 'E' then
      match rest with
      | '-' :: ds =>
        let d := ds.takeWhile Char.isDigit
        if d = [] then 0 else - (digitsValue 0 d : Int)
      | '+' :: ds =>
        let d := ds.takeWhile Char.isDigit
        if d = [] then 0 else (digitsValue 0 d : Int)
      | ds =>
        let d := ds.takeWhile Char.isDigit
        if d = [] then 0 else (digitsValue 0 d : Int)
    else 0
  | [] => 0

/-- The unsigned part of a `StrDecimalLiteral`: `Infinity`, or the longest prefix of the form
`digits[.digits][exponent]` or `.digits[exponent]`. The result is `none` when no prefix has
that form. -/
def parseUnsigned (cs : List Char) : Option (Option ℚ) :=
  if "Infinity".toList.isPrefixOf cs then some none
  else
    let ip := cs.takeWhile Char.isDigit
    let r1 := cs.dropWhile Char.isDigit
    match r1 with
    | '.' :: r =>
      let fp := r.takeWhile Char.isDigit
      let r2 := r.dropWhile Char.isDigit
      if ip = [] ∧ fp = [] then none
      else
        let mant : ℚ := (digitsValue 0 ip : ℚ) + (digitsValue 0 fp : ℚ) / (10 : ℚ) ^ fp.length
        some (some (mant * (10 : ℚ) ^ exponentPart r2))
    | _ =>
      if ip = [] then none
      else some (some ((digitsValue 0 ip : ℚ) * (10 : ℚ) ^ exponentPart r1))

/-- The function `parseFloat` on a string given as its characters. -/
def parseFloatChars (cs : List Char) : JSNum :=
  let t := cs.dropWhile isStrWhiteSpace
  match t with
  | '-' :: r =>
    match parseUnsigned r with
    | none => .nan
    | some none => .negInf
    | some (some q) => .fin (-q)
  | '+' :: r =>
    match parseUnsigned r with
    | none => .nan
    | some none => .posInf
    | some (some q) => .fin q
  | _ =>
    match parseUnsigned t with
    | none => .nan
    | some none => .posInf
    | some (some q) => .fin q

/-- The global `parseFloat`: its argument is converted to a string and the longest numeric
prefix is read. A number converts to a string that reads back as the same number; the
strings of `undefined`, `null`, `true` and `false` have no numeric prefix. -/
def parseFloat : JSVal → JSNum
  | .num n => n
  | .str s => parseFloatChars s.toList
  | .undefined => .nan
  | .null => .nan
  | .bool _ => .nan


/-! ## The Redis commands used by the ledger -/

/-- A sorted set: its members with their scores, in ascending order of score and, for equal
scores, of member. -/
abbrev ZSet := List (String × JSNum)

/-- A hash: its fields with their values. -/
abbrev Hash := List (String × String)

/-- The value bound to `k` in an association list. -/
def lookup {β : Type} (k : String) : List (String × β) → Option β
  | [] => none
  | (k', v) :: t => if k' = k then some v else lookup k t

/-- The association list without the bindings of `k`. -/
def remove {β : Type} (k : String) : List (String × β) → List (String × β)
  | [] => []
  | (k', v) :: t => if k' = k then remove k t else (k', v) :: remove k t

/-- The association list in which `k` is bound to `v` and to nothing else. -/
def put {β : Type} (k : String) (v : β) (l : List (String × β)) : List (String × β) :=
  (k, v) :: remove k l

/-- The order of a sorted set: by score, then by member. -/
def zbefore (a b : String × JSNum) : Bool :=
  JSNum.lt a.2 b.2 || (decide (a.2 = b.2) && decide (a.1.toList < b.1.toList))

/-- Insertion of an entry at its place in a sorted set. -/
def zinsert (e : String × JSNum) : ZSet → ZSet
  | [] => [e]
  | h :: t => if zbefore e h then e :: h :: t else h :: zinsert e t

/-- The state of the Redis server: the sorted sets and the hashes, by key. -/
structure Redis where
  zsets : List (String × ZSet)
  hashes : List (String × Hash)
  deriving DecidableEq, Repr

/-- One end of a score interval in the syntax of `ZRANGEBYSCORE`: `'-inf'` and `'+inf'` are
the inclusive bounds `incl negInf` and `incl posInf`, a number is an inclusive bound, and a
number after `'('` is an exclusive bound. -/
inductive ScoreBound where
  | incl (x : JSNum)
  | excl (x : JSNum)
  deriving DecidableEq, Repr

/-- Whether score `s` lies in the interval from `lo` to `hi`. -/
def inRange (lo hi : ScoreBound) (s : JSNum) : Bool :=
  (match lo with
    | .incl x => JSNum.le x s
    | .excl x => JSNum.lt x s) &&
  (match hi with
    | .incl x => JSNum.le s x
    | .excl x => JSNum.lt s x)

/-- The reply that carries a score. A finite score is sent as a decimal string that
`parseFloat` reads back as the same number, and the model keeps that number; an infinite
score is sent as `inf` or `-inf`. -/
def scoreReply : JSNum → JSVal
  | .fin q => .num (.fin q)
  | .posInf => .str "inf"
  | .negInf => .str "-inf"
  | .nan => .str "nan"

namespace Redis

/-- The sorted set stored at `key`; a key that does not exist is an empty sorted set. -/
def zsetOf (db : Redis) (key : String) : ZSet :=
  (lookup key db.zsets).getD []

/-- The hash stored at `key`; a key that does not exist is an empty hash. -/
def hashOf (db : Redis) (key : String) : Hash :=
  (lookup key db.hashes).getD []

/-- Store sorted set `z` at `key`; a sorted set left empty is removed with its key. -/
def putZSet (db : Redis) (key : String) (z : ZSet) : Redis :=
  { db with zsets := if z = [] then remove key db.zsets else put key z db.zsets }

/-- The command `ZADD key NX score member`: adds the member when it is new and never updates
an existing one. The reply is the number of members added. -/
def zaddNX (db : Redis) (key : String) (score : JSNum) (member : String) :
    Except String Nat × Redis :=
  if score.isNaN then (.error "ERR value is not a valid float", db)
  else
    match lookup member (db.zsetOf key) with
    | some _ => (.ok 0, db)
    | none => (.ok 1, db.putZSet key (zinsert (member, score) (db.zsetOf key)))

/-- The command `ZSCORE key member`: the score of the member, or `null`. -/
def zscore (db : Redis) (key : String) (member : String) : JSVal :=
  match lookup member (db.zsetOf key) with
  | some s => scoreReply s
  | none => .null

/-- The command `ZINCRBY key increment member`: adds the increment to the score of the
member, which starts from `0` when the member is new. The reply is the new score. -/
def zincrby (db : Redis) (key : String) (increment : JSNum) (member : String) :
    Except String JSVal × Redis :=
  if increment.isNaN then (.error "ERR value is not a valid float", db)
  else
    let score := match lookup member (db.zsetOf key) with
      | some s => s.add increment
      | none => increment
    if score.isNaN then (.error "ERR resulting score is not a number (NaN)", db)
    else (.ok (scoreReply score),
          db.putZSet key (zinsert (member, score) (remove member (db.zsetOf key))))

/-- The command `ZREM key member`. The reply is the number of members removed. -/
def zrem (db : Redis) (key : String) (member : String) : Nat × Redis :=
  match lookup member (db.zsetOf key) with
  | some _ => (1, db.putZSet key (remove member (db.zsetOf key)))
  | none => (0, db)

/-- The command `ZRANGEBYSCORE key min max`: the members whose score is in the interval, in
the order of the sorted set. -/
def zrangebyscore (db : Redis) (key : String) (lo hi : ScoreBound) : List String :=
  ((db.zsetOf key).filter (fun e => inRange lo hi e.2)).map (fun e => e.1)

/-- The command `ZREMRANGEBYSCORE key min max`. The reply is the number of members removed. -/
def zremrangebyscore (db : Redis) (key : String) (lo hi : ScoreBound) : Nat × Redis :=
  (((db.zsetOf key).filter (fun e => inRange lo hi e.2)).length,
   db.putZSet key ((db.zsetOf key).filter (fun e => !(inRange lo hi e.2))))

/-- The command `HSET key field value`. The reply is `1` for a new field and `0` for a field
whose value was replaced. -/
def hset (db : Redis) (key field value : String) : Nat × Redis :=
  ((match lookup field (db.hashOf key) with
    | some _ => 0
    | none => 1),
   { db with hashes := put key (put field value (db.hashOf key)) db.hashes })

/-- The command `HEXISTS key field`. -/
def hexists (db : Redis) (key field : String) : Nat :=
  match lookup field (db.hashOf key) with
  | some _ => 1
  | none => 0

end Redis

/-! ## The class `Pointomatic` -/

/-- The errors thrown by the methods; `message` gives the text of each. -/
inductive PError where
  | invalidKey (method : String)
  | expectedNumber (method : String)
  | aboveMax (method : String)
  | belowMin (method : String)
  | nonExistentKey (method : String)
  | nonNumericValue (method : String)
  | nonNumericChange
  | conflictD
  | conflictE
  | typeError
  | replyError (msg : String)
  deriving DecidableEq, Repr

deriving instance DecidableEq for Except

/-- The text of the `Error` that is thrown. -/
def PError.message : PError → String
  | .invalidKey m => "Pointomatic " ++ m ++ " error: invalid key"
  | .expectedNumber m => "Pointomatic " ++ m ++ " error: invalid value, expected a number"
  | .aboveMax m => "Pointomatic " ++ m ++ " error: invalid value above max"
  | .belowMin m => "Pointomatic " ++ m ++ " error: invalid value below min"
  | .nonExistentKey m => "Pointomatic " ++ m ++ " error: non-existent key"
  | .nonNumericValue m => "Pointomatic " ++ m ++ " error: non-numeric value"
  | .nonNumericChange => "Pointomatic add error: non-numeric change"
  | .conflictD => "Pointomatic create error: conflict D"
  | .conflictE => "Pointomatic create error: conflict E"
  | .typeError => "TypeError: logkey is undefined"
  | .replyError msg => msg

/-- The object returned by `create` and `get`. -/
structure KeyValue where
  key : String
  value : JSNum
  deriving DecidableEq, Repr

/-- The object returned by `add`. -/
structure KeyValueChange where
  key : String
  value : JSNum
  change : JSNum
  deriving DecidableEq, Repr

/-- The object returned by `delete`. -/
structure KeyDeleted where
  key : String
  deleted : Bool
  deriving DecidableEq, Repr

/-- The options of a ledger, as accepted by the schema: `min` and `max` are finite numbers.
The `ioredis` handle is the Redis state passed to each method. -/
structure Pointomatic where
  name : String
  min : ℚ
  max : ℚ
  encrypt : String → String
  decrypt : String → String
  invalid : String → Bool
  log : Bool

namespace Pointomatic

/-- The field `createLog`, set by the constructor only when `log` is true. -/
def createLog (p : Pointomatic) : Option String :=
  if p.log then some (p.name ++ "CreateLog") else none

/-- The field `deleteLog`, set by the constructor only when `log` is true. -/
def deleteLog (p : Pointomatic) : Option String :=
  if p.log then some (p.name ++ "DeleteLog") else none

/-- The method `assertKey`. -/
def assertKey (p : Pointomatic) (k : String) (method : String) : Except PError Unit :=
  if p.invalid k then .error (.invalidKey method) else .ok ()

/-- The method `assertRange`. -/
def assertRange (p : Pointomatic) (v : JSVal) (method : String) : Except PError Unit :=
  match v with
  | .num n =>
    if n.isNaN then .error (.expectedNumber method)
    else if n.gt (.fin p.max) then .error (.aboveMax method)
    else if n.lt (.fin p.min) then .error (.belowMin method)
    else .ok ()
  | _ => .error (.expectedNumber method)

/-- The method `parseNumber`. -/
def parseNumber (_p : Pointomatic) (raw : JSVal) (method : String) : Except PError JSNum :=
  if raw = .null then .error (.nonExistentKey method)
  else
    let value := parseFloat raw
    if value.isNaN then .error (.nonNumericValue method) else .ok value

/-- The JavaScript `logkey.startsWith(name)`. -/
def startsWith (logkey name : String) : Bool :=
  name.toList.isPrefixOf logkey.toList

/-- The method `insertIntoLog`; `now` is `new Date().toUTCString()`, and `logkey` is `none`
when the argument is `undefined`. -/
def insertIntoLog (p : Pointomatic) (db : Redis) (logkey : Option String)
    (encryptedKey reason now : String) : Except PError JSVal × Redis :=
  if !p.log then (.ok (.bool false), db)
  else
    match logkey with
    | none => (.error .typeError, db)
    | some l =>
      if !(startsWith l p.name) then (.ok (.bool false), db)
      else
        let logEntry := now ++ "---" ++ reason
        let r := db.hset l encryptedKey logEntry
        (.ok (.num (.fin (r.1 : ℚ))), r.2)

/-- The method `inDeleteLog`. -/
def inDeleteLog (p : Pointomatic) (db : Redis) (encryptedKey : String) : Bool :=
  if !p.log then false
  else
    match p.deleteLog with
    | some l => decide (db.hexists l encryptedKey = 1)
    | none => false

/-- The method `create`. -/
def create (p : Pointomatic) (db : Redis) (key : String) (rawvalue : JSVal)
    (reason now : String) : Except PError KeyValue × Redis :=
  match p.assertKey key "create" with
  | .error e => (.error e, db)
  | .ok _ =>
    match p.parseNumber rawvalue "create" with
    | .error e => (.error e, db)
    | .ok value =>
      match p.assertRange (.num value) "create" with
      | .error e => (.error e, db)
      | .ok _ =>
        let encryptedKey := p.encrypt key
        let previouslyDeleted := p.inDeleteLog db encryptedKey
        if previouslyDeleted then (.error .conflictD, db)
        else
          match db.zaddNX p.name value encryptedKey with
          | (.error msg, db1) => (.error (.replyError msg), db1)
          | (.ok result, db1) =>
            if result = 1 then
              match p.insertIntoLog db1 p.createLog encryptedKey reason now with
              | (.error e, db2) => (.error e, db2)
              | (.ok _, db2) => (.ok ⟨key, value⟩, db2)
            else (.error .conflictE, db1)

/-- The method `get`. -/
def get (p : Pointomatic) (db : Redis) (key : String) : Except PError KeyValue :=
  match p.assertKey key "get" with
  | .error e => .error e
  | .ok _ =>
    let rawValue := db.zscore p.name (p.encrypt key)
    match p.parseNumber rawValue "get" with
    | .error e => .error e
    | .ok value => .ok ⟨key, value⟩

/-- The method `add`. -/
def add (p : Pointomatic) (db : Redis) (key : String) (rawchange : JSVal) :
    Except PError KeyValueChange × Redis :=
  match p.assertKey key "add" with
  | .error e => (.error e, db)
  | .ok _ =>
    let change := parseFloat rawchange
    if change.isNaN then (.error .nonNumericChange, db)
    else
      match p.get db key with
      | .error e => (.error e, db)
      | .ok current =>
        let expected := current.value.add change
        match p.assertRange (.num expected) "add" with
        | .error e => (.error e, db)
        | .ok _ =>
          match db.zincrby p.name change (p.encrypt key) with
          | (.error msg, db1) => (.error (.replyError msg), db1)
          | (.ok rawValue, db1) =>
            match p.parseNumber rawValue "add" with
            | .error e => (.error e, db1)
            | .ok value =>
              match p.assertRange (.num value) "add" with
              | .error e =>
                match db1.zincrby p.name change.neg (p.encrypt key) with
                | (.error msg, db2) => (.error (.replyError msg), db2)
                | (.ok _, db2) => (.error e, db2)
              | .ok _ => (.ok ⟨key, value, change⟩, db1)

/-- The method `belowMinRange`: the array `['-inf', '(' + min]`. -/
def belowMinRange (p : Pointomatic) : ScoreBound × ScoreBound :=
  (.incl .negInf, .excl (.fin p.min))

/-- The method `aboveMaxRange`: the array `['(' + max, '+inf']`. -/
def aboveMaxRange (p : Pointomatic) : ScoreBound × ScoreBound :=
  (.excl (.fin p.max), .incl .posInf)

/-- The method `delete`. -/
def delete (p : Pointomatic) (db : Redis) (key : String) (reason now : String) :
    Except PError KeyDeleted × Redis :=
  match p.assertKey key "delete" with
  | .error e => (.error e, db)
  | .ok _ =>
    let encryptedKey := p.encrypt key
    let r := db.zrem p.name encryptedKey
    if r.1 = 1 then
      match p.insertIntoLog r.2 p.deleteLog encryptedKey reason now with
      | (.error e, db2) => (.error e, db2)
      | (.ok _, db2) => (.ok ⟨key, decide (r.1 = 1)⟩, db2)
    else (.ok ⟨key, decide (r.1 = 1)⟩, r.2)

/-- The calls `insertIntoLog(deleteLog, k, reason)` that `reap` starts for the keys it found,
in their order; the `i`-th one reads the clock as `now i`. All the calls are made, and the
first error, if any, is the one `Promise.all` reports. -/
def insertAllIntoLog (p : Pointomatic) (logkey : Option String) (reason : String)
    (now : Nat → String) : Nat → List String → Redis → Option PError × Redis
  | _, [], db => (none, db)
  | i, k :: ks, db =>
    match p.insertIntoLog db logkey k reason (now i) with
    | (.error e, db1) => (some e, (insertAllIntoLog p logkey reason now (i + 1) ks db1).2)
    | (.ok _, db1) => insertAllIntoLog p logkey reason now (i + 1) ks db1

/-- The method `reap`; `now i` is the clock read by the `i`-th log write. -/
def reap (p : Pointomatic) (db : Redis) (reason : String) (now : Nat → String) :
    Except PError Nat × Redis :=
  let zargs := p.belowMinRange
  if p.log then
    let lowEncryptedKeys := db.zrangebyscore p.name zargs.1 zargs.2
    match insertAllIntoLog p p.deleteLog reason now 0 lowEncryptedKeys db with
    | (some e, db1) => (.error e, db1)
    | (none, db1) =>
      let r := db1.zremrangebyscore p.name zargs.1 zargs.2
      (.ok r.1, r.2)
  else
    let r := db.zremrangebyscore p.name zargs.1 zargs.2
    (.ok r.1, r.2)

end Pointomatic

/-! ## Observations of the state -/

/-- The score stored for `member` in the sorted set at `key`, if any. -/
def Redis.score? (db : Redis) (key member : String) : Option JSNum :=
  lookup member (db.zsetOf key)

/-- The value stored for `field` in the hash at `key`, if any. -/
def Redis.field? (db : Redis) (key field : String) : Option String :=
  lookup field (db.hashOf key)

/-! ## The ledger of the test suite -/

/-- The function `reverse` of the test suite, used there as `encrypt` and `decrypt`. -/
def reverse (s : String) : String :=
  String.mk s.toList.reverse

/-- The options `specs` of the test suite: the ledger `points` with `min` 0 and `max` 150,
without and with logging. -/
def specs (log : Bool) : Pointomatic where
  name := "points"
  min := 0
  max := 150
  encrypt := reverse
  decrypt := reverse
  invalid := fun s => s.length != 8
  log := log

/-- The empty Redis server (after `FLUSHALL`). -/
def Redis.empty : Redis := ⟨[], []⟩

/-! ## Sequences of calls -/

/-- One call of a method of the ledger, with its arguments. -/
inductive Call where
  | create (key : String) (rawvalue : JSVal) (reason now : String)
  | add (key : String) (rawchange : JSVal)
  | delete (key : String) (reason now : String)
  | reap (reason : String) (now : Nat → String)
  | get (key : String)

/-- The Redis state after one call, whether the call returns or throws. -/
def Pointomatic.exec (p : Pointomatic) (db : Redis) : Call → Redis
  | .create key rawvalue reason now => (p.create db key rawvalue reason now).2
  | .add key rawchange => (p.add db key rawchange).2
  | .delete key reason now => (p.delete db key reason now).2
  | .reap reason now => (p.reap db reason now).2
  | .get _ => db

/-- The Redis state after a sequence of calls executed one after the other. -/
def Pointomatic.run (p : Pointomatic) (db : Redis) (calls : List Call) : Redis :=
  calls.foldl p.exec db

/-- The time stamp used in the examples. -/
def utc : String := "Fri, 06 Nov 2026 00:00:00 GMT"

/-- The test ledger with logging after `create("bbbbbbbb", 30)` on an empty server. -/
def dbCreated : Redis :=
  ((specs true).create Redis.empty "bbbbbbbb" (.num (.fin 30)) "first" utc).2

/-- The test ledger with logging after `create("bbbbbbbb", 30)` and
`delete("bbbbbbbb", "testing")`. -/
def dbDeleted : Redis :=
  ((specs true).delete dbCreated "bbbbbbbb" "testing" utc).2

/-- A state of the test ledger with one entry below `min`, one at `min` and one above, as
a weighted sum can leave it. -/
def dbLow : Redis :=
  ⟨[("points", [("aaaaaaaa", .fin (-5)), ("bbbbbbbb", .fin 0), ("cccccccc", .fin 10)])], []⟩

/-! ## Reading the audit log -/

/-- The pieces of `s.split(sep)` for a non-empty separator, on lists of characters: `skip`
counts the characters of a separator just found that are still to be passed over, and `cur`
is the piece being read, in reverse. -/
def splitAux (sep : List Char) : Nat → List Char → List Char → List (List Char)
  | _, cur, [] => [cur.reverse]
  | skip + 1, cur, _ :: cs => splitAux sep skip cur cs
  | 0, cur, c :: cs =>
    if sep.isPrefixOf (c :: cs) then cur.reverse :: splitAux sep (sep.length - 1) [] cs
    else splitAux sep 0 (c :: cur) cs

/-- The JavaScript `s.split(sep)` for a non-empty separator: `s` is cut at every occurrence
of `sep`, from left to right. -/
def jsSplit (s sep : String) : List String :=
  (splitAux sep.toList 0 [] s.toList).map String.mk

/-- The command `HGET key field`: the value of the field, or `null` (here `none`). -/
def Redis.hget (db : Redis) (key field : String) : Option String :=
  lookup field (db.hashOf key)

/-- The object `{utc, reason}` returned by `getParsedLogEntry`; a field is `none` when the
array had no element for it (`undefined`). -/
structure ParsedLogEntry where
  utc : Option String
  reason : Option String
  deriving DecidableEq, Repr

/-- The object returned by `getCreateReason` and `getDeleteReason`: `{key}` with the fields
of the parsed log entry copied into it, if there is one. -/
structure KeyReason where
  key : String
  utc : Option String
  reason : Option String
  deriving DecidableEq, Repr

namespace Pointomatic

/-- The method `getParsedLogEntry`; the result `none` is `null`. The destructuring
`[utc, reason] = logEntry.split("---")` takes the first two pieces. -/
def getParsedLogEntry (p : Pointomatic) (db : Redis) (logkey : Option String)
    (encryptedKey : String) : Except PError (Option ParsedLogEntry) :=
  if !p.log then .ok none
  else
    match logkey with
    | none => .error .typeError
    | some l =>
      if !(startsWith l p.name) then .ok none
      else
        match db.hget l encryptedKey with
        | none => .ok none
        | some logEntry =>
          let parts := jsSplit logEntry "---"
          .ok (some ⟨parts[0]?, parts[1]?⟩)

/-- The call `Object.assign({key}, entry)`. -/
def assignKey (key : String) : Option ParsedLogEntry → KeyReason
  | none => ⟨key, none, none⟩
  | some e => ⟨key, e.utc, e.reason⟩

/-- The method `getCreateReason`. -/
def getCreateReason (p : Pointomatic) (db : Redis) (key : String) : Except PError KeyReason :=
  match p.getParsedLogEntry db p.createLog (p.encrypt key) with
  | .error e => .error e
  | .ok entry => .ok (assignKey key entry)

/-- The method `getDeleteReason`. -/
def getDeleteReason (p : Pointomatic) (db : Redis) (key : String) : Except PError KeyReason :=
  match p.getParsedLogEntry db p.deleteLog (p.encrypt key) with
  | .error e => .error e
  | .ok entry => .ok (assignKey key entry)

end Pointomatic

/-! ## Listing the ledger -/

/-- The reply to a range command with `WITHSCORES`: each member followed by its score. -/
def withScores : ZSet → List JSVal
  | [] => []
  | (m, s) :: t => .str m :: scoreReply s :: withScores t

/-- The elements `start` to `stop` of a list of length `n`, by index; a negative index
counts from the end, as in `ZRANGE`. -/
def rangeByIndex {α : Type} (l : List α) (start stop : Int) : List α :=
  let n : Int := l.length
  let s : Int := if start < 0 then max (n + start) 0 else start
  let e : Int := if stop < 0 then n + stop else min stop (n - 1)
  if s > e ∨ s ≥ n then [] else (l.drop s.toNat).take (e - s + 1).toNat

/-- The command `ZRANGE key start stop WITHSCORES`. -/
def Redis.zrangeWithScores (db : Redis) (key : String) (start stop : Int) : List JSVal :=
  withScores (rangeByIndex (db.zsetOf key) start stop)

/-- The command `ZRANGEBYSCORE key min max WITHSCORES`. -/
def Redis.zrangebyscoreWithScores (db : Redis) (key : String) (lo hi : ScoreBound) :
    List JSVal :=
  withScores ((db.zsetOf key).filter (fun e => inRange lo hi e.2))

/-- The loop of `getAllRawPairs` over the flat reply `raw`: two elements at a time, the pair
`[raw[i], parseFloat(raw[i+1])]`. -/
def pairUp : List JSVal → List (JSVal × JSNum)
  | [] => []
  | [a] => [(a, parseFloat .undefined)]
  | a :: b :: t => (a, parseFloat b) :: pairUp t

namespace Pointomatic

/-- The method `getAllRawPairs`; an argument is `none` when it is `undefined`, and otherwise
it is the bound Redis reads from it. A range command with an `undefined` bound is rejected
by Redis. -/
def getAllRawPairs (p : Pointomatic) (db : Redis) (low high : Option ScoreBound) :
    Except PError (List (JSVal × JSNum)) :=
  match low, high with
  | none, none => .ok (pairUp (db.zrangeWithScores p.name 0 (-1)))
  | some lo, some hi => .ok (pairUp (db.zrangebyscoreWithScores p.name lo hi))
  | _, _ => .error (.replyError "ERR min or max is not a float")

/-- The function `decrypt` applied to the first element of a pair, which is a string. -/
def decryptFirst (p : Pointomatic) : JSVal × JSNum → JSVal × JSNum
  | (.str s, v) => (.str (p.decrypt s), v)
  | pr => pr

/-- The method `getAllPairs`. -/
def getAllPairs (p : Pointomatic) (db : Redis) (low high : Option ScoreBound) :
    Except PError (List (JSVal × JSNum)) :=
  match p.getAllRawPairs db low high with
  | .error e => .error e
  | .ok pairs => .ok (pairs.map p.decryptFirst)

end Pointomatic

/-! ## Predicates on the state -/

/-- Whether a score is a finite number between `lo` and `hi`, bounds included. -/
def JSNum.isBetween (lo hi : ℚ) : JSNum → Bool
  | .fin q => decide (lo ≤ q ∧ q ≤ hi)
  | _ => false

/-- Whether a score is a finite number. -/
def JSNum.isFinite : JSNum → Bool
  | .fin _ => true
  | _ => false

/-- Every value stored in the ledger lies in `[min, max]`. -/
def Pointomatic.allInRange (p : Pointomatic) (db : Redis) : Bool :=
  (db.zsetOf p.name).all (fun e => e.2.isBetween p.min p.max)

/-- Every score of the sorted set at `key` is finite. -/
def Redis.allFinite (db : Redis) (key : String) : Bool :=
  (db.zsetOf key).all (fun e => e.2.isFinite)

/-! ## The weighted sum of ledgers -/

/-- The product of two doubles (exact on finite numbers). -/
def JSNum.mul : JSNum → JSNum → JSNum
  | .nan, _ => .nan
  | _, .nan => .nan
  | .fin a, .fin b => .fin (a * b)
  | .fin a, .posInf => if a = 0 then .nan else if 0 < a then .posInf else .negInf
  | .fin a, .negInf => if a = 0 then .nan else if 0 < a then .negInf else .posInf
  | .posInf, .fin b => if b = 0 then .nan else if 0 < b then .posInf else .negInf
  | .negInf, .fin b => if b = 0 then .nan else if 0 < b then .negInf else .posInf
  | .posInf, .posInf => .posInf
  | .posInf, .negInf => .negInf
  | .negInf, .posInf => .negInf
  | .negInf, .negInf => .posInf

/-- The convention of `ZUNIONSTORE`: a product or a sum that is `NaN` counts as `0`. -/
def JSNum.nanToZero : JSNum → JSNum
  | .nan => .fin 0
  | x => x

/-- The association list in which the first binding of `k`, if any, has the value `v`. -/
def update {β : Type} (k : String) (v : β) : List (String × β) → List (String × β)
  | [] => []
  | (k', v') :: t => if k' = k then (k', v) :: t else (k', v') :: update k v t

/-- The step of `ZUNIONSTORE` for one member of a source: its score times the weight of the
source is added to the member of the same name accumulated so far, or it becomes a new
accumulated member. -/
def unionStep (weight : JSNum) (acc : List (String × JSNum)) (e : String × JSNum) :
    List (String × JSNum) :=
  match lookup e.1 acc with
  | some old => update e.1 (old.add (weight.mul e.2).nanToZero).nanToZero acc
  | none => acc ++ [(e.1, (weight.mul e.2).nanToZero)]

/-- The step of `ZUNIONSTORE` for one source: its members are accumulated one by one. -/
def unionAdd (weight : JSNum) : ZSet → List (String × JSNum) → List (String × JSNum)
  | [], acc => acc
  | e :: t, acc => unionAdd weight t (unionStep weight acc e)

/-- The accumulation of `ZUNIONSTORE` over the sources, each with its weight, in the order
given (with exact arithmetic the order of the sources does not change the sums). -/
def unionAll (db : Redis) : List (String × JSNum) → List (String × JSNum) →
    List (String × JSNum)
  | [], acc => acc
  | (key, weight) :: rest, acc => unionAll db rest (unionAdd weight (db.zsetOf key) acc)

/-- The command `ZUNIONSTORE destination numkeys key... WEIGHTS weight...` (aggregate `SUM`):
the destination is replaced by the union of the sources, the score of a member being the
sum of its scores in the sources, each multiplied by the weight of its source. The reply is
the number of members of the destination. -/
def Redis.zunionstore (db : Redis) (destination : String) (numkeys : Nat) (keys : List String)
    (weights : List JSNum) : Except String Nat × Redis :=
  if numkeys < 1 then
    (.error "ERR at least 1 input key is needed for ZUNIONSTORE/ZINTERSTORE", db)
  else if keys.length ≠ numkeys ∨ weights.length ≠ numkeys then (.error "ERR syntax error", db)
  else if weights.any JSNum.isNaN then (.error "ERR weight value is not a float", db)
  else
    let acc := unionAll db (keys.zip weights) []
    (.ok acc.length, db.putZSet destination (acc.foldl (fun z e => zinsert e z) []))

/-- The object returned by `wsum`. -/
structure WsumResult where
  destination : String
  weights : List (String × JSNum)
  count : Nat
  deriving DecidableEq, Repr

/-- The method `wsum`; the object `weights` is the list of its own properties, each name
once, in the order of `Object.keys`, which is also the order of `Object.values`. -/
def Pointomatic.wsum (_p : Pointomatic) (db : Redis) (destination : String)
    (weights : List (String × JSNum)) : Except PError WsumResult × Redis :=
  let keys := weights.map (fun kw => kw.1)
  let scales := weights.map (fun kw => kw.2)
  match db.zunionstore destination keys.length keys scales with
  | (.error msg, db1) => (.error (.replyError msg), db1)
  | (.ok count, db1) => (.ok ⟨destination, weights, count⟩, db1)

/-! ## The weighted sum as the specification words it -/

/-- The finite value bound to `x` in an association list, and `0` when there is none. -/
def valueOrZero (l : List (String × JSNum)) (x : String) : ℚ :=
  match lookup x l with
  | some (.fin q) => q
  | _ => 0

/-- The score of `x` in the source `source`, and `0` when `x` is absent from it. -/
def scoreOrZero (db : Redis) (source x : String) : ℚ :=
  match db.score? source x with
  | some (.fin q) => q
  | _ => 0

/-- The sum over the listed sources of the weight times the score of `x` in the source. -/
def weightedSum (db : Redis) (ws : List (String × ℚ)) (x : String) : ℚ :=
  (ws.map (fun nw => nw.2 * scoreOrZero db nw.1 x)).sum

/-- The encoded keys of the listed sources, source after source. -/
def sourceMembers (db : Redis) : List (String × ℚ) → List String
  | [] => []
  | (source, _) :: rest => (db.zsetOf source).map (fun e => e.1) ++ sourceMembers db rest

/-- The weights of a mapping of names to finite numbers, as JavaScript numbers. -/
def finiteWeights (ws : List (String × ℚ)) : List (String × JSNum) :=
  ws.map (fun nw => (nw.1, JSNum.fin nw.2))

/-- Every listed source is a sorted set with finite scores in which each member occurs
once. -/
def sourcesWellFormed (db : Redis) (ws : List (String × ℚ)) : Prop :=
  ∀ nw ∈ ws, db.allFinite nw.1 = true ∧ ((db.zsetOf nw.1).map (fun e => e.1)).Nodup

instance (db : Redis) (ws : List (String × ℚ)) : Decidable (sourcesWellFormed db ws) := by
  unfold sourcesWellFormed
  infer_instance

/-- The ledgers `A`, with `X` at 50, and `B`, with `X` at 20 and `Y` at 5. -/
def dbAB : Redis :=
  ⟨[("A", [("X", .fin 50)]), ("B", [("Y", .fin 5), ("X", .fin 20)])], []⟩

/-! ## Two `create` calls that run concurrently -/

/-- Where a call of `create` stands: just called, about to send `ZADD NX` (the validations
and the check of the deletion log are behind it), about to write the creation log (the
insertion succeeded), or finished with its outcome. The method suspends at each `await`, and
between two of them it runs without interruption. -/
inductive CreateTask where
  | called (key : String) (rawvalue : JSVal) (reason now : String)
  | inserting (key : String) (value : JSNum) (reason now : String)
  | logging (key : String) (value : JSNum) (reason now : String)
  | done (outcome : Except PError KeyValue)
  deriving DecidableEq, Repr

/-- The number of steps a call of `create` has at most before it is finished. -/
def CreateTask.stepsLeft : CreateTask → Nat
  | .called _ _ _ _ => 3
  | .inserting _ _ _ _ => 2
  | .logging _ _ _ _ => 1
  | .done _ => 0

namespace Pointomatic

/-- One step of a call of `create`: the code of the method up to its next `await`, with the
Redis command it sends there. A finished call does nothing. -/
def createStep (p : Pointomatic) (db : Redis) : CreateTask → CreateTask × Redis
  | .called key rawvalue reason now =>
    match p.assertKey key "create" with
    | .error e => (.done (.error e), db)
    | .ok _ =>
      match p.parseNumber rawvalue "create" with
      | .error e => (.done (.error e), db)
      | .ok value =>
        match p.assertRange (.num value) "create" with
        | .error e => (.done (.error e), db)
        | .ok _ =>
          if p.inDeleteLog db (p.encrypt key) then (.done (.error .conflictD), db)
          else (.inserting key value reason now, db)
  | .inserting key value reason now =>
    match db.zaddNX p.name value (p.encrypt key) with
    | (.error msg, db1) => (.done (.error (.replyError msg)), db1)
    | (.ok result, db1) =>
      if result = 1 then (.logging key value reason now, db1)
      else (.done (.error .conflictE), db1)
  | .logging key value reason now =>
    match p.insertIntoLog db p.createLog (p.encrypt key) reason now with
    | (.error e, db2) => (.done (.error e), db2)
    | (.ok _, db2) => (.done (.ok ⟨key, value⟩), db2)
  | .done outcome => (.done outcome, db)

/-- One step of two concurrent calls of `create` on the same Redis server: the first call
moves when `first` is true, the second one otherwise. -/
def raceStep (p : Pointomatic) (st : CreateTask × CreateTask × Redis) (first : Bool) :
    CreateTask × CreateTask × Redis :=
  if first then ((p.createStep st.2.2 st.1).1, st.2.1, (p.createStep st.2.2 st.1).2)
  else (st.1, (p.createStep st.2.2 st.2.1).1, (p.createStep st.2.2 st.2.1).2)

/-- Two concurrent calls of `create` after the steps of a schedule, which says at each step
which of the two calls moves. -/
def race (p : Pointomatic) (schedule : List Bool) (st : CreateTask × CreateTask × Redis) :
    CreateTask × CreateTask × Redis :=
  schedule.foldl p.raceStep st

end Pointomatic

/-! ## The states of a weighted sum back into the ledger -/

/-- The test ledger with logging after `create("bbbbbbbb", 30)` and
`wsum("backup", {points: 1})`. -/
def dbBackup : Redis :=
  ((specs true).wsum dbCreated "backup" [("points", .fin 1)]).2

/-- The state `dbBackup` after `delete("bbbbbbbb", "testing")`. -/
def dbBackupDeleted : Redis :=
  ((specs true).delete dbBackup "bbbbbbbb" "testing" utc).2

/-- The state `dbBackupDeleted` after `wsum("points", {backup: 1})`. -/
def dbRestored : Redis :=
  ((specs true).wsum dbBackupDeleted "points" [("backup", .fin 1)]).2

/-- The arguments of one of the two concurrent calls, with the number its raw value parses
to. -/
structure CreateArgs where
  rawvalue : JSVal
  value : ℚ
  reason : String
  now : String

/-- The call for key `k` with arguments `a` has not sent `ZADD NX` yet. -/
def CreateTask.isPending (k : String) (a : CreateArgs) (t : CreateTask) : Prop :=
  t = .called k a.rawvalue a.reason a.now ∨ t = .inserting k (.fin a.value) a.reason a.now

/-- The call for key `k` with arguments `a` has inserted its value. -/
def CreateTask.hasInserted (k : String) (a : CreateArgs) (t : CreateTask) : Prop :=
  t = .logging k (.fin a.value) a.reason a.now ∨ t = .done (.ok ⟨k, .fin a.value⟩)

/-- The call has thrown `conflict E`. -/
def CreateTask.hasLost (t : CreateTask) : Prop :=
  t = .done (.error .conflictE)

/-- What holds at every step of two concurrent calls of `create` for the key `k`, which is
not in the deletion log: nobody has inserted and the key is absent, or one call has inserted
its value, which is the value stored, and the other has not inserted. -/
def Pointomatic.raceInv (p : Pointomatic) (k : String) (a b : CreateArgs)
    (st : CreateTask × CreateTask × Redis) : Prop :=
  p.inDeleteLog st.2.2 (p.encrypt k) = false ∧
  ((st.2.2.score? p.name (p.encrypt k) = none ∧ st.1.isPending k a ∧ st.2.1.isPending k b) ∨
   (st.2.2.score? p.name (p.encrypt k) = some (.fin a.value) ∧ st.1.hasInserted k a ∧
      (st.2.1.isPending k b ∨ st.2.1.hasLost)) ∨
   (st.2.2.score? p.name (p.encrypt k) = some (.fin b.value) ∧ st.2.1.hasInserted k b ∧
      (st.1.isPending k a ∨ st.1.hasLost)))

/-! ## Sums of doubles -/

/-- The power `2 ^ e` for an integer exponent. -/
def pow2 (e : Int) : ℚ :=
  if 0 ≤ e then ((2 ^ e.toNat : Nat) : ℚ) else 1 / ((2 ^ (-e).toNat : Nat) : ℚ)

/-- The number of halvings that bring `n` below 2, at most `fuel` of them. -/
def log2Fuel : Nat → Nat → Nat
  | 0, _ => 0
  | fuel + 1, n => if n < 2 then 0 else log2Fuel fuel (n / 2) + 1

/-- The exponent `k` with `2 ^ k ≤ n < 2 ^ (k + 1)`, for a positive natural number `n`. -/
def natLog2 (n : Nat) : Nat := log2Fuel n n

/-- The exponent `e` with `2 ^ e ≤ a < 2 ^ (e + 1)`, for a positive rational `a`. -/
def floorLog2 (a : ℚ) : Int :=
  let e0 : Int := (natLog2 a.num.natAbs : Int) - (natLog2 a.den : Int)
  if pow2 e0 ≤ a then e0 else e0 - 1

/-- The integer nearest to `x ≥ 0`, the even one when two are equally near. -/
def roundHalfEven (x : ℚ) : Int :=
  let f : Int := Rat.floor x
  let r : ℚ := x - f
  if r < 1 / 2 then f
  else if 1 / 2 < r then f + 1
  else if f % 2 = 0 then f
  else f + 1

/-- The IEEE-754 double nearest to the rational `q` (binary64, round to nearest, ties to
even): 53 significant bits, exponents from -1022 to 1023, subnormal numbers below, and an
infinity when the rounded magnitude reaches `2 ^ 1024`. -/
def roundDouble (q : ℚ) : JSNum :=
  if q = 0 then .fin 0
  else
    let a : ℚ := if q < 0 then -q else q
    let e : Int := floorLog2 a
    let ulp : ℚ := pow2 ((if e < -1022 then -1022 else e) - 52)
    let m : ℚ := (roundHalfEven (a / ulp) : ℚ) * ulp
    if pow2 1024 ≤ m then (if 0 < q then .posInf else .negInf)
    else .fin (if 0 < q then m else -m)

/-- The sum of two doubles as JavaScript's `+` and Redis compute it: the exact sum of two
finite numbers, rounded to the nearest double. -/
def JSNum.addDouble : JSNum → JSNum → JSNum
  | .fin a, .fin b => roundDouble (a + b)
  | x, y => JSNum.add x y

/-- The command `ZINCRBY key increment member`, with the sum of the score and the increment
computed by `plus`. -/
def Redis.zincrbyWith (plus : JSNum → JSNum → JSNum) (db : Redis) (key : String)
    (increment : JSNum) (member : String) : Except String JSVal × Redis :=
  if increment.isNaN then (.error "ERR value is not a valid float", db)
  else
    let score := match lookup member (db.zsetOf key) with
      | some s => plus s increment
      | none => increment
    if score.isNaN then (.error "ERR resulting score is not a number (NaN)", db)
    else (.ok (scoreReply score),
          db.putZSet key (zinsert (member, score) (remove member (db.zsetOf key))))

/-- The method `add`, with the sums `current.value + change` and that of `ZINCRBY` computed
by `plus`. -/
def Pointomatic.addWith (plus : JSNum → JSNum → JSNum) (p : Pointomatic) (db : Redis)
    (key : String) (rawchange : JSVal) : Except PError KeyValueChange × Redis :=
  match p.assertKey key "add" with
  | .error e => (.error e, db)
  | .ok _ =>
    let change := parseFloat rawchange
    if change.isNaN then (.error .nonNumericChange, db)
    else
      match p.get db key with
      | .error e => (.error e, db)
      | .ok current =>
        let expected := plus current.value change
        match p.assertRange (.num expected) "add" with
        | .error e => (.error e, db)
        | .ok _ =>
          match db.zincrbyWith plus p.name change (p.encrypt key) with
          | (.error msg, db1) => (.error (.replyError msg), db1)
          | (.ok rawValue, db1) =>
            match p.parseNumber rawValue "add" with
            | .error e => (.error e, db1)
            | .ok value =>
              match p.assertRange (.num value) "add" with
              | .error e =>
                match db1.zincrbyWith plus p.name change.neg (p.encrypt key) with
                | (.error msg, db2) => (.error (.replyError msg), db2)
                | (.ok _, db2) => (.error e, db2)
              | .ok _ => (.ok ⟨key, value, change⟩, db1)

/-- The method `add` on doubles: every sum is rounded to the nearest double. -/
def Pointomatic.addRounded (p : Pointomatic) (db : Redis) (key : String) (rawchange : JSVal) :
    Except PError KeyValueChange × Redis :=
  p.addWith JSNum.addDouble db key rawchange

/-- The double nearest to `1/10`, the JavaScript number `0.1`. -/
def double01 : ℚ := 3602879701896397 / 36028797018963968

/-- The double nearest to `2/10`, the JavaScript number `0.2`. -/
def double02 : ℚ := 3602879701896397 / 18014398509481984

/-- The double nearest to `3/10`, the JavaScript number `0.3`. -/
def double03 : ℚ := 5404319552844595 / 18014398509481984

/-- The test ledger, without logging, with the key `abcdefgh` at `0.1`. -/
def dbTenth : Redis :=
  ((specs false).create Redis.empty "abcdefgh" (.num (.fin double01)) "first" utc).2

/-! ## Association lists and sorted sets -/

theorem lookup_remove_self {β : Type} (k : String) (l : List (String × β)) :
    lookup k (remove k l) = none := by
  induction l with
  | nil => rfl
  | cons h t ih =>
    obtain ⟨k', v⟩ := h
    by_cases hk : k' = k
    · simp [remove, hk, ih]
    · simp [remove, lookup, hk, ih]

theorem lookup_remove_ne {β : Type} {k m : String} (h : m ≠ k) (l : List (String × β)) :
    lookup m (remove k l) = lookup m l := by
  induction l with
  | nil => rfl
  | cons hd t ih =>
    obtain ⟨k', v⟩ := hd
    by_cases hk : k' = k
    · have hm : ¬ k' = m := fun e => h (e.symm.trans hk)
      rw [remove, if_pos hk, lookup, if_neg hm]
      exact ih
    · rw [remove, if_neg hk, lookup, lookup, ih]

theorem lookup_put_self {β : Type} (k : String) (v : β) (l : List (String × β)) :
    lookup k (put k v l) = some v := by
  simp [put, lookup]

theorem lookup_put_ne {β : Type} {k m : String} (h : m ≠ k) (v : β) (l : List (String × β)) :
    lookup m (put k v l) = lookup m l := by
  have hk : ¬ k = m := fun e => h e.symm
  simp [put, lookup, hk, lookup_remove_ne h]

theorem lookup_zinsert_ne {m : String} (e : String × JSNum) (z : ZSet) (h : m ≠ e.1) :
    lookup m (zinsert e z) = lookup m z := by
  obtain ⟨k, s⟩ := e
  have hk : ¬ k = m := fun e => h e.symm
  induction z with
  | nil => simp only [zinsert, lookup, if_neg hk]
  | cons hd t ih =>
    obtain ⟨k', v⟩ := hd
    by_cases hb : zbefore (k, s) (k', v) = true
    · rw [zinsert, if_pos hb, lookup, if_neg hk]
    · rw [zinsert, if_neg hb, lookup, lookup, ih]

theorem lookup_zinsert_self (m : String) (s : JSNum) (z : ZSet) (h : lookup m z = none) :
    lookup m (zinsert (m, s) z) = some s := by
  induction z with
  | nil => simp only [zinsert, lookup, if_pos]
  | cons hd t ih =>
    obtain ⟨k', v⟩ := hd
    by_cases hm : k' = m
    · rw [lookup, if_pos hm] at h
      exact absurd h (by simp)
    · rw [lookup, if_neg hm] at h
      by_cases hb : zbefore (m, s) (k', v) = true
      · rw [zinsert, if_pos hb, lookup, if_pos rfl]
      · rw [zinsert, if_neg hb, lookup, if_neg hm, ih h]

theorem zinsert_ne_nil (e : String × JSNum) (z : ZSet) : zinsert e z ≠ [] := by
  cases z with
  | nil => simp [zinsert]
  | cons hd t =>
    by_cases hb : zbefore e hd = true <;> simp [zinsert, hb]

namespace Redis

theorem zsetOf_putZSet_self (db : Redis) (key : String) (z : ZSet) :
    (db.putZSet key z).zsetOf key = z := by
  by_cases hz : z = []
  · simp [putZSet, zsetOf, hz, lookup_remove_self]
  · simp [putZSet, zsetOf, hz, lookup_put_self]

theorem zsetOf_putZSet_ne (db : Redis) {key other : String} (h : other ≠ key) (z : ZSet) :
    (db.putZSet key z).zsetOf other = db.zsetOf other := by
  by_cases hz : z = []
  · simp [putZSet, zsetOf, hz, lookup_remove_ne h]
  · simp [putZSet, zsetOf, hz, lookup_put_ne h]

theorem hashes_putZSet (db : Redis) (key : String) (z : ZSet) :
    (db.putZSet key z).hashes = db.hashes := rfl

theorem zsets_hset (db : Redis) (key field value : String) :
    (db.hset key field value).2.zsets = db.zsets := rfl

theorem hashOf_hset_self (db : Redis) (key field value : String) :
    (db.hset key field value).2.hashOf key = put field value (db.hashOf key) := by
  simp [hset, hashOf, lookup_put_self]

theorem hashOf_hset_ne (db : Redis) {key other : String} (h : other ≠ key)
    (field value : String) :
    (db.hset key field value).2.hashOf other = db.hashOf other := by
  simp [hset, hashOf, lookup_put_ne h]

/-- A field that exists still exists after any `HSET`. -/
theorem hexists_hset_of_hexists (db : Redis) (key field value : String) (l f : String)
    (h : db.hexists l f = 1) : (db.hset key field value).2.hexists l f = 1 := by
  have hl : lookup f (db.hashOf l) ≠ none := by
    intro hn
    simp [hexists, hn] at h
  by_cases hk : l = key
  · subst hk
    by_cases hf : f = field
    · subst hf
      simp [hexists, hashOf_hset_self, lookup_put_self]
    · simp only [hexists, hashOf_hset_self, lookup_put_ne hf]
      simpa [hexists] using h
  · simp only [hexists, hashOf_hset_ne db hk]
    simpa [hexists] using h

theorem hexists_hset_self (db : Redis) (key field value : String) :
    (db.hset key field value).2.hexists key field = 1 := by
  simp [hexists, hashOf_hset_self, lookup_put_self]

end Redis

/-! ## Validation -/

namespace Pointomatic

theorem assertKey_valid (p : Pointomatic) {k : String} (hk : p.invalid k = false)
    (method : String) : p.assertKey k method = .ok () := by
  simp [assertKey, hk]

theorem assertRange_fin (p : Pointomatic) (v : ℚ) (method : String) :
    p.assertRange (.num (.fin v)) method =
      if p.max < v then .error (.aboveMax method)
      else if v < p.min then .error (.belowMin method)
      else .ok () := by
  simp [assertRange, JSNum.isNaN, JSNum.gt, JSNum.lt]

theorem assertRange_inRange (p : Pointomatic) {v : ℚ} (hmin : p.min ≤ v) (hmax : v ≤ p.max)
    (method : String) : p.assertRange (.num (.fin v)) method = .ok () := by
  rw [assertRange_fin, if_neg (not_lt.mpr hmax), if_neg (not_lt.mpr hmin)]

theorem parseNumber_fin (p : Pointomatic) {raw : JSVal} {v : ℚ} (hv : parseFloat raw = .fin v)
    (method : String) : p.parseNumber raw method = .ok (.fin v) := by
  have hn : raw ≠ .null := by
    intro h
    rw [h] at hv
    simp [parseFloat] at hv
  simp [parseNumber, hn, hv, JSNum.isNaN]

theorem startsWith_append (name suffix : String) : startsWith (name ++ suffix) name = true := by
  simp [startsWith, List.isPrefixOf_iff_prefix]

end Pointomatic

/-! ## The audit log -/

namespace Pointomatic

theorem insertIntoLog_zsets (p : Pointomatic) (db : Redis) (logkey : Option String)
    (ek reason now : String) :
    (p.insertIntoLog db logkey ek reason now).2.zsets = db.zsets := by
  unfold insertIntoLog
  cases p.log <;> simp
  cases logkey with
  | none => rfl
  | some l =>
    by_cases hs : startsWith l p.name = true
    · simp [hs, Redis.zsets_hset]
    · simp [hs]

theorem insertIntoLog_createLog (p : Pointomatic) (db : Redis) (ek reason now : String) :
    ∃ r, (p.insertIntoLog db p.createLog ek reason now).1 = .ok r := by
  unfold insertIntoLog createLog
  cases p.log <;> simp [startsWith_append]

theorem insertIntoLog_deleteLog (p : Pointomatic) (db : Redis) (ek reason now : String) :
    ∃ r, (p.insertIntoLog db p.deleteLog ek reason now).1 = .ok r := by
  unfold insertIntoLog deleteLog
  cases p.log <;> simp [startsWith_append]

/-- Without logging `insertIntoLog` writes nothing. -/
theorem insertIntoLog_nolog (p : Pointomatic) (hlog : p.log = false) (db : Redis)
    (logkey : Option String) (ek reason now : String) :
    p.insertIntoLog db logkey ek reason now = (.ok (.bool false), db) := by
  simp [insertIntoLog, hlog]

/-- A key found in the deletion log is still found there after any `insertIntoLog`. -/
theorem inDeleteLog_insertIntoLog (p : Pointomatic) (db : Redis) (logkey : Option String)
    (ek reason now f : String) (h : p.inDeleteLog db f = true) :
    p.inDeleteLog (p.insertIntoLog db logkey ek reason now).2 f = true := by
  unfold inDeleteLog at h ⊢
  cases hl : p.log with
  | false => simp [hl] at h
  | true =>
    simp only [hl, deleteLog, Bool.not_true, Bool.false_eq_true, if_false, if_true,
      decide_eq_true_eq] at h ⊢
    unfold insertIntoLog
    simp only [hl, Bool.not_true, Bool.false_eq_true, if_false]
    cases logkey with
    | none => exact h
    | some l =>
      by_cases hs : startsWith l p.name = true
      · simp only [hs, Bool.not_true, Bool.false_eq_true, if_false]
        exact Redis.hexists_hset_of_hexists db l ek _ _ f h
      · simp only [hs, Bool.not_false, if_true]
        exact h

/-- With logging, the key written by `insertIntoLog` into the deletion log is found there. -/
theorem inDeleteLog_insertIntoLog_self (p : Pointomatic) (hlog : p.log = true) (db : Redis)
    (ek reason now : String) :
    p.inDeleteLog (p.insertIntoLog db p.deleteLog ek reason now).2 ek = true := by
  simp [inDeleteLog, insertIntoLog, deleteLog, hlog, startsWith_append,
    Redis.hexists_hset_self]

/-- The deletion log is read from the hashes only. -/
theorem inDeleteLog_congr (p : Pointomatic) {db db' : Redis} (h : db'.hashes = db.hashes)
    (f : String) : p.inDeleteLog db' f = p.inDeleteLog db f := by
  simp [inDeleteLog, Redis.hexists, Redis.hashOf, h]

end Pointomatic

/-- The scores are read from the sorted sets only. -/
theorem Redis.score?_congr {db db' : Redis} (h : db'.zsets = db.zsets) (key member : String) :
    db'.score? key member = db.score? key member := by
  simp [Redis.score?, Redis.zsetOf, h]

/-! ## `create` and `get` -/

namespace Pointomatic

/-- The value `get` returns is the stored score, when that score is finite. -/
theorem get_of_score (p : Pointomatic) (db : Redis) {k : String} (hk : p.invalid k = false)
    {c : ℚ} (hc : db.score? p.name (p.encrypt k) = some (.fin c)) :
    p.get db k = .ok ⟨k, .fin c⟩ := by
  unfold Redis.score? at hc
  simp [get, assertKey_valid p hk, Redis.zscore, hc, scoreReply, parseNumber, parseFloat,
    JSNum.isNaN]

/-- For an absent key `get` throws the non-existent key error. -/
theorem get_of_absent (p : Pointomatic) (db : Redis) {k : String} (hk : p.invalid k = false)
    (hc : db.score? p.name (p.encrypt k) = none) :
    p.get db k = .error (.nonExistentKey "get") := by
  unfold Redis.score? at hc
  simp [get, assertKey_valid p hk, Redis.zscore, hc, parseNumber]

/-- What `create` does once its three validations have passed. -/
theorem create_validated (p : Pointomatic) (db : Redis) {k : String} {raw : JSVal} {v : ℚ}
    (reason now : String) (hk : p.invalid k = false) (hv : parseFloat raw = .fin v)
    (hmin : p.min ≤ v) (hmax : v ≤ p.max) :
    p.create db k raw reason now =
      if p.inDeleteLog db (p.encrypt k) then (.error .conflictD, db)
      else
        match db.zaddNX p.name (.fin v) (p.encrypt k) with
        | (.error msg, db1) => (.error (.replyError msg), db1)
        | (.ok result, db1) =>
          if result = 1 then
            match p.insertIntoLog db1 p.createLog (p.encrypt k) reason now with
            | (.error e, db2) => (.error e, db2)
            | (.ok _, db2) => (.ok ⟨k, .fin v⟩, db2)
          else (.error .conflictE, db1) := by
  simp only [create, assertKey_valid p hk, parseNumber_fin p hv, assertRange_inRange p hmin hmax]

end Pointomatic

/-- C1: for a valid key that is absent from the ledger and not in the deletion log, and a raw
value that parses as a number `v` with `min ≤ v ≤ max`, `create` returns `{key, value: v}` and
a following `get` returns `{key, value: v}`. -/
theorem Pointomatic.create_then_get (p : Pointomatic) (db : Redis) (k : String) (raw : JSVal)
    (v : ℚ) (reason now : String)
    (hk : p.invalid k = false)
    (habs : db.score? p.name (p.encrypt k) = none)
    (hnt : p.inDeleteLog db (p.encrypt k) = false)
    (hv : parseFloat raw = .fin v) (hmin : p.min ≤ v) (hmax : v ≤ p.max) :
    (p.create db k raw reason now).1 = .ok ⟨k, .fin v⟩ ∧
    p.get (p.create db k raw reason now).2 k = .ok ⟨k, .fin v⟩ := by
  have hz : db.zaddNX p.name (.fin v) (p.encrypt k) =
      (.ok 1, db.putZSet p.name (zinsert (p.encrypt k, .fin v) (db.zsetOf p.name))) := by
    unfold Redis.score? at habs
    simp [Redis.zaddNX, JSNum.isNaN, habs]
  obtain ⟨r, hr⟩ := p.insertIntoLog_createLog
    (db.putZSet p.name (zinsert (p.encrypt k, .fin v) (db.zsetOf p.name))) (p.encrypt k) reason now
  have hc : p.create db k raw reason now =
      (.ok ⟨k, .fin v⟩, (p.insertIntoLog
        (db.putZSet p.name (zinsert (p.encrypt k, .fin v) (db.zsetOf p.name)))
        p.createLog (p.encrypt k) reason now).2) := by
    rw [create_validated p db reason now hk hv hmin hmax, hnt, hz]
    simp only [Bool.false_eq_true, if_false, if_true]
    generalize p.insertIntoLog _ p.createLog (p.encrypt k) reason now = w at hr ⊢
    obtain ⟨w1, w2⟩ := w
    simp only at hr
    subst hr
    rfl
  rw [hc]
  refine ⟨rfl, ?_⟩
  apply get_of_score p _ hk
  rw [Redis.score?_congr (insertIntoLog_zsets p _ _ _ _ _), Redis.score?,
    Redis.zsetOf_putZSet_self]
  exact lookup_zinsert_self _ _ _ habs

/-- Witness of C1 on the test ledger: `create("abcdefgh", 150)` on an empty server. -/
theorem Pointomatic.create_then_get_witness :
    ((specs true).create Redis.empty "abcdefgh" (.num (.fin 150)) "first" utc).1
        = .ok ⟨"abcdefgh", .fin 150⟩ ∧
    (specs true).get ((specs true).create Redis.empty "abcdefgh" (.num (.fin 150)) "first" utc).2
        "abcdefgh" = .ok ⟨"abcdefgh", .fin 150⟩ :=
  Pointomatic.create_then_get (specs true) Redis.empty "abcdefgh" (.num (.fin 150)) 150
    "first" utc (by decide) (by decide) (by decide) rfl (by decide) (by decide)

/-- C2: for a valid key that is present in the ledger (with any score `v0`) and not in the
deletion log, and a raw value that parses as a number in `[min, max]`, `create` throws the
`conflict E` error and leaves the whole Redis state as it was: the score of the key is still
`v0`, and no other entry and no log record has changed. -/
theorem Pointomatic.create_existing_conflict (p : Pointomatic) (db : Redis) (k : String)
    (raw : JSVal) (v : ℚ) (v0 : JSNum) (reason now : String)
    (hk : p.invalid k = false)
    (hpres : db.score? p.name (p.encrypt k) = some v0)
    (hnt : p.inDeleteLog db (p.encrypt k) = false)
    (hv : parseFloat raw = .fin v) (hmin : p.min ≤ v) (hmax : v ≤ p.max) :
    (p.create db k raw reason now).1 = .error .conflictE ∧
    (p.create db k raw reason now).2 = db ∧
    (p.create db k raw reason now).2.score? p.name (p.encrypt k) = some v0 := by
  have hz : db.zaddNX p.name (.fin v) (p.encrypt k) = (.ok 0, db) := by
    unfold Redis.score? at hpres
    simp [Redis.zaddNX, JSNum.isNaN, hpres]
  have hc : p.create db k raw reason now = (.error .conflictE, db) := by
    rw [create_validated p db reason now hk hv hmin hmax, hnt, hz]
    simp
  rw [hc]
  exact ⟨rfl, rfl, hpres⟩

/-- Witness of C2 on the test ledger: a second `create("bbbbbbbb", 100)`. -/
theorem Pointomatic.create_existing_conflict_witness :
    ((specs true).create dbCreated "bbbbbbbb" (.num (.fin 100)) "second" utc).1
        = .error .conflictE ∧
    ((specs true).create dbCreated "bbbbbbbb" (.num (.fin 100)) "second" utc).2 = dbCreated ∧
    ((specs true).create dbCreated "bbbbbbbb" (.num (.fin 100)) "second" utc).2.score?
        (specs true).name ((specs true).encrypt "bbbbbbbb") = some (.fin 30) :=
  Pointomatic.create_existing_conflict (specs true) dbCreated "bbbbbbbb" (.num (.fin 100)) 100
    (.fin 30) "second" utc (by decide) (by decide) (by decide) rfl (by decide) (by decide)

/-! ## The deletion log only grows -/

namespace Redis

theorem zaddNX_hashes (db : Redis) (key : String) (s : JSNum) (m : String) :
    (db.zaddNX key s m).2.hashes = db.hashes := by
  unfold zaddNX
  split
  · rfl
  · split <;> rfl

theorem zincrby_hashes (db : Redis) (key : String) (s : JSNum) (m : String) :
    (db.zincrby key s m).2.hashes = db.hashes := by
  unfold zincrby
  split
  · rfl
  · simp only []
    split <;> rfl

theorem zrem_hashes (db : Redis) (key m : String) : (db.zrem key m).2.hashes = db.hashes := by
  unfold zrem
  split <;> rfl

theorem zremrangebyscore_hashes (db : Redis) (key : String) (lo hi : ScoreBound) :
    (db.zremrangebyscore key lo hi).2.hashes = db.hashes := rfl

end Redis

namespace Pointomatic

theorem inDeleteLog_create (p : Pointomatic) (db : Redis) (k : String) (raw : JSVal)
    (reason now f : String) (h : p.inDeleteLog db f = true) :
    p.inDeleteLog (p.create db k raw reason now).2 f = true := by
  unfold create
  split
  · exact h
  · split
    · exact h
    · split
      · exact h
      · simp only []
        split
        · exact h
        · split
          · next msg db1 heq =>
            have h1 := (congrArg Prod.snd heq).symm
            dsimp only at h1
            rw [h1, inDeleteLog_congr p (Redis.zaddNX_hashes _ _ _ _)]
            exact h
          · next result db1 heq =>
            have h1 := (congrArg Prod.snd heq).symm
            dsimp only at h1
            have h2 : p.inDeleteLog db1 f = true := by
              rw [h1, inDeleteLog_congr p (Redis.zaddNX_hashes _ _ _ _)]
              exact h
            split
            · split
              · next e db2 heq2 =>
                have h3 := (congrArg Prod.snd heq2).symm
                dsimp only at h3
                rw [h3]
                exact inDeleteLog_insertIntoLog p db1 _ _ _ _ f h2
              · next r db2 heq2 =>
                have h3 := (congrArg Prod.snd heq2).symm
                dsimp only at h3
                rw [h3]
                exact inDeleteLog_insertIntoLog p db1 _ _ _ _ f h2
            · exact h2

/-- No call of `add` writes a hash. -/
theorem add_hashes (p : Pointomatic) (db : Redis) (k : String) (raw : JSVal) :
    (p.add db k raw).2.hashes = db.hashes := by
  unfold add
  split
  · rfl
  · simp only []
    split
    · rfl
    · split
      · rfl
      · split
        · rfl
        · split
          · next msg db1 heq =>
            have h1 := (congrArg Prod.snd heq).symm
            dsimp only at h1
            rw [h1]
            exact Redis.zincrby_hashes _ _ _ _
          · next rawValue db1 heq =>
            have h1 := (congrArg Prod.snd heq).symm
            dsimp only at h1
            have h2 : db1.hashes = db.hashes := by
              rw [h1]
              exact Redis.zincrby_hashes _ _ _ _
            split
            · exact h2
            · split
              · split
                · next msg db2 heq2 =>
                  have h3 := (congrArg Prod.snd heq2).symm
                  dsimp only at h3
                  rw [h3, Redis.zincrby_hashes, h2]
                · next r db2 heq2 =>
                  have h3 := (congrArg Prod.snd heq2).symm
                  dsimp only at h3
                  rw [h3, Redis.zincrby_hashes, h2]
              · exact h2

theorem inDeleteLog_delete (p : Pointomatic) (db : Redis) (k reason now f : String)
    (h : p.inDeleteLog db f = true) :
    p.inDeleteLog (p.delete db k reason now).2 f = true := by
  have h2 : p.inDeleteLog (db.zrem p.name (p.encrypt k)).2 f = true := by
    rw [inDeleteLog_congr p (Redis.zrem_hashes _ _ _)]
    exact h
  unfold delete
  split
  · exact h
  · simp only []
    split
    · split
      · next e db2 heq2 =>
        have h3 := (congrArg Prod.snd heq2).symm
        dsimp only at h3
        rw [h3]
        exact inDeleteLog_insertIntoLog p _ _ _ _ _ f h2
      · next r db2 heq2 =>
        have h3 := (congrArg Prod.snd heq2).symm
        dsimp only at h3
        rw [h3]
        exact inDeleteLog_insertIntoLog p _ _ _ _ _ f h2
    · exact h2

theorem inDeleteLog_insertAllIntoLog (p : Pointomatic) (logkey : Option String)
    (reason : String) (now : Nat → String) (f : String) (ks : List String) :
    ∀ (i : Nat) (db : Redis), p.inDeleteLog db f = true →
      p.inDeleteLog (insertAllIntoLog p logkey reason now i ks db).2 f = true := by
  induction ks with
  | nil =>
    intro i db h
    exact h
  | cons k ks ih =>
    intro i db h
    have h1 := inDeleteLog_insertIntoLog p db logkey k reason (now i) f h
    unfold insertAllIntoLog
    split
    · next e db1 heq =>
      have h3 := (congrArg Prod.snd heq).symm
      dsimp only at h3
      rw [← h3] at h1
      exact ih (i + 1) db1 h1
    · next r db1 heq =>
      have h3 := (congrArg Prod.snd heq).symm
      dsimp only at h3
      rw [← h3] at h1
      exact ih (i + 1) db1 h1

theorem inDeleteLog_reap (p : Pointomatic) (db : Redis) (reason : String) (now : Nat → String)
    (f : String) (h : p.inDeleteLog db f = true) :
    p.inDeleteLog (p.reap db reason now).2 f = true := by
  unfold reap
  simp only []
  split
  · have h1 := inDeleteLog_insertAllIntoLog p p.deleteLog reason now f
      (db.zrangebyscore p.name p.belowMinRange.1 p.belowMinRange.2) 0 db h
    split
    · next e db1 heq =>
      have h3 := (congrArg Prod.snd heq).symm
      dsimp only at h3
      rw [← h3] at h1
      exact h1
    · next db1 heq =>
      have h3 := (congrArg Prod.snd heq).symm
      dsimp only at h3
      rw [← h3] at h1
      rw [inDeleteLog_congr p (Redis.zremrangebyscore_hashes _ _ _ _)]
      exact h1
  · rw [inDeleteLog_congr p (Redis.zremrangebyscore_hashes _ _ _ _)]
    exact h

/-- No call removes a record of the deletion log. -/
theorem inDeleteLog_exec (p : Pointomatic) (db : Redis) (c : Call) (f : String)
    (h : p.inDeleteLog db f = true) : p.inDeleteLog (p.exec db c) f = true := by
  cases c with
  | create key rawvalue reason now => exact inDeleteLog_create p db key rawvalue reason now f h
  | add key rawchange =>
    show p.inDeleteLog (p.add db key rawchange).2 f = true
    rw [inDeleteLog_congr p (add_hashes p db key rawchange)]
    exact h
  | delete key reason now => exact inDeleteLog_delete p db key reason now f h
  | reap reason now => exact inDeleteLog_reap p db reason now f h
  | get key => exact h

theorem inDeleteLog_run (p : Pointomatic) (f : String) (calls : List Call) :
    ∀ db : Redis, p.inDeleteLog db f = true → p.inDeleteLog (p.run db calls) f = true := by
  induction calls with
  | nil =>
    intro db h
    exact h
  | cons c cs ih =>
    intro db h
    exact ih (p.exec db c) (inDeleteLog_exec p db c f h)

/-- With logging, a `delete` that reports `deleted: true` leaves the key in the deletion
log. -/
theorem inDeleteLog_of_deleted (p : Pointomatic) (hlog : p.log = true) (db : Redis)
    (k reason now : String)
    (hdel : (p.delete db k reason now).1 = .ok ⟨k, true⟩) :
    p.inDeleteLog (p.delete db k reason now).2 (p.encrypt k) = true := by
  unfold delete at hdel ⊢
  split at hdel
  · simp at hdel
  · simp only [] at hdel ⊢
    split at hdel
    · next hc =>
      rw [if_pos hc]
      have h1 := inDeleteLog_insertIntoLog_self p hlog (db.zrem p.name (p.encrypt k)).2
        (p.encrypt k) reason now
      split
      · next e db2 heq2 =>
        have h3 := (congrArg Prod.snd heq2).symm
        dsimp only at h3
        rw [h3]
        exact h1
      · next r db2 heq2 =>
        have h3 := (congrArg Prod.snd heq2).symm
        dsimp only at h3
        rw [h3]
        exact h1
    · next hc =>
      simp [hc] at hdel

/-- A `create` for a key of the deletion log throws and leaves the Redis state as it was;
the error is `conflict D` as soon as the three validations pass. -/
theorem create_tombstoned (p : Pointomatic) (db : Redis) (k : String) (raw : JSVal)
    (reason now : String) (h : p.inDeleteLog db (p.encrypt k) = true) :
    (∃ e, (p.create db k raw reason now).1 = .error e) ∧
    (p.create db k raw reason now).2 = db := by
  unfold create
  split
  · exact ⟨⟨_, rfl⟩, rfl⟩
  · split
    · exact ⟨⟨_, rfl⟩, rfl⟩
    · split
      · exact ⟨⟨_, rfl⟩, rfl⟩
      · simp [h]

end Pointomatic

/-- C3, as stated, fails: on the test ledger with logging, after `create("bbbbbbbb", 30)`
and `delete("bbbbbbbb", "testing")` (which reports `deleted: true`), the call
`create("bbbbbbbb", 200, "again")` throws `invalid value above max`, not `conflict D`. -/
theorem Pointomatic.create_after_delete_counterexample :
    ((specs true).delete dbCreated "bbbbbbbb" "testing" utc).1 = .ok ⟨"bbbbbbbb", true⟩ ∧
    ((specs true).create dbDeleted "bbbbbbbb" (.num (.fin 200)) "again" utc).1
        = .error (.aboveMax "create") ∧
    ((specs true).create dbDeleted "bbbbbbbb" (.num (.fin 200)) "again" utc).1
        ≠ .error .conflictD := by
  decide

/-- C3, amended: with logging enabled, once `delete(k, r)` has removed the valid key `k`,
then after any sequence of `create`, `add`, `delete`, `reap` and `get` calls every
`create(k, raw, r')` throws and leaves the Redis state as it was (nothing is inserted into
the score store); the error is `conflict D` whenever `raw` parses as a number in
`[min, max]`. -/
theorem Pointomatic.tombstone_permanent (p : Pointomatic) (db : Redis) (k r now : String)
    (calls : List Call) (raw : JSVal) (r' now' : String)
    (hlog : p.log = true) (hk : p.invalid k = false)
    (hdel : (p.delete db k r now).1 = .ok ⟨k, true⟩) :
    (∃ e, (p.create (p.run (p.delete db k r now).2 calls) k raw r' now').1 = .error e) ∧
    (p.create (p.run (p.delete db k r now).2 calls) k raw r' now').2
        = p.run (p.delete db k r now).2 calls ∧
    (∀ v : ℚ, parseFloat raw = .fin v → p.min ≤ v → v ≤ p.max →
      (p.create (p.run (p.delete db k r now).2 calls) k raw r' now').1 = .error .conflictD) := by
  have ht : p.inDeleteLog (p.run (p.delete db k r now).2 calls) (p.encrypt k) = true :=
    inDeleteLog_run p (p.encrypt k) calls _ (inDeleteLog_of_deleted p hlog db k r now hdel)
  obtain ⟨he, hs⟩ := create_tombstoned p _ k raw r' now' ht
  refine ⟨he, hs, ?_⟩
  intro v hv hmin hmax
  rw [create_validated p _ r' now' hk hv hmin hmax, ht]
  rfl

/-- Witness of C3 on the test ledger: `bbbbbbbb` is created and deleted, other calls follow,
and `create("bbbbbbbb", 99, "again")` throws `conflict D`. -/
theorem Pointomatic.tombstone_permanent_witness :
    ((specs true).create
      ((specs true).run ((specs true).delete dbCreated "bbbbbbbb" "testing" utc).2
        [.create "abcdefgh" (.num (.fin 150)) "first" utc,
         .add "abcdefgh" (.num (.fin (-50))),
         .delete "abcdefgh" "cleanup" utc,
         .reap "expended" (fun _ => utc),
         .get "bbbbbbbb"])
      "bbbbbbbb" (.num (.fin 99)) "again" utc).1 = .error .conflictD :=
  (Pointomatic.tombstone_permanent (specs true) dbCreated "bbbbbbbb" "testing" utc
    [.create "abcdefgh" (.num (.fin 150)) "first" utc,
     .add "abcdefgh" (.num (.fin (-50))),
     .delete "abcdefgh" "cleanup" utc,
     .reap "expended" (fun _ => utc),
     .get "bbbbbbbb"]
    (.num (.fin 99)) "again" utc rfl (by decide) (by decide)).2.2 99 rfl (by decide) (by decide)

/-! ## `assertRange` -/

/-- C9: for every finite number `v`, `assertRange(v, method)` returns normally if and only if
`min ≤ v ≤ max`; it throws `invalid value above max` when `v > max`, and
`invalid value below min` when `v ≤ max` and `v < min`. -/
theorem Pointomatic.assertRange_finite (p : Pointomatic) (v : ℚ) (method : String) :
    (p.assertRange (.num (.fin v)) method = .ok () ↔ p.min ≤ v ∧ v ≤ p.max) ∧
    (p.max < v → p.assertRange (.num (.fin v)) method = .error (.aboveMax method)) ∧
    (v ≤ p.max → v < p.min → p.assertRange (.num (.fin v)) method = .error (.belowMin method)) := by
  rw [assertRange_fin]
  refine ⟨?_, ?_, ?_⟩
  · constructor
    · intro h
      by_cases h1 : p.max < v
      · rw [if_pos h1] at h
        cases h
      · rw [if_neg h1] at h
        by_cases h2 : v < p.min
        · rw [if_pos h2] at h
          cases h
        · exact ⟨not_lt.mp h2, not_lt.mp h1⟩
    · intro h
      rw [if_neg (not_lt.mpr h.2), if_neg (not_lt.mpr h.1)]
  · intro h
    rw [if_pos h]
  · intro h1 h2
    rw [if_neg (not_lt.mpr h1), if_pos h2]

/-- Witness of C9 on the test ledger (`min` 0, `max` 150): 90 passes, 151 is above max and
-1 is below min. -/
theorem Pointomatic.assertRange_finite_witness :
    (specs false).assertRange (.num (.fin 90)) "method" = .ok () ∧
    (specs false).assertRange (.num (.fin 151)) "method" = .error (.aboveMax "method") ∧
    (specs false).assertRange (.num (.fin (-1))) "method" = .error (.belowMin "method") :=
  ⟨(Pointomatic.assertRange_finite (specs false) 90 "method").1.mpr ⟨by decide, by decide⟩,
   (Pointomatic.assertRange_finite (specs false) 151 "method").2.1 (by decide),
   (Pointomatic.assertRange_finite (specs false) (-1) "method").2.2 (by decide) (by decide)⟩

/-- C10, as stated, fails: on the test ledger `assertRange(Infinity)` throws
`invalid value above max` and `assertRange(-Infinity)` throws `invalid value below min`;
neither throws `invalid value, expected a number`. -/
theorem Pointomatic.assertRange_infinity_counterexample :
    (specs false).assertRange (.num .posInf) "method" = .error (.aboveMax "method") ∧
    (specs false).assertRange (.num .posInf) "method" ≠ .error (.expectedNumber "method") ∧
    (specs false).assertRange (.num .negInf) "method" = .error (.belowMin "method") ∧
    (specs false).assertRange (.num .negInf) "method" ≠ .error (.expectedNumber "method") := by
  decide

/-- C10, amended: for every value that is not of number type, and for `NaN`,
`assertRange(v, method)` throws `invalid value, expected a number`, whatever `min` and `max`
are (the check comes before the comparisons); `+Infinity` passes that check and throws
`invalid value above max`, and `-Infinity` throws `invalid value below min`. -/
theorem Pointomatic.assertRange_not_a_number (p : Pointomatic) (v : JSVal) (method : String)
    (hv : v.isNumber = false ∨ v = .num .nan) :
    p.assertRange v method = .error (.expectedNumber method) ∧
    p.assertRange (.num .posInf) method = .error (.aboveMax method) ∧
    p.assertRange (.num .negInf) method = .error (.belowMin method) := by
  refine ⟨?_, ?_, ?_⟩
  · rcases hv with hv | hv
    · cases v with
      | num n => simp [JSVal.isNumber] at hv
      | undefined => rfl
      | null => rfl
      | bool b => rfl
      | str s => rfl
    · rw [hv]
      rfl
  · simp [assertRange, JSNum.isNaN, JSNum.gt, JSNum.lt]
  · simp [assertRange, JSNum.isNaN, JSNum.gt, JSNum.lt]

/-- Witness of C10 (amended) on the test ledger, at the string `non-numeric` of the test
suite. -/
theorem Pointomatic.assertRange_not_a_number_witness :
    (specs false).assertRange (.str "non-numeric") "method" = .error (.expectedNumber "method") :=
  (Pointomatic.assertRange_not_a_number (specs false) (.str "non-numeric") "method"
    (Or.inl rfl)).1

/-! ## `add` -/

namespace Redis

theorem score?_putZSet_self (db : Redis) (key member : String) (z : ZSet) :
    (db.putZSet key z).score? key member = lookup member z := by
  rw [score?, zsetOf_putZSet_self]

theorem score?_putZSet_ne (db : Redis) {key other : String} (h : other ≠ key) (member : String)
    (z : ZSet) : (db.putZSet key z).score? other member = db.score? other member := by
  rw [score?, zsetOf_putZSet_ne db h]
  rfl

/-- The scores after a member was given a new score. -/
theorem score?_putZSet_zinsert (db : Redis) (key m : String) (s : JSNum) :
    (db.putZSet key (zinsert (m, s) (remove m (db.zsetOf key)))).score? key m = some s ∧
    (∀ key' m', key' ≠ key ∨ m' ≠ m →
      (db.putZSet key (zinsert (m, s) (remove m (db.zsetOf key)))).score? key' m'
        = db.score? key' m') := by
  constructor
  · rw [score?_putZSet_self]
    exact lookup_zinsert_self _ _ _ (lookup_remove_self _ _)
  · intro key' m' h
    by_cases hkey : key' = key
    · subst hkey
      have hm : m' ≠ m := by
        rcases h with h | h
        · exact absurd rfl h
        · exact h
      rw [score?_putZSet_self, lookup_zinsert_ne _ _ hm, lookup_remove_ne hm]
      rfl
    · exact score?_putZSet_ne db hkey _ _

theorem zincrby_present (db : Redis) (key m : String) (c d : ℚ)
    (h : db.score? key m = some (.fin c)) :
    db.zincrby key (.fin d) m =
      (.ok (.num (.fin (c + d))),
       db.putZSet key (zinsert (m, .fin (c + d)) (remove m (db.zsetOf key)))) := by
  unfold score? at h
  simp [zincrby, JSNum.isNaN, h, JSNum.add, scoreReply]

end Redis

/-- C4: for a valid key present with the finite value `c` and a raw change that parses as a
number `d` with `min ≤ c + d ≤ max` (so `d` is finite), `add` returns
`{key, value: c + d, change: d}`, the stored value of the key becomes `c + d`, and every
other entry (of this and of any other sorted set) and every hash is unchanged. -/
theorem Pointomatic.add_in_range (p : Pointomatic) (db : Redis) (k : String) (raw : JSVal)
    (c d : ℚ)
    (hk : p.invalid k = false)
    (hc : db.score? p.name (p.encrypt k) = some (.fin c))
    (hd : parseFloat raw = .fin d) (hmin : p.min ≤ c + d) (hmax : c + d ≤ p.max) :
    (p.add db k raw).1 = .ok ⟨k, .fin (c + d), .fin d⟩ ∧
    (p.add db k raw).2.score? p.name (p.encrypt k) = some (.fin (c + d)) ∧
    (∀ key m, key ≠ p.name ∨ m ≠ p.encrypt k →
      (p.add db k raw).2.score? key m = db.score? key m) ∧
    (p.add db k raw).2.hashes = db.hashes := by
  have ha : p.add db k raw =
      (.ok ⟨k, .fin (c + d), .fin d⟩,
       db.putZSet p.name (zinsert (p.encrypt k, .fin (c + d))
         (remove (p.encrypt k) (db.zsetOf p.name)))) := by
    simp only [add, assertKey_valid p hk, hd, JSNum.isNaN, get_of_score p db hk hc, JSNum.add,
      assertRange_inRange p hmin hmax, Redis.zincrby_present db _ _ c d hc]
    simp [parseNumber, parseFloat, JSNum.isNaN, assertRange_inRange p hmin hmax]
  rw [ha]
  obtain ⟨h1, h2⟩ := Redis.score?_putZSet_zinsert db p.name (p.encrypt k) (.fin (c + d))
  exact ⟨rfl, h1, h2, rfl⟩

/-- Witness of C4 on the test ledger: `add("abcdefgh", -50)` on the value 150. -/
theorem Pointomatic.add_in_range_witness :
    ((specs false).add
      ((specs false).create Redis.empty "abcdefgh" (.num (.fin 150)) "first" utc).2
      "abcdefgh" (.num (.fin (-50)))).1 = .ok ⟨"abcdefgh", .fin (150 + -50), .fin (-50)⟩ :=
  (Pointomatic.add_in_range (specs false)
    ((specs false).create Redis.empty "abcdefgh" (.num (.fin 150)) "first" utc).2
    "abcdefgh" (.num (.fin (-50))) 150 (-50) (by decide) (by decide) rfl
    (by decide!) (by decide!)).1

/-- C5: for a valid key present with the finite value `c` and a raw change that parses as a
number `d` (not `NaN`; it may be infinite) such that `c + d > max` or `c + d < min`, on a
ledger whose bounds satisfy `min ≤ max`, `add` throws `invalid value above max` when
`c + d > max` and `invalid value below min` when `c + d < min`, and the Redis state is left
as it was: the stored value of the key is still `c` and no other entry has changed. -/
theorem Pointomatic.add_out_of_range (p : Pointomatic) (db : Redis) (k : String) (raw : JSVal)
    (c : ℚ) (d : JSNum)
    (hmm : p.min ≤ p.max)
    (hk : p.invalid k = false)
    (hc : db.score? p.name (p.encrypt k) = some (.fin c))
    (hd : parseFloat raw = d) (hnan : d.isNaN = false)
    (hout : ((JSNum.fin c).add d).gt (.fin p.max) = true ∨
      ((JSNum.fin c).add d).lt (.fin p.min) = true) :
    (((JSNum.fin c).add d).gt (.fin p.max) = true →
      (p.add db k raw).1 = .error (.aboveMax "add")) ∧
    (((JSNum.fin c).add d).lt (.fin p.min) = true →
      (p.add db k raw).1 = .error (.belowMin "add")) ∧
    (p.add db k raw).2 = db ∧
    (p.add db k raw).2.score? p.name (p.encrypt k) = some (.fin c) := by
  have ha : p.add db k raw =
      match p.assertRange (.num ((JSNum.fin c).add d)) "add" with
      | .error e => (.error e, db)
      | .ok _ => (p.add db k raw) := by
    cases hr : p.assertRange (.num ((JSNum.fin c).add d)) "add" with
    | error e =>
      simp only [add, assertKey_valid p hk, hd, hnan, get_of_score p db hk hc, hr]
      simp
    | ok u => rfl
  cases d with
  | nan => simp [JSNum.isNaN] at hnan
  | posInf =>
    have hr : p.assertRange (.num ((JSNum.fin c).add .posInf)) "add" = .error (.aboveMax "add") := by
      simp [assertRange, JSNum.add, JSNum.isNaN, JSNum.gt, JSNum.lt]
    rw [hr] at ha
    rw [ha]
    refine ⟨fun _ => rfl, ?_, rfl, hc⟩
    intro h
    simp [JSNum.add, JSNum.lt] at h
  | negInf =>
    have hr : p.assertRange (.num ((JSNum.fin c).add .negInf)) "add" = .error (.belowMin "add") := by
      simp [assertRange, JSNum.add, JSNum.isNaN, JSNum.gt, JSNum.lt]
    rw [hr] at ha
    rw [ha]
    refine ⟨?_, fun _ => rfl, rfl, hc⟩
    intro h
    simp [JSNum.add, JSNum.gt, JSNum.lt] at h
  | fin q =>
    have hadd : (JSNum.fin c).add (.fin q) = .fin (c + q) := rfl
    rw [hadd] at ha hout ⊢
    simp only [JSNum.gt, JSNum.lt, decide_eq_true_eq] at hout ⊢
    rw [assertRange_fin] at ha
    by_cases h1 : p.max < c + q
    · rw [if_pos h1] at ha
      rw [ha]
      refine ⟨fun _ => rfl, ?_, rfl, hc⟩
      intro h2
      exact absurd (lt_of_lt_of_le h2 hmm) (not_lt.mpr (le_of_lt h1))
    · have h2 : c + q < p.min := by
        rcases hout with h | h
        · exact absurd h h1
        · exact h
      rw [if_neg h1, if_pos h2] at ha
      rw [ha]
      exact ⟨fun h => absurd h h1, fun _ => rfl, rfl, hc⟩

/-- Witness of C5 on the test ledger: `add("abcdefgh", 50)` on the value 150 throws
`invalid value above max`. -/
theorem Pointomatic.add_out_of_range_witness :
    ((specs false).add
      ((specs false).create Redis.empty "abcdefgh" (.num (.fin 150)) "first" utc).2
      "abcdefgh" (.num (.fin 50))).1 = .error (.aboveMax "add") :=
  (Pointomatic.add_out_of_range (specs false)
    ((specs false).create Redis.empty "abcdefgh" (.num (.fin 150)) "first" utc).2
    "abcdefgh" (.num (.fin 50)) 150 (.fin 50) (by decide) (by decide) (by decide) rfl rfl
    (Or.inl (by decide!))).1 (by decide!)

/-- C6: for a valid key that is absent from the ledger and a raw change that parses as a
number (not `NaN`), `add` throws the `non-existent key` error raised by `get`, and the Redis
state is left as it was: the key is still absent and `ZINCRBY` was not sent. -/
theorem Pointomatic.add_absent (p : Pointomatic) (db : Redis) (k : String) (raw : JSVal)
    (hk : p.invalid k = false)
    (habs : db.score? p.name (p.encrypt k) = none)
    (hd : (parseFloat raw).isNaN = false) :
    (p.add db k raw).1 = .error (.nonExistentKey "get") ∧
    (p.add db k raw).2 = db ∧
    (p.add db k raw).2.score? p.name (p.encrypt k) = none := by
  have ha : p.add db k raw = (.error (.nonExistentKey "get"), db) := by
    simp only [add, assertKey_valid p hk, hd, get_of_absent p db hk habs]
    simp
  rw [ha]
  exact ⟨rfl, rfl, habs⟩

/-- Witness of C6 on the test ledger: `add("cccccccc", -5)` on an empty server. -/
theorem Pointomatic.add_absent_witness :
    ((specs false).add Redis.empty "cccccccc" (.num (.fin (-5)))).1
        = .error (.nonExistentKey "get") ∧
    ((specs false).add Redis.empty "cccccccc" (.num (.fin (-5)))).2 = Redis.empty ∧
    ((specs false).add Redis.empty "cccccccc" (.num (.fin (-5)))).2.score?
        (specs false).name ((specs false).encrypt "cccccccc") = none :=
  Pointomatic.add_absent (specs false) Redis.empty "cccccccc" (.num (.fin (-5)))
    (by decide) (by decide) rfl

/-! ## `delete` and `reap` -/

namespace Redis

theorem zrem_present (db : Redis) (key m : String) (s : JSNum)
    (h : db.score? key m = some s) :
    db.zrem key m = (1, db.putZSet key (remove m (db.zsetOf key))) := by
  unfold score? at h
  simp [zrem, h]

/-- The scores after a member was removed. -/
theorem score?_putZSet_remove (db : Redis) (key m : String) :
    (db.putZSet key (remove m (db.zsetOf key))).score? key m = none ∧
    (∀ key' m', key' ≠ key ∨ m' ≠ m →
      (db.putZSet key (remove m (db.zsetOf key))).score? key' m' = db.score? key' m') := by
  constructor
  · rw [score?_putZSet_self]
    exact lookup_remove_self _ _
  · intro key' m' h
    by_cases hkey : key' = key
    · subst hkey
      have hm : m' ≠ m := by
        rcases h with h | h
        · exact absurd rfl h
        · exact h
      rw [score?_putZSet_self, lookup_remove_ne hm]
      rfl
    · exact score?_putZSet_ne db hkey _ _

end Redis

namespace Pointomatic

/-- With logging, the record `insertIntoLog` writes into the deletion log. -/
theorem field?_insertIntoLog_deleteLog (p : Pointomatic) (hlog : p.log = true) (db : Redis)
    (ek reason now : String) :
    (p.insertIntoLog db p.deleteLog ek reason now).2.field? (p.name ++ "DeleteLog") ek
      = some (now ++ "---" ++ reason) := by
  simp [insertIntoLog, deleteLog, hlog, startsWith_append, Redis.field?,
    Redis.hashOf_hset_self, lookup_put_self]

end Pointomatic

/-- C7: for a valid key present in the ledger, `delete` returns `{key, deleted: true}`,
removes the entry of the key and no other entry of any sorted set, and, when logging is
enabled, leaves for `encrypt(key)` the record `now---reason` in the deletion log, so that
`inDeleteLog(encrypt(key))` is true afterwards. -/
theorem Pointomatic.delete_present (p : Pointomatic) (db : Redis) (k reason now : String)
    (v0 : JSNum)
    (hk : p.invalid k = false)
    (hpres : db.score? p.name (p.encrypt k) = some v0) :
    (p.delete db k reason now).1 = .ok ⟨k, true⟩ ∧
    (p.delete db k reason now).2.score? p.name (p.encrypt k) = none ∧
    (∀ key m, key ≠ p.name ∨ m ≠ p.encrypt k →
      (p.delete db k reason now).2.score? key m = db.score? key m) ∧
    (p.log = true →
      p.inDeleteLog (p.delete db k reason now).2 (p.encrypt k) = true ∧
      (p.delete db k reason now).2.field? (p.name ++ "DeleteLog") (p.encrypt k)
        = some (now ++ "---" ++ reason)) := by
  obtain ⟨r, hr⟩ := p.insertIntoLog_deleteLog
    (db.putZSet p.name (remove (p.encrypt k) (db.zsetOf p.name))) (p.encrypt k) reason now
  have hdl : p.delete db k reason now =
      (.ok ⟨k, true⟩, (p.insertIntoLog
        (db.putZSet p.name (remove (p.encrypt k) (db.zsetOf p.name)))
        p.deleteLog (p.encrypt k) reason now).2) := by
    simp only [delete, assertKey_valid p hk, Redis.zrem_present db _ _ v0 hpres, if_true]
    generalize p.insertIntoLog _ p.deleteLog (p.encrypt k) reason now = w at hr ⊢
    obtain ⟨w1, w2⟩ := w
    simp only at hr
    subst hr
    simp
  rw [hdl]
  obtain ⟨h1, h2⟩ := Redis.score?_putZSet_remove db p.name (p.encrypt k)
  refine ⟨rfl, ?_, ?_, ?_⟩
  · rw [Redis.score?_congr (insertIntoLog_zsets p _ _ _ _ _)]
    exact h1
  · intro key m h
    rw [Redis.score?_congr (insertIntoLog_zsets p _ _ _ _ _)]
    exact h2 key m h
  · intro hlog
    exact ⟨inDeleteLog_insertIntoLog_self p hlog _ _ _ _,
      field?_insertIntoLog_deleteLog p hlog _ _ _ _⟩

/-- Witness of C7 on the test ledger with logging: `delete("bbbbbbbb", "testing")`. -/
theorem Pointomatic.delete_present_witness :
    ((specs true).delete dbCreated "bbbbbbbb" "testing" utc).1 = .ok ⟨"bbbbbbbb", true⟩ ∧
    (specs true).inDeleteLog ((specs true).delete dbCreated "bbbbbbbb" "testing" utc).2
      ((specs true).encrypt "bbbbbbbb") = true :=
  ⟨(Pointomatic.delete_present (specs true) dbCreated "bbbbbbbb" "testing" utc (.fin 30)
      (by decide) (by decide)).1,
   ((Pointomatic.delete_present (specs true) dbCreated "bbbbbbbb" "testing" utc (.fin 30)
      (by decide) (by decide)).2.2.2 rfl).1⟩

/-- The interval of `belowMinRange` holds the scores strictly below the bound. -/
theorem inRange_belowMin (x : ℚ) (s : JSNum) :
    inRange (.incl .negInf) (.excl (.fin x)) s = JSNum.lt s (.fin x) := by
  cases s <;> simp [inRange, JSNum.le, JSNum.lt]

namespace Pointomatic

theorem insertAllIntoLog_zsets (p : Pointomatic) (logkey : Option String) (reason : String)
    (now : Nat → String) (ks : List String) :
    ∀ (i : Nat) (db : Redis),
      (insertAllIntoLog p logkey reason now i ks db).2.zsets = db.zsets := by
  induction ks with
  | nil =>
    intro i db
    rfl
  | cons k ks ih =>
    intro i db
    have h1 := insertIntoLog_zsets p db logkey k reason (now i)
    unfold insertAllIntoLog
    split
    · next e db1 heq =>
      have h3 := (congrArg Prod.snd heq).symm
      dsimp only at h3
      rw [← h3] at h1
      rw [ih (i + 1) db1, h1]
    · next r db1 heq =>
      have h3 := (congrArg Prod.snd heq).symm
      dsimp only at h3
      rw [← h3] at h1
      rw [ih (i + 1) db1, h1]

/-- The log writes of `reap` into the deletion log never throw. -/
theorem insertAllIntoLog_deleteLog (p : Pointomatic) (reason : String) (now : Nat → String)
    (ks : List String) :
    ∀ (i : Nat) (db : Redis),
      (insertAllIntoLog p p.deleteLog reason now i ks db).1 = none := by
  induction ks with
  | nil =>
    intro i db
    rfl
  | cons k ks ih =>
    intro i db
    obtain ⟨r, hr⟩ := p.insertIntoLog_deleteLog db k reason (now i)
    unfold insertAllIntoLog
    split
    · next e db1 heq =>
      rw [heq] at hr
      cases hr
    · next r db1 heq =>
      exact ih (i + 1) db1

end Pointomatic

/-- C8: in every Redis state, with or without logging, `reap` returns the number of entries
of the ledger whose value is strictly less than `min`, the ledger afterwards holds exactly
the entries whose value is not strictly less than `min` (those with value `min` included),
each with its value and in the same order, and no other sorted set has changed. -/
theorem Pointomatic.reap_below_min (p : Pointomatic) (db : Redis) (reason : String)
    (now : Nat → String) :
    (p.reap db reason now).1 =
      .ok ((db.zsetOf p.name).filter (fun e => JSNum.lt e.2 (.fin p.min))).length ∧
    (p.reap db reason now).2.zsetOf p.name =
      (db.zsetOf p.name).filter (fun e => !(JSNum.lt e.2 (.fin p.min))) ∧
    (∀ e, e ∈ (p.reap db reason now).2.zsetOf p.name ↔
      e ∈ db.zsetOf p.name ∧ JSNum.lt e.2 (.fin p.min) = false) ∧
    (∀ key, key ≠ p.name → (p.reap db reason now).2.zsetOf key = db.zsetOf key) := by
  have hz : ∀ d : Redis, d.zsets = db.zsets →
      (d.zremrangebyscore p.name p.belowMinRange.1 p.belowMinRange.2).1 =
        ((db.zsetOf p.name).filter (fun e => JSNum.lt e.2 (.fin p.min))).length ∧
      (d.zremrangebyscore p.name p.belowMinRange.1 p.belowMinRange.2).2.zsetOf p.name =
        (db.zsetOf p.name).filter (fun e => !(JSNum.lt e.2 (.fin p.min))) ∧
      (∀ key, key ≠ p.name →
        (d.zremrangebyscore p.name p.belowMinRange.1 p.belowMinRange.2).2.zsetOf key
          = db.zsetOf key) := by
    intro d hd
    have hzs : ∀ key, d.zsetOf key = db.zsetOf key := by
      intro key
      simp [Redis.zsetOf, hd]
    refine ⟨?_, ?_, ?_⟩
    · simp [Redis.zremrangebyscore, belowMinRange, inRange_belowMin, hzs]
    · simp [Redis.zremrangebyscore, belowMinRange, inRange_belowMin, hzs,
        Redis.zsetOf_putZSet_self]
    · intro key hkey
      simp [Redis.zremrangebyscore, Redis.zsetOf_putZSet_ne _ hkey, hzs]
  have hr : ∃ d : Redis, d.zsets = db.zsets ∧
      p.reap db reason now =
        (.ok (d.zremrangebyscore p.name p.belowMinRange.1 p.belowMinRange.2).1,
         (d.zremrangebyscore p.name p.belowMinRange.1 p.belowMinRange.2).2) := by
    cases hlog : p.log with
    | false =>
      refine ⟨db, rfl, ?_⟩
      simp [reap, hlog]
    | true =>
      refine ⟨(insertAllIntoLog p p.deleteLog reason now 0
        (db.zrangebyscore p.name p.belowMinRange.1 p.belowMinRange.2) db).2,
        insertAllIntoLog_zsets p _ _ _ _ _ _, ?_⟩
      have hn := insertAllIntoLog_deleteLog p reason now
        (db.zrangebyscore p.name p.belowMinRange.1 p.belowMinRange.2) 0 db
      simp only [reap, hlog, if_true]
      generalize insertAllIntoLog p p.deleteLog reason now 0 _ db = w at hn ⊢
      obtain ⟨w1, w2⟩ := w
      simp only at hn
      subst hn
      rfl
  obtain ⟨d, hd, hreap⟩ := hr
  obtain ⟨h1, h2, h3⟩ := hz d hd
  rw [hreap]
  refine ⟨by rw [h1], h2, ?_, h3⟩
  intro e
  simp only [h2, List.mem_filter, Bool.not_eq_true', Bool.not_eq_eq_eq_not, Bool.not_true]

/-- Witness of C8 on the test ledger with logging: of the values -5, 0 and 10, `reap`
removes the first one only and returns 1. -/
theorem Pointomatic.reap_below_min_witness :
    ((specs true).reap dbLow "expended" (fun _ => utc)).1 = .ok 1 ∧
    ((specs true).reap dbLow "expended" (fun _ => utc)).2.zsetOf "points"
      = [("bbbbbbbb", .fin 0), ("cccccccc", .fin 10)] :=
  ⟨(Pointomatic.reap_below_min (specs true) dbLow "expended" (fun _ => utc)).1,
   (Pointomatic.reap_below_min (specs true) dbLow "expended" (fun _ => utc)).2.1⟩

/-! ## Reading a log record back -/

/-- C11, at the failing input: on the test ledger with logging, after
`create("abcdefgh", 150, "a---b")` the stored record is `utc---a---b`, and
`getCreateReason("abcdefgh")` returns the reason `a`, not `a---b`: `split("---")` cuts the
record at every delimiter and the destructuring keeps the first two pieces. -/
theorem Pointomatic.getCreateReason_truncates :
    ((specs true).create Redis.empty "abcdefgh" (.num (.fin 150)) "a---b" utc).1
      = .ok ⟨"abcdefgh", .fin 150⟩ ∧
    ((specs true).create Redis.empty "abcdefgh" (.num (.fin 150)) "a---b" utc).2.field?
      "pointsCreateLog" "hgfedcba" = some (utc ++ "---" ++ "a---b") ∧
    (specs true).getCreateReason
      ((specs true).create Redis.empty "abcdefgh" (.num (.fin 150)) "a---b" utc).2 "abcdefgh"
      = .ok ⟨"abcdefgh", some utc, some "a"⟩ := by
  decide

/-! ## `delete` of an absent key -/

namespace Pointomatic

/-- What `delete` does for a valid key that is present. -/
theorem delete_of_present (p : Pointomatic) (db : Redis) (k reason now : String) (v0 : JSNum)
    (hk : p.invalid k = false) (hpres : db.score? p.name (p.encrypt k) = some v0) :
    p.delete db k reason now =
      (.ok ⟨k, true⟩, (p.insertIntoLog
        (db.putZSet p.name (remove (p.encrypt k) (db.zsetOf p.name)))
        p.deleteLog (p.encrypt k) reason now).2) := by
  obtain ⟨r, hr⟩ := p.insertIntoLog_deleteLog
    (db.putZSet p.name (remove (p.encrypt k) (db.zsetOf p.name))) (p.encrypt k) reason now
  simp only [delete, assertKey_valid p hk, Redis.zrem_present db _ _ v0 hpres, if_true]
  generalize p.insertIntoLog _ p.deleteLog (p.encrypt k) reason now = w at hr ⊢
  obtain ⟨w1, w2⟩ := w
  simp only at hr
  subst hr
  simp

/-- What `delete` does for a valid key that is absent. -/
theorem delete_of_absent (p : Pointomatic) (db : Redis) (k reason now : String)
    (hk : p.invalid k = false) (habs : db.score? p.name (p.encrypt k) = none) :
    p.delete db k reason now = (.ok ⟨k, false⟩, db) := by
  unfold Redis.score? at habs
  simp [delete, assertKey_valid p hk, Redis.zrem, habs]

/-- After `delete` the key is absent. -/
theorem score?_delete_self (p : Pointomatic) (db : Redis) (k reason now : String)
    (hk : p.invalid k = false) :
    (p.delete db k reason now).2.score? p.name (p.encrypt k) = none := by
  cases hs : db.score? p.name (p.encrypt k) with
  | none =>
    rw [delete_of_absent p db k reason now hk hs]
    exact hs
  | some v0 =>
    rw [delete_of_present p db k reason now v0 hk hs,
      Redis.score?_congr (insertIntoLog_zsets p _ _ _ _ _)]
    exact (Redis.score?_putZSet_remove db p.name (p.encrypt k)).1

end Pointomatic

/-- C14: for a valid key, a `delete` of the key when it is absent returns
`{key, deleted: false}` and leaves the whole Redis state (score store and logs) as it was;
hence a second `delete` of the same key, after a first `delete` of it, returns
`{key, deleted: false}` and changes nothing, and with logging the record `now---reason` that
the first `delete` wrote for a key that was present is still the record of the key. -/
theorem Pointomatic.delete_absent (p : Pointomatic) (db : Redis) (k reason now : String)
    (hk : p.invalid k = false) :
    (db.score? p.name (p.encrypt k) = none →
      p.delete db k reason now = (.ok ⟨k, false⟩, db)) ∧
    (∀ reason2 now2 : String,
      p.delete (p.delete db k reason now).2 k reason2 now2
        = (.ok ⟨k, false⟩, (p.delete db k reason now).2)) ∧
    (∀ (reason2 now2 : String) (v0 : JSNum), p.log = true →
      db.score? p.name (p.encrypt k) = some v0 →
      (p.delete (p.delete db k reason now).2 k reason2 now2).2.field?
        (p.name ++ "DeleteLog") (p.encrypt k) = some (now ++ "---" ++ reason)) := by
  have h2 : ∀ reason2 now2 : String,
      p.delete (p.delete db k reason now).2 k reason2 now2
        = (.ok ⟨k, false⟩, (p.delete db k reason now).2) := fun reason2 now2 =>
    delete_of_absent p _ k reason2 now2 hk (score?_delete_self p db k reason now hk)
  refine ⟨delete_of_absent p db k reason now hk, h2, ?_⟩
  intro reason2 now2 v0 hlog hpres
  rw [h2 reason2 now2, delete_of_present p db k reason now v0 hk hpres]
  exact field?_insertIntoLog_deleteLog p hlog _ _ _ _

/-- Witness of C14 on the test ledger with logging: after `delete("bbbbbbbb", "testing")`
the call `delete("bbbbbbbb", "this is bad")` returns `deleted: false` and changes nothing. -/
theorem Pointomatic.delete_absent_witness :
    (specs true).delete dbDeleted "bbbbbbbb" "this is bad" utc
      = (.ok ⟨"bbbbbbbb", false⟩, dbDeleted) :=
  (Pointomatic.delete_absent (specs true) dbDeleted "bbbbbbbb" "this is bad" utc
    (by decide)).1 (by decide)

/-! ## `create` with a value that is not a number -/

/-- C17, as stated, fails: on the test ledger `create("aaaaaaaa", null)` throws
`Pointomatic create error: non-existent key`, not `non-numeric value` (the state is
unchanged). -/
theorem Pointomatic.create_null_counterexample :
    (specs false).create Redis.empty "aaaaaaaa" .null "first" utc
      = (.error (.nonExistentKey "create"), Redis.empty) ∧
    ((specs false).create Redis.empty "aaaaaaaa" .null "first" utc).1
      ≠ .error (.nonNumericValue "create") := by
  decide

/-- C17, amended: for a valid key and a raw value other than `null` that `parseFloat` reads
as `NaN` (a non-numeric string, `undefined`), `create` throws `non-numeric value` and leaves
the Redis state as it was; for `null` it throws `non-existent key` and leaves the state as
it was. The key check comes first (an invalid key throws `invalid key` whatever the value),
and the range check comes after the parse (a value that parses above `max` or below `min`
throws the range error). -/
theorem Pointomatic.create_non_numeric (p : Pointomatic) (db : Redis) (k : String)
    (raw : JSVal) (reason now : String)
    (hk : p.invalid k = false) (hraw : raw ≠ .null) (hnan : parseFloat raw = .nan) :
    p.create db k raw reason now = (.error (.nonNumericValue "create"), db) ∧
    p.create db k .null reason now = (.error (.nonExistentKey "create"), db) ∧
    (∀ (k2 : String) (raw2 : JSVal), p.invalid k2 = true →
      p.create db k2 raw2 reason now = (.error (.invalidKey "create"), db)) ∧
    (∀ (raw2 : JSVal) (v : ℚ), parseFloat raw2 = .fin v → p.max < v →
      p.create db k raw2 reason now = (.error (.aboveMax "create"), db)) ∧
    (∀ (raw2 : JSVal) (v : ℚ), parseFloat raw2 = .fin v → v ≤ p.max → v < p.min →
      p.create db k raw2 reason now = (.error (.belowMin "create"), db)) := by
  refine ⟨?_, ?_, ?_, ?_, ?_⟩
  · simp [create, assertKey_valid p hk, parseNumber, hraw, hnan, JSNum.isNaN]
  · simp [create, assertKey_valid p hk, parseNumber]
  · intro k2 raw2 hk2
    simp [create, assertKey, hk2]
  · intro raw2 v hv hmax
    simp only [create, assertKey_valid p hk, parseNumber_fin p hv, assertRange_fin, if_pos hmax]
  · intro raw2 v hv hmax hmin
    simp only [create, assertKey_valid p hk, parseNumber_fin p hv, assertRange_fin,
      if_neg (not_lt.mpr hmax), if_pos hmin]

/-- Witness of C17 (amended) on the test ledger: `create("aaaaaaaa", "walrus")`. -/
theorem Pointomatic.create_non_numeric_witness :
    (specs false).create Redis.empty "aaaaaaaa" (.str "walrus") "first" utc
      = (.error (.nonNumericValue "create"), Redis.empty) :=
  (Pointomatic.create_non_numeric (specs false) Redis.empty "aaaaaaaa" (.str "walrus")
    "first" utc (by decide) (by decide) (by decide)).1

/-! ## Logging disabled, or a log of another ledger -/

namespace Pointomatic

/-- Without logging `create` writes no hash. -/
theorem create_hashes_nolog (p : Pointomatic) (hlog : p.log = false) (db : Redis) (k : String)
    (raw : JSVal) (reason now : String) :
    (p.create db k raw reason now).2.hashes = db.hashes := by
  unfold create
  split
  · rfl
  · split
    · rfl
    · split
      · rfl
      · simp only []
        split
        · rfl
        · split
          · next msg db1 heq =>
            have h1 := (congrArg Prod.snd heq).symm
            dsimp only at h1
            rw [h1]
            exact Redis.zaddNX_hashes _ _ _ _
          · next result db1 heq =>
            have h1 := (congrArg Prod.snd heq).symm
            dsimp only at h1
            have h2 : db1.hashes = db.hashes := by
              rw [h1]
              exact Redis.zaddNX_hashes _ _ _ _
            rw [insertIntoLog_nolog p hlog]
            split
            · exact h2
            · exact h2

/-- Without logging `delete` writes no hash. -/
theorem delete_hashes_nolog (p : Pointomatic) (hlog : p.log = false) (db : Redis)
    (k reason now : String) : (p.delete db k reason now).2.hashes = db.hashes := by
  unfold delete
  split
  · rfl
  · simp only [insertIntoLog_nolog p hlog]
    split
    · exact Redis.zrem_hashes _ _ _
    · exact Redis.zrem_hashes _ _ _

/-- Without logging `reap` writes no hash. -/
theorem reap_hashes_nolog (p : Pointomatic) (hlog : p.log = false) (db : Redis)
    (reason : String) (now : Nat → String) : (p.reap db reason now).2.hashes = db.hashes := by
  simp [reap, hlog, Redis.zremrangebyscore_hashes]

end Pointomatic

/-- C20: when logging is disabled (whatever the log name, `undefined` included), or when the
log name does not start with the name of the ledger, `insertIntoLog` returns `false` and
leaves the Redis state as it was, and `getParsedLogEntry` returns `null`, for every key and
reason; and when logging is disabled `inDeleteLog` is false for every key and `create`,
`delete` and `reap` leave every hash as it was. -/
theorem Pointomatic.log_disabled_or_foreign (p : Pointomatic) (db : Redis)
    (logkey : Option String) (ek reason now : String)
    (h : p.log = false ∨ ∃ l, logkey = some l ∧ startsWith l p.name = false) :
    p.insertIntoLog db logkey ek reason now = (.ok (.bool false), db) ∧
    p.getParsedLogEntry db logkey ek = .ok none ∧
    (p.log = false →
      p.inDeleteLog db ek = false ∧
      (∀ (k : String) (raw : JSVal), (p.create db k raw reason now).2.hashes = db.hashes) ∧
      (∀ k : String, (p.delete db k reason now).2.hashes = db.hashes) ∧
      (∀ nows : Nat → String, (p.reap db reason nows).2.hashes = db.hashes)) := by
  refine ⟨?_, ?_, ?_⟩
  · rcases h with h | ⟨l, hl, hs⟩
    · exact insertIntoLog_nolog p h db logkey ek reason now
    · subst hl
      cases hlog : p.log <;> simp [insertIntoLog, hlog, hs]
  · rcases h with h | ⟨l, hl, hs⟩
    · simp [getParsedLogEntry, h]
    · subst hl
      cases hlog : p.log <;> simp [getParsedLogEntry, hlog, hs]
  · intro hlog
    refine ⟨by simp [inDeleteLog, hlog], ?_, ?_, ?_⟩
    · intro k raw
      exact create_hashes_nolog p hlog db k raw reason now
    · intro k
      exact delete_hashes_nolog p hlog db k reason now
    · intro nows
      exact reap_hashes_nolog p hlog db reason nows

/-- Witness of C20 on the test ledger with logging, at the log `buddyLog` of the test suite:
nothing is written and nothing is read. -/
theorem Pointomatic.log_disabled_or_foreign_witness :
    (specs true).insertIntoLog dbDeleted (some "buddyLog") "bbbbbbbb" "testing" utc
      = (.ok (.bool false), dbDeleted) ∧
    (specs true).getParsedLogEntry dbDeleted (some "buddyLog") "bbbbbbbb" = .ok none :=
  ⟨(Pointomatic.log_disabled_or_foreign (specs true) dbDeleted (some "buddyLog") "bbbbbbbb"
      "testing" utc (Or.inr ⟨"buddyLog", rfl, by decide⟩)).1,
   (Pointomatic.log_disabled_or_foreign (specs true) dbDeleted (some "buddyLog") "bbbbbbbb"
      "testing" utc (Or.inr ⟨"buddyLog", rfl, by decide⟩)).2.1⟩

/-! ## The range invariant of the write path -/

theorem all_zinsert (f : String × JSNum → Bool) (e : String × JSNum) (z : ZSet) :
    (zinsert e z).all f = (f e && z.all f) := by
  induction z with
  | nil => simp [zinsert]
  | cons hd t ih =>
    by_cases hb : zbefore e hd = true
    · simp [zinsert, hb]
    · rw [zinsert, if_neg hb, List.all_cons, ih, List.all_cons, ← Bool.and_assoc,
        Bool.and_comm (f hd) (f e), Bool.and_assoc]

theorem all_remove {β : Type} (f : String × β → Bool) (k : String) (l : List (String × β))
    (h : l.all f = true) : (remove k l).all f = true := by
  induction l with
  | nil => rfl
  | cons hd t ih =>
    obtain ⟨k', v⟩ := hd
    simp only [List.all_cons, Bool.and_eq_true] at h
    by_cases hk : k' = k
    · rw [remove, if_pos hk]
      exact ih h.2
    · rw [remove, if_neg hk]
      simp only [List.all_cons, Bool.and_eq_true]
      exact ⟨h.1, ih h.2⟩

namespace Pointomatic

theorem allInRange_congr (p : Pointomatic) {db db' : Redis} (h : db'.zsets = db.zsets) :
    p.allInRange db' = p.allInRange db := by
  simp [allInRange, Redis.zsetOf, h]

/-- Every state `create` can leave. -/
theorem create_cases (p : Pointomatic) (db : Redis) (k : String) (raw : JSVal)
    (reason now : String) :
    (p.create db k raw reason now).2 = db ∨
    ∃ v : ℚ, p.min ≤ v ∧ v ≤ p.max ∧
      (p.create db k raw reason now).2.zsets =
        (db.putZSet p.name (zinsert (p.encrypt k, .fin v) (db.zsetOf p.name))).zsets := by
  by_cases hk : p.invalid k = true
  · left
    simp [create, assertKey, hk]
  · have hk' : p.invalid k = false := by simpa using hk
    by_cases hnull : raw = .null
    · left
      subst hnull
      simp [create, assertKey_valid p hk', parseNumber]
    · cases hv : parseFloat raw with
      | nan =>
        left
        simp [create, assertKey_valid p hk', parseNumber, hnull, hv, JSNum.isNaN]
      | posInf =>
        left
        simp [create, assertKey_valid p hk', parseNumber, hnull, hv, JSNum.isNaN, assertRange,
          JSNum.gt, JSNum.lt]
      | negInf =>
        left
        simp [create, assertKey_valid p hk', parseNumber, hnull, hv, JSNum.isNaN, assertRange,
          JSNum.gt, JSNum.lt]
      | fin v =>
        by_cases hmax : p.max < v
        · left
          simp only [create, assertKey_valid p hk', parseNumber_fin p hv, assertRange_fin,
            if_pos hmax]
        · by_cases hmin : v < p.min
          · left
            simp only [create, assertKey_valid p hk', parseNumber_fin p hv, assertRange_fin,
              if_neg hmax, if_pos hmin]
          · rw [create_validated p db reason now hk' hv (not_lt.mp hmin) (not_lt.mp hmax)]
            cases ht : p.inDeleteLog db (p.encrypt k) with
            | true =>
              left
              simp
            | false =>
              cases hs : db.score? p.name (p.encrypt k) with
              | some s =>
                left
                unfold Redis.score? at hs
                simp [Redis.zaddNX, JSNum.isNaN, hs]
              | none =>
                right
                refine ⟨v, not_lt.mp hmin, not_lt.mp hmax, ?_⟩
                unfold Redis.score? at hs
                simp only [Redis.zaddNX, JSNum.isNaN, hs, Bool.false_eq_true, if_false, if_true]
                split
                · next e db2 heq =>
                  have h3 := (congrArg Prod.snd heq).symm
                  dsimp only at h3
                  rw [h3]
                  exact insertIntoLog_zsets p _ _ _ _ _
                · next r db2 heq =>
                  have h3 := (congrArg Prod.snd heq).symm
                  dsimp only at h3
                  rw [h3]
                  exact insertIntoLog_zsets p _ _ _ _ _

end Pointomatic

namespace Pointomatic

/-- What `add` does once the key is valid, present with a finite value, and the sum is in
range. -/
theorem add_of_valid (p : Pointomatic) (db : Redis) {k : String} {raw : JSVal} {c d : ℚ}
    (hk : p.invalid k = false) (hc : db.score? p.name (p.encrypt k) = some (.fin c))
    (hd : parseFloat raw = .fin d) (hmin : p.min ≤ c + d) (hmax : c + d ≤ p.max) :
    p.add db k raw =
      (.ok ⟨k, .fin (c + d), .fin d⟩,
       db.putZSet p.name (zinsert (p.encrypt k, .fin (c + d))
         (remove (p.encrypt k) (db.zsetOf p.name)))) := by
  simp only [add, assertKey_valid p hk, hd, JSNum.isNaN, get_of_score p db hk hc, JSNum.add,
    assertRange_inRange p hmin hmax, Redis.zincrby_present db _ _ c d hc]
  simp [parseNumber, parseFloat, JSNum.isNaN, assertRange_inRange p hmin hmax]

/-- A score that is not finite is sent as a string that `parseFloat` reads as `NaN`. -/
theorem parseFloat_scoreReply_nonfinite (s : JSNum) (h : s.isFinite = false) :
    scoreReply s ≠ .null ∧ parseFloat (scoreReply s) = .nan := by
  cases s with
  | nan => decide
  | posInf => decide
  | negInf => decide
  | fin q => simp [JSNum.isFinite] at h

/-- For a key whose stored score is not finite `get` throws `non-numeric value`. -/
theorem get_of_nonfinite (p : Pointomatic) (db : Redis) {k : String} (hk : p.invalid k = false)
    {s : JSNum} (hs : db.score? p.name (p.encrypt k) = some s) (h : s.isFinite = false) :
    p.get db k = .error (.nonNumericValue "get") := by
  unfold Redis.score? at hs
  obtain ⟨h1, h2⟩ := parseFloat_scoreReply_nonfinite s h
  simp [get, assertKey_valid p hk, Redis.zscore, hs, parseNumber, h1, h2, JSNum.isNaN]

/-- Every state `add` can leave. -/
theorem add_cases (p : Pointomatic) (db : Redis) (k : String) (raw : JSVal) :
    (p.add db k raw).2 = db ∨
    ∃ c d : ℚ, p.invalid k = false ∧ db.score? p.name (p.encrypt k) = some (.fin c) ∧
      parseFloat raw = .fin d ∧ p.min ≤ c + d ∧ c + d ≤ p.max := by
  by_cases hk : p.invalid k = true
  · left
    simp [add, assertKey, hk]
  · have hk' : p.invalid k = false := by simpa using hk
    cases hs : db.score? p.name (p.encrypt k) with
    | none =>
      left
      cases hd : parseFloat raw <;>
        simp [add, assertKey_valid p hk', hd, JSNum.isNaN, get_of_absent p db hk' hs]
    | some s =>
      cases hf : s.isFinite with
      | false =>
        left
        cases hd : parseFloat raw <;>
          simp [add, assertKey_valid p hk', hd, JSNum.isNaN, get_of_nonfinite p db hk' hs hf]
      | true =>
        cases s with
        | nan => simp [JSNum.isFinite] at hf
        | posInf => simp [JSNum.isFinite] at hf
        | negInf => simp [JSNum.isFinite] at hf
        | fin c =>
          cases hd : parseFloat raw with
          | nan =>
            left
            simp [add, assertKey_valid p hk', hd, JSNum.isNaN]
          | posInf =>
            left
            simp [add, assertKey_valid p hk', hd, JSNum.isNaN, get_of_score p db hk' hs,
              JSNum.add, assertRange, JSNum.gt, JSNum.lt]
          | negInf =>
            left
            simp [add, assertKey_valid p hk', hd, JSNum.isNaN, get_of_score p db hk' hs,
              JSNum.add, assertRange, JSNum.gt, JSNum.lt]
          | fin d =>
            by_cases hmax : p.max < c + d
            · left
              simp only [add, assertKey_valid p hk', hd, JSNum.isNaN, get_of_score p db hk' hs,
                JSNum.add, assertRange_fin, if_pos hmax]
              simp
            · by_cases hmin : c + d < p.min
              · left
                simp only [add, assertKey_valid p hk', hd, JSNum.isNaN,
                  get_of_score p db hk' hs, JSNum.add, assertRange_fin, if_neg hmax, if_pos hmin]
                simp
              · right
                exact ⟨c, d, hk', rfl, rfl, not_lt.mp hmin, not_lt.mp hmax⟩

/-- The state `reap` leaves: the one of `ZREMRANGEBYSCORE` on a state with the same sorted
sets. -/
theorem reap_eq (p : Pointomatic) (db : Redis) (reason : String) (now : Nat → String) :
    ∃ d : Redis, d.zsets = db.zsets ∧
      p.reap db reason now =
        (.ok (d.zremrangebyscore p.name p.belowMinRange.1 p.belowMinRange.2).1,
         (d.zremrangebyscore p.name p.belowMinRange.1 p.belowMinRange.2).2) := by
  cases hlog : p.log with
  | false =>
    refine ⟨db, rfl, ?_⟩
    simp [reap, hlog]
  | true =>
    refine ⟨(insertAllIntoLog p p.deleteLog reason now 0
      (db.zrangebyscore p.name p.belowMinRange.1 p.belowMinRange.2) db).2,
      insertAllIntoLog_zsets p _ _ _ _ _ _, ?_⟩
    have hn := insertAllIntoLog_deleteLog p reason now
      (db.zrangebyscore p.name p.belowMinRange.1 p.belowMinRange.2) 0 db
    simp only [reap, hlog, if_true]
    generalize insertAllIntoLog p p.deleteLog reason now 0 _ db = w at hn ⊢
    obtain ⟨w1, w2⟩ := w
    simp only at hn
    subst hn
    rfl

/-- The ledger after `reap`: the entries that are not below `min`. -/
theorem zsetOf_reap (p : Pointomatic) (db : Redis) (reason : String) (now : Nat → String) :
    (p.reap db reason now).2.zsetOf p.name =
      (db.zsetOf p.name).filter (fun e => !(JSNum.lt e.2 (.fin p.min))) := by
  obtain ⟨d, hd, hreap⟩ := reap_eq p db reason now
  have hzs : d.zsetOf p.name = db.zsetOf p.name := by simp [Redis.zsetOf, hd]
  rw [hreap]
  simp [Redis.zremrangebyscore, belowMinRange, inRange_belowMin, hzs, Redis.zsetOf_putZSet_self]

theorem allInRange_putZSet (p : Pointomatic) (db : Redis) (z : ZSet) :
    p.allInRange (db.putZSet p.name z) = z.all (fun e => e.2.isBetween p.min p.max) := by
  rw [allInRange, Redis.zsetOf_putZSet_self]

/-- No call leaves the range invariant false. -/
theorem allInRange_exec (p : Pointomatic) (db : Redis) (c : Call)
    (h : p.allInRange db = true) : p.allInRange (p.exec db c) = true := by
  have hz : (db.zsetOf p.name).all (fun e => e.2.isBetween p.min p.max) = true := h
  cases c with
  | create key rawvalue reason now =>
    show p.allInRange (p.create db key rawvalue reason now).2 = true
    rcases create_cases p db key rawvalue reason now with h1 | ⟨v, hmin, hmax, h1⟩
    · rw [h1]
      exact h
    · rw [allInRange_congr p h1, allInRange_putZSet, all_zinsert, hz]
      simp [JSNum.isBetween, hmin, hmax]
  | add key rawchange =>
    show p.allInRange (p.add db key rawchange).2 = true
    rcases add_cases p db key rawchange with h1 | ⟨c, d, hk, hc, hd, hmin, hmax⟩
    · rw [h1]
      exact h
    · rw [add_of_valid p db hk hc hd hmin hmax, allInRange_putZSet, all_zinsert,
        all_remove _ _ _ hz]
      simp [JSNum.isBetween, hmin, hmax]
  | delete key reason now =>
    show p.allInRange (p.delete db key reason now).2 = true
    by_cases hk : p.invalid key = true
    · have h1 : (p.delete db key reason now).2 = db := by simp [delete, assertKey, hk]
      rw [h1]
      exact h
    · have hk' : p.invalid key = false := by simpa using hk
      cases hs : db.score? p.name (p.encrypt key) with
      | none =>
        rw [delete_of_absent p db key reason now hk' hs]
        exact h
      | some v0 =>
        rw [delete_of_present p db key reason now v0 hk' hs,
          allInRange_congr p (insertIntoLog_zsets p _ _ _ _ _), allInRange_putZSet]
        exact all_remove _ _ _ hz
  | reap reason now =>
    show p.allInRange (p.reap db reason now).2 = true
    rw [allInRange, zsetOf_reap]
    rw [List.all_eq_true] at hz ⊢
    intro e he
    exact hz e (List.mem_filter.mp he).1
  | get key => exact h

end Pointomatic

/-- C12: starting from a Redis state in which every value stored in the ledger lies in
`[min, max]` (the empty ledger is one), after any sequence of `create`, `add`, `delete`,
`reap` (and `get`) calls executed one at a time, whether each returns or throws, every
value stored in the ledger still lies in `[min, max]`. -/
theorem Pointomatic.range_invariant (p : Pointomatic) (db : Redis) (calls : List Call)
    (h : p.allInRange db = true) : p.allInRange (p.run db calls) = true := by
  induction calls generalizing db with
  | nil => exact h
  | cons c cs ih => exact ih (p.exec db c) (allInRange_exec p db c h)

/-- Witness of C12 on the test ledger, from the empty server: calls that succeed and calls
that throw. -/
theorem Pointomatic.range_invariant_witness :
    (specs true).allInRange ((specs true).run Redis.empty
      [.create "abcdefgh" (.num (.fin 150)) "first" utc,
       .create "bbbbbbbb" (.num (.fin 200)) "too high" utc,
       .add "abcdefgh" (.num (.fin 50)),
       .add "abcdefgh" (.num (.fin (-50))),
       .delete "bbbbbbbb" "testing" utc,
       .reap "expended" (fun _ => utc)]) = true :=
  Pointomatic.range_invariant (specs true) Redis.empty _ (by decide)

/-! ## The deletion records written by `reap` -/

namespace Redis

theorem field?_congr {db db' : Redis} (h : db'.hashes = db.hashes) (key field : String) :
    db'.field? key field = db.field? key field := by
  simp [field?, hashOf, h]

theorem field?_hset_self (db : Redis) (key field value : String) :
    (db.hset key field value).2.field? key field = some value := by
  simp [field?, hashOf_hset_self, lookup_put_self]

theorem field?_hset_ne (db : Redis) (key field value key2 f : String)
    (h : key2 ≠ key ∨ f ≠ field) :
    (db.hset key field value).2.field? key2 f = db.field? key2 f := by
  by_cases hkey : key2 = key
  · subst hkey
    have hf : f ≠ field := by
      rcases h with h | h
      · exact absurd rfl h
      · exact h
    simp [field?, hashOf_hset_self, lookup_put_ne hf]
  · simp [field?, hashOf_hset_ne db hkey]

theorem mem_zrangebyscore (db : Redis) (key : String) (lo hi : ScoreBound) (m : String) :
    m ∈ db.zrangebyscore key lo hi ↔ ∃ s, (m, s) ∈ db.zsetOf key ∧ inRange lo hi s = true := by
  simp [zrangebyscore]

end Redis

namespace Pointomatic

/-- A log write leaves every other record as it was. -/
theorem field?_insertIntoLog_ne (p : Pointomatic) (db : Redis) (logkey : Option String)
    (ek reason now key2 f : String) (h : logkey ≠ some key2 ∨ f ≠ ek) :
    (p.insertIntoLog db logkey ek reason now).2.field? key2 f = db.field? key2 f := by
  unfold insertIntoLog
  cases p.log <;> simp
  cases logkey with
  | none => rfl
  | some l =>
    by_cases hs : startsWith l p.name = true
    · simp only [hs, Bool.not_true, Bool.false_eq_true, if_false]
      apply Redis.field?_hset_ne
      rcases h with h | h
      · left
        intro e
        exact h (by rw [e])
      · right
        exact h
    · simp [hs]

/-- With logging, the record a log write leaves in the deletion log. -/
theorem field?_insertAllIntoLog_ne (p : Pointomatic) (logkey : Option String)
    (reason : String) (now : Nat → String) (key2 f : String) (ks : List String)
    (h : logkey ≠ some key2 ∨ f ∉ ks) :
    ∀ (i : Nat) (db : Redis),
      (insertAllIntoLog p logkey reason now i ks db).2.field? key2 f = db.field? key2 f := by
  induction ks with
  | nil =>
    intro i db
    rfl
  | cons k ks ih =>
    intro i db
    have hk : logkey ≠ some key2 ∨ f ≠ k := by
      rcases h with h | h
      · exact Or.inl h
      · exact Or.inr (fun e => h (by rw [e]; exact List.mem_cons_self _ _))
    have hks : logkey ≠ some key2 ∨ f ∉ ks := by
      rcases h with h | h
      · exact Or.inl h
      · exact Or.inr (fun e => h (List.mem_cons_of_mem _ e))
    have h1 := field?_insertIntoLog_ne p db logkey k reason (now i) key2 f hk
    unfold insertAllIntoLog
    split
    · next e db1 heq =>
      have h3 := (congrArg Prod.snd heq).symm
      dsimp only at h3
      rw [← h3] at h1
      rw [ih hks (i + 1) db1, h1]
    · next r db1 heq =>
      have h3 := (congrArg Prod.snd heq).symm
      dsimp only at h3
      rw [← h3] at h1
      rw [ih hks (i + 1) db1, h1]

/-- With logging, every key of the list gets a deletion record with the given reason. -/
theorem field?_insertAllIntoLog_mem (p : Pointomatic) (hlog : p.log = true) (reason : String)
    (now : Nat → String) (f : String) (ks : List String) :
    ∀ (i : Nat) (db : Redis), f ∈ ks →
      ∃ j, (insertAllIntoLog p p.deleteLog reason now i ks db).2.field?
        (p.name ++ "DeleteLog") f = some (now j ++ "---" ++ reason) := by
  induction ks with
  | nil =>
    intro i db hf
    cases hf
  | cons k ks ih =>
    intro i db hf
    have hstep : (insertAllIntoLog p p.deleteLog reason now i (k :: ks) db).2
        = (insertAllIntoLog p p.deleteLog reason now (i + 1) ks
            (p.insertIntoLog db p.deleteLog k reason (now i)).2).2 := by
      rw [insertAllIntoLog]
      split
      · next e db1 heq => rw [heq]
      · next r db1 heq => rw [heq]
    rw [hstep]
    by_cases hmem : f ∈ ks
    · exact ih (i + 1) _ hmem
    · have hfk : f = k := by
        rcases List.mem_cons.mp hf with h | h
        · exact h
        · exact absurd h hmem
      subst hfk
      refine ⟨i, ?_⟩
      rw [field?_insertAllIntoLog_ne p p.deleteLog reason now _ f ks (Or.inr hmem)]
      exact field?_insertIntoLog_deleteLog p hlog db f reason (now i)

/-- With logging, every key of the list is in the deletion log afterwards. -/
theorem inDeleteLog_insertAllIntoLog_mem (p : Pointomatic) (hlog : p.log = true)
    (reason : String) (now : Nat → String) (f : String) (ks : List String) :
    ∀ (i : Nat) (db : Redis), f ∈ ks →
      p.inDeleteLog (insertAllIntoLog p p.deleteLog reason now i ks db).2 f = true := by
  intro i db hf
  obtain ⟨j, hj⟩ := field?_insertAllIntoLog_mem p hlog reason now f ks i db hf
  unfold Redis.field? at hj
  simp only [deleteLog, hlog, if_true] at hj
  simp [inDeleteLog, hlog, deleteLog, Redis.hexists, hj]

/-- With logging, the hashes `reap` leaves are those left by its log writes. -/
theorem reap_hashes_log (p : Pointomatic) (hlog : p.log = true) (db : Redis) (reason : String)
    (now : Nat → String) :
    (p.reap db reason now).2.hashes =
      (insertAllIntoLog p p.deleteLog reason now 0
        (db.zrangebyscore p.name p.belowMinRange.1 p.belowMinRange.2) db).2.hashes := by
  have hn := insertAllIntoLog_deleteLog p reason now
    (db.zrangebyscore p.name p.belowMinRange.1 p.belowMinRange.2) 0 db
  simp only [reap, hlog, if_true]
  generalize insertAllIntoLog p p.deleteLog reason now 0 _ db = w at hn ⊢
  obtain ⟨w1, w2⟩ := w
  simp only at hn
  subst hn
  rfl

end Pointomatic

/-- C15: with logging enabled, after `reap(reason)` every key that `reap` removed (every
member whose value was strictly less than `min`) has a record with that reason in the
deletion log and `inDeleteLog` is true for it, so that a later `create` of a valid key with
that encoding, with a value that passes the validation, throws `conflict D`; and every
record of any other key, in the deletion log or in any other hash, is as it was. -/
theorem Pointomatic.reap_tombstones (p : Pointomatic) (db : Redis) (reason : String)
    (now : Nat → String) (hlog : p.log = true) :
    (∀ (m : String) (s : JSNum), (m, s) ∈ db.zsetOf p.name → JSNum.lt s (.fin p.min) = true →
      p.inDeleteLog (p.reap db reason now).2 m = true ∧
      ∃ j, (p.reap db reason now).2.field? (p.name ++ "DeleteLog") m
        = some (now j ++ "---" ++ reason)) ∧
    (∀ (k : String) (s : JSNum) (raw : JSVal) (v : ℚ) (reason2 now2 : String),
      p.invalid k = false → (p.encrypt k, s) ∈ db.zsetOf p.name →
      JSNum.lt s (.fin p.min) = true →
      parseFloat raw = .fin v → p.min ≤ v → v ≤ p.max →
      (p.create (p.reap db reason now).2 k raw reason2 now2).1 = .error .conflictD) ∧
    (∀ key f : String,
      (key ≠ p.name ++ "DeleteLog" ∨
        ∀ s, (f, s) ∈ db.zsetOf p.name → JSNum.lt s (.fin p.min) = false) →
      (p.reap db reason now).2.field? key f = db.field? key f) := by
  have hmem : ∀ (m : String) (s : JSNum), (m, s) ∈ db.zsetOf p.name →
      JSNum.lt s (.fin p.min) = true →
      m ∈ db.zrangebyscore p.name p.belowMinRange.1 p.belowMinRange.2 := by
    intro m s hm hs
    rw [Redis.mem_zrangebyscore]
    exact ⟨s, hm, by simpa [belowMinRange, inRange_belowMin] using hs⟩
  have h1 : ∀ (m : String) (s : JSNum), (m, s) ∈ db.zsetOf p.name →
      JSNum.lt s (.fin p.min) = true →
      p.inDeleteLog (p.reap db reason now).2 m = true ∧
      ∃ j, (p.reap db reason now).2.field? (p.name ++ "DeleteLog") m
        = some (now j ++ "---" ++ reason) := by
    intro m s hm hs
    constructor
    · rw [inDeleteLog_congr p (reap_hashes_log p hlog db reason now)]
      exact inDeleteLog_insertAllIntoLog_mem p hlog reason now m _ 0 db (hmem m s hm hs)
    · obtain ⟨j, hj⟩ := field?_insertAllIntoLog_mem p hlog reason now m _ 0 db (hmem m s hm hs)
      exact ⟨j, by rw [Redis.field?_congr (reap_hashes_log p hlog db reason now)]; exact hj⟩
  refine ⟨h1, ?_, ?_⟩
  · intro k s raw v reason2 now2 hk hm hs hv hmin hmax
    rw [create_validated p _ reason2 now2 hk hv hmin hmax, (h1 _ s hm hs).1]
    rfl
  · intro key f h
    rw [Redis.field?_congr (reap_hashes_log p hlog db reason now)]
    apply field?_insertAllIntoLog_ne
    rcases h with h | h
    · left
      simp only [deleteLog, hlog, if_true]
      intro e
      exact h (Option.some.inj e).symm
    · right
      intro hf
      obtain ⟨s, hm, hs⟩ := (Redis.mem_zrangebyscore db p.name _ _ f).mp hf
      have hlt : JSNum.lt s (.fin p.min) = true := by
        simpa [belowMinRange, inRange_belowMin] using hs
      rw [h s hm] at hlt
      cases hlt

/-- Witness of C15 on the test ledger with logging: of the values -5, 0 and 10, the key with
-5 is in the deletion log after `reap("expended")` with the record `utc---expended`. -/
theorem Pointomatic.reap_tombstones_witness :
    (specs true).inDeleteLog ((specs true).reap dbLow "expended" (fun _ => utc)).2 "aaaaaaaa"
      = true ∧
    ∃ j : Nat, ((specs true).reap dbLow "expended" (fun _ => utc)).2.field?
      ((specs true).name ++ "DeleteLog") "aaaaaaaa"
        = some ((fun _ => utc) j ++ "---" ++ "expended") :=
  (Pointomatic.reap_tombstones (specs true) dbLow "expended" (fun _ => utc) rfl).1
    "aaaaaaaa" (.fin (-5)) (by decide) (by decide)

/-! ## Two increments and their sum -/

theorem remove_remove {β : Type} (k : String) (l : List (String × β)) :
    remove k (remove k l) = remove k l := by
  induction l with
  | nil => rfl
  | cons hd t ih =>
    obtain ⟨k', v⟩ := hd
    by_cases hk : k' = k
    · rw [remove, if_pos hk, ih]
    · rw [remove, if_neg hk, remove, if_neg hk, ih]

theorem remove_zinsert_self (m : String) (s : JSNum) (z : ZSet) :
    remove m (zinsert (m, s) z) = remove m z := by
  induction z with
  | nil => simp [zinsert, remove]
  | cons hd t ih =>
    obtain ⟨k', v⟩ := hd
    by_cases hb : zbefore (m, s) (k', v) = true
    · rw [zinsert, if_pos hb, remove, if_pos rfl]
    · rw [zinsert, if_neg hb]
      by_cases hk : k' = m
      · rw [remove, if_pos hk, remove, if_pos hk, ih]
      · rw [remove, if_neg hk, remove, if_neg hk, ih]

/-- Storing a non-empty sorted set twice at the same key is storing the second one. -/
theorem Redis.putZSet_putZSet (db : Redis) (key : String) (z1 z2 : ZSet) (h2 : z2 ≠ []) :
    (db.putZSet key z1).putZSet key z2 = db.putZSet key z2 := by
  by_cases h1 : z1 = []
  · simp [Redis.putZSet, h1, h2, put, remove_remove]
  · simp [Redis.putZSet, h1, h2, put, remove, remove_remove]

/-! ### Integers are doubles -/

theorem log2Fuel_le (fuel n k : Nat) (h : n < 2 ^ (k + 1)) : log2Fuel fuel n ≤ k := by
  induction fuel generalizing n k with
  | zero => simp [log2Fuel]
  | succ f ih =>
    rw [log2Fuel]
    split_ifs with h2
    · exact Nat.zero_le _
    · cases k with
      | zero => omega
      | succ k =>
        have h3 : n / 2 < 2 ^ (k + 1) := by
          rw [Nat.div_lt_iff_lt_mul (by norm_num)]
          rw [pow_succ] at h
          exact h
        have := ih _ _ h3
        omega

theorem pow2_nonpos (t : Int) (h : t ≤ 0) : pow2 t = 1 / ((2 ^ (-t).toNat : Nat) : ℚ) := by
  unfold pow2
  split_ifs with h0
  · have : t = 0 := le_antisymm h h0
    subst this
    simp
  · rfl

theorem roundHalfEven_natCast (N : Nat) : roundHalfEven (N : ℚ) = N := by
  have hf : Rat.floor (N : ℚ) = (N : Int) := by
    rw [Rat.floor_def']
    simp
  unfold roundHalfEven
  simp only [hf]
  simp

/-- The exponent of a natural number below `2 ^ 53`. -/
theorem floorLog2_natCast (m : Nat) (h : m < 2 ^ 53) :
    -1 ≤ floorLog2 (m : ℚ) ∧ floorLog2 (m : ℚ) ≤ 52 := by
  have h1 : natLog2 m ≤ 52 := log2Fuel_le m m 52 h
  have h2 : natLog2 1 = 0 := rfl
  unfold floorLog2
  simp only [Rat.num_natCast, Rat.den_natCast, Int.natAbs_ofNat, h2]
  split_ifs <;> constructor <;> omega

/-- The rounding of a number whose magnitude is a natural number below `2 ^ 53`. -/
theorem roundDouble_of_natCast (q : ℚ) (m : Nat) (hq : q ≠ 0) (h : m < 2 ^ 53)
    (ha : (if q < 0 then -q else q) = (m : ℚ)) :
    roundDouble q = .fin (if 0 < q then (m : ℚ) else -(m : ℚ)) := by
  obtain ⟨he1, he2⟩ := floorLog2_natCast m h
  unfold roundDouble
  rw [if_neg hq]
  simp only [ha]
  generalize floorLog2 (m : ℚ) = e at he1 he2
  have hlow : ¬ e < -1022 := by omega
  rw [if_neg hlow]
  rw [pow2_nonpos (e - 52) (by omega)]
  generalize (-(e - 52)).toNat = j
  have hdiv : (m : ℚ) / (1 / ((2 ^ j : Nat) : ℚ)) = ((m * 2 ^ j : Nat) : ℚ) := by
    push_cast
    field_simp
  rw [hdiv, roundHalfEven_natCast]
  have hm : (((m * 2 ^ j : Nat) : Int) : ℚ) * (1 / ((2 ^ j : Nat) : ℚ)) = (m : ℚ) := by
    push_cast
    field_simp
  rw [hm]
  have hbig : ¬ pow2 1024 ≤ (m : ℚ) := by
    rw [not_le]
    have h1 : (m : ℚ) < ((2 ^ 53 : Nat) : ℚ) := Nat.cast_lt.mpr h
    have h2 : ((2 ^ 53 : Nat) : ℚ) ≤ pow2 1024 := by
      unfold pow2
      rw [if_pos (by norm_num)]
      have h3 : (2 : Nat) ^ 53 ≤ 2 ^ (1024 : Int).toNat :=
        Nat.pow_le_pow_right (by decide) (by decide)
      exact Nat.cast_le.mpr h3
    exact lt_of_lt_of_le h1 h2
  rw [if_neg hbig]

/-- An integer below `2 ^ 53` in magnitude is a double. -/
theorem roundDouble_intCast (n : Int) (h : n.natAbs < 2 ^ 53) :
    roundDouble (n : ℚ) = .fin n := by
  by_cases hn : n = 0
  · subst hn
    simp [roundDouble]
  have hq : (n : ℚ) ≠ 0 := Int.cast_ne_zero.mpr hn
  have habs : ((n.natAbs : Nat) : ℚ) = ((|n| : Int) : ℚ) := by
    rw [← Int.natCast_natAbs]
    rfl
  rcases lt_or_gt_of_ne hn with hneg | hpos
  · have hlt : (n : ℚ) < 0 := Int.cast_lt_zero.mpr hneg
    have hnp : ¬ (0 : ℚ) < n := not_lt.mpr (le_of_lt hlt)
    have ha : (if (n : ℚ) < 0 then -(n : ℚ) else (n : ℚ)) = ((n.natAbs : Nat) : ℚ) := by
      rw [if_pos hlt, habs, abs_of_neg hneg, Int.cast_neg]
    rw [roundDouble_of_natCast (n : ℚ) n.natAbs hq h ha, if_neg hnp, habs, abs_of_neg hneg,
      Int.cast_neg, neg_neg]
  · have hgt : (0 : ℚ) < n := Int.cast_pos.mpr hpos
    have hnl : ¬ (n : ℚ) < 0 := not_lt.mpr (le_of_lt hgt)
    have ha : (if (n : ℚ) < 0 then -(n : ℚ) else (n : ℚ)) = ((n.natAbs : Nat) : ℚ) := by
      rw [if_neg hnl, habs, abs_of_pos hpos]
    rw [roundDouble_of_natCast (n : ℚ) n.natAbs hq h ha, if_pos hgt, habs, abs_of_pos hpos]

/-- The sum of two integers is exact when it is below `2 ^ 53` in magnitude. -/
theorem JSNum.addDouble_intCast (a b : Int) (h : (a + b).natAbs < 2 ^ 53) :
    JSNum.addDouble (.fin a) (.fin b) = .fin (a + b) := by
  have := roundDouble_intCast (a + b) h
  simp only [JSNum.addDouble]
  push_cast at this
  exact this

/-! ### `add` on doubles -/

/-- The method `add` is `addWith` at the exact sum. -/
theorem Pointomatic.addWith_add : Pointomatic.addWith JSNum.add = Pointomatic.add := rfl

/-- The command `ZINCRBY` is `zincrbyWith` at the exact sum. -/
theorem Redis.zincrbyWith_add : Redis.zincrbyWith JSNum.add = Redis.zincrby := rfl

theorem Redis.zincrbyWith_present (plus : JSNum → JSNum → JSNum) (db : Redis) (key m : String)
    (c d s : ℚ) (h : db.score? key m = some (.fin c)) (hs : plus (.fin c) (.fin d) = .fin s) :
    db.zincrbyWith plus key (.fin d) m =
      (.ok (.num (.fin s)),
       db.putZSet key (zinsert (m, .fin s) (remove m (db.zsetOf key)))) := by
  unfold Redis.score? at h
  simp [Redis.zincrbyWith, JSNum.isNaN, h, hs, scoreReply]

/-- What `addWith` does once the key is valid, present with a finite value, and the sum is
finite and in range. -/
theorem Pointomatic.addWith_of_valid (plus : JSNum → JSNum → JSNum) (p : Pointomatic)
    (db : Redis) {k : String} {raw : JSVal} {c d s : ℚ}
    (hk : p.invalid k = false) (hc : db.score? p.name (p.encrypt k) = some (.fin c))
    (hd : parseFloat raw = .fin d) (hs : plus (.fin c) (.fin d) = .fin s)
    (hmin : p.min ≤ s) (hmax : s ≤ p.max) :
    p.addWith plus db k raw =
      (.ok ⟨k, .fin s, .fin d⟩,
       db.putZSet p.name (zinsert (p.encrypt k, .fin s)
         (remove (p.encrypt k) (db.zsetOf p.name)))) := by
  simp only [Pointomatic.addWith, Pointomatic.assertKey_valid p hk, hd, JSNum.isNaN,
    Pointomatic.get_of_score p db hk hc, hs,
    Pointomatic.assertRange_inRange p hmin hmax, Redis.zincrbyWith_present plus db _ _ c d s hc hs]
  simp [Pointomatic.parseNumber, parseFloat, JSNum.isNaN,
    Pointomatic.assertRange_inRange p hmin hmax]

/-- A sum of doubles with a finite result has finite terms. -/
theorem JSNum.addDouble_fin_right {c s : ℚ} {x : JSNum}
    (h : JSNum.addDouble (.fin c) x = .fin s) : ∃ d, x = .fin d := by
  cases x with
  | fin d => exact ⟨d, rfl⟩
  | nan => simp [JSNum.addDouble, JSNum.add] at h
  | posInf => simp [JSNum.addDouble, JSNum.add] at h
  | negInf => simp [JSNum.addDouble, JSNum.add] at h

/-- C16 (on doubles, for sums that associate): for a valid key present with the finite value
`c` and raw changes that parse as `c1`, `c2` and as the double `c1 + c2`, with the doubles
`s1 = c + c1` and `s2 = s1 + c2` both in `[min, max]`, and with `c + (c1 + c2)` the same
double as `(c + c1) + c2`, the calls `add(k, c1)` then `add(k, c2)` return the final value
`s2`, the single call `add(k, c1 + c2)` returns the same value, and both leave the same Redis
state, in which the stored value of the key is `s2`.  Every `+` is the rounded sum of
doubles. -/
theorem Pointomatic.add_add_rounded (p : Pointomatic) (db : Redis) (k : String)
    (raw1 raw2 raw12 : JSVal) (c c1 c2 s1 s2 : ℚ)
    (hk : p.invalid k = false)
    (hc : db.score? p.name (p.encrypt k) = some (.fin c))
    (h1 : parseFloat raw1 = .fin c1) (h2 : parseFloat raw2 = .fin c2)
    (h12 : parseFloat raw12 = JSNum.addDouble (.fin c1) (.fin c2))
    (hs1 : JSNum.addDouble (.fin c) (.fin c1) = .fin s1)
    (hs2 : JSNum.addDouble (.fin s1) (.fin c2) = .fin s2)
    (hassoc : JSNum.addDouble (.fin c) (JSNum.addDouble (.fin c1) (.fin c2)) = .fin s2)
    (hmin1 : p.min ≤ s1) (hmax1 : s1 ≤ p.max)
    (hmin2 : p.min ≤ s2) (hmax2 : s2 ≤ p.max) :
    (p.addRounded (p.addRounded db k raw1).2 k raw2).1 = .ok ⟨k, .fin s2, .fin c2⟩ ∧
    (p.addRounded db k raw12).1
      = .ok ⟨k, .fin s2, JSNum.addDouble (.fin c1) (.fin c2)⟩ ∧
    (p.addRounded (p.addRounded db k raw1).2 k raw2).2 = (p.addRounded db k raw12).2 ∧
    (p.addRounded db k raw12).2.score? p.name (p.encrypt k) = some (.fin s2) := by
  obtain ⟨d, hd⟩ := JSNum.addDouble_fin_right hassoc
  rw [hd] at h12 hassoc
  have hsc : (db.putZSet p.name (zinsert (p.encrypt k, .fin s1)
      (remove (p.encrypt k) (db.zsetOf p.name)))).score? p.name (p.encrypt k)
        = some (.fin s1) :=
    (Redis.score?_putZSet_zinsert db p.name (p.encrypt k) (.fin s1)).1
  rw [hd]
  unfold Pointomatic.addRounded
  rw [Pointomatic.addWith_of_valid _ p db hk hc h1 hs1 hmin1 hmax1,
    Pointomatic.addWith_of_valid _ p _ hk hsc h2 hs2 hmin2 hmax2,
    Pointomatic.addWith_of_valid _ p db hk hc h12 hassoc hmin2 hmax2]
  refine ⟨rfl, rfl, ?_, ?_⟩
  · simp only [Redis.zsetOf_putZSet_self, remove_zinsert_self, remove_remove]
    exact Redis.putZSet_putZSet db p.name _ _ (zinsert_ne_nil _ _)
  · exact (Redis.score?_putZSet_zinsert db p.name (p.encrypt k) (.fin s2)).1

/-- Witness of C16 on the test ledger: from 100, `add(20)` then `add(30)`, and `add(50)`. -/
theorem Pointomatic.add_add_rounded_witness :
    ((specs false).addRounded ((specs false).addRounded
      ((specs false).create Redis.empty "abcdefgh" (.num (.fin 100)) "first" utc).2
      "abcdefgh" (.num (.fin 20))).2 "abcdefgh" (.num (.fin 30))).1
      = .ok ⟨"abcdefgh", .fin 150, .fin 30⟩ ∧
    ((specs false).addRounded
      ((specs false).create Redis.empty "abcdefgh" (.num (.fin 100)) "first" utc).2
      "abcdefgh" (.num (.fin 50))).1
      = .ok ⟨"abcdefgh", .fin 150, JSNum.addDouble (.fin 20) (.fin 30)⟩ ∧
    ((specs false).addRounded ((specs false).addRounded
      ((specs false).create Redis.empty "abcdefgh" (.num (.fin 100)) "first" utc).2
      "abcdefgh" (.num (.fin 20))).2 "abcdefgh" (.num (.fin 30))).2
    = ((specs false).addRounded
      ((specs false).create Redis.empty "abcdefgh" (.num (.fin 100)) "first" utc).2
      "abcdefgh" (.num (.fin 50))).2 ∧
    ((specs false).addRounded
      ((specs false).create Redis.empty "abcdefgh" (.num (.fin 100)) "first" utc).2
      "abcdefgh" (.num (.fin 50))).2.score? "points" (reverse "abcdefgh")
      = some (.fin 150) :=
  Pointomatic.add_add_rounded (specs false)
    ((specs false).create Redis.empty "abcdefgh" (.num (.fin 100)) "first" utc).2
    "abcdefgh" (.num (.fin 20)) (.num (.fin 30)) (.num (.fin 50)) 100 20 30 120 150
    (by decide) (by decide) rfl rfl (by decide!) (by decide!) (by decide!) (by decide!)
    (by decide!) (by decide!) (by decide!) (by decide!)

/-- C16 fails on doubles: on the test ledger with `abcdefgh` at `0.1`, the changes `0.2` and
`0.3` have the double sum `0.5`, and `0.1 + 0.2 = 0.30000000000000004` and
`0.30000000000000004 + 0.3 = 0.6000000000000001` are both in `[0, 150]`; `add(0.2)` then
`add(0.3)` returns and stores `0.6000000000000001`, the single call `add(0.5)` returns and
stores `0.6`. -/
theorem Pointomatic.add_add_counterexample :
    (specs false).invalid "abcdefgh" = false ∧
    dbTenth.score? "points" (reverse "abcdefgh") = some (.fin double01) ∧
    roundDouble (1 / 10) = .fin double01 ∧
    roundDouble (2 / 10) = .fin double02 ∧
    roundDouble (3 / 10) = .fin double03 ∧
    JSNum.addDouble (.fin double02) (.fin double03) = .fin (1 / 2) ∧
    ((specs false).addRounded dbTenth "abcdefgh" (.num (.fin double02))).1
      = .ok ⟨"abcdefgh", .fin (5404319552844596 / 18014398509481984), .fin double02⟩ ∧
    ((specs false).addRounded
      ((specs false).addRounded dbTenth "abcdefgh" (.num (.fin double02))).2
      "abcdefgh" (.num (.fin double03))).1
      = .ok ⟨"abcdefgh", .fin (5404319552844596 / 9007199254740992), .fin double03⟩ ∧
    ((specs false).addRounded
      ((specs false).addRounded dbTenth "abcdefgh" (.num (.fin double02))).2
      "abcdefgh" (.num (.fin double03))).2.score? "points" (reverse "abcdefgh")
      = some (.fin (5404319552844596 / 9007199254740992)) ∧
    ((specs false).addRounded dbTenth "abcdefgh" (.num (.fin (1 / 2)))).1
      = .ok ⟨"abcdefgh", .fin (5404319552844595 / 9007199254740992), .fin (1 / 2)⟩ ∧
    ((specs false).addRounded dbTenth "abcdefgh" (.num (.fin (1 / 2)))).2.score? "points"
      (reverse "abcdefgh") = some (.fin (5404319552844595 / 9007199254740992)) ∧
    (5404319552844596 / 9007199254740992 : ℚ) ≠ 5404319552844595 / 9007199254740992 := by
  decide!

/-! ## Listing the ledger -/

theorem pairUp_withScores (z : ZSet) :
    pairUp (withScores z) = z.map (fun e => (JSVal.str e.1, parseFloat (scoreReply e.2))) := by
  induction z with
  | nil => rfl
  | cons hd t ih =>
    obtain ⟨m, s⟩ := hd
    simp [withScores, pairUp, ih]

/-- The pairs read from a reply whose scores are all finite are the entries themselves. -/
theorem pairUp_withScores_finite (z : ZSet) (h : z.all (fun e => e.2.isFinite) = true) :
    pairUp (withScores z) = z.map (fun e => (JSVal.str e.1, e.2)) := by
  rw [pairUp_withScores]
  apply List.map_congr_left
  intro e he
  have hf := List.all_eq_true.mp h e he
  obtain ⟨m, s⟩ := e
  cases s with
  | fin q => rfl
  | nan => simp [JSNum.isFinite] at hf
  | posInf => simp [JSNum.isFinite] at hf
  | negInf => simp [JSNum.isFinite] at hf

theorem all_filter_of_all {α : Type} (f g : α → Bool) (l : List α) (h : l.all f = true) :
    (l.filter g).all f = true := by
  rw [List.all_eq_true] at h ⊢
  intro e he
  exact h e (List.mem_filter.mp he).1

/-- The interval of `aboveMaxRange` holds the scores strictly above the bound. -/
theorem inRange_aboveMax (x : ℚ) (s : JSNum) :
    inRange (.excl (.fin x)) (.incl .posInf) s = JSNum.gt s (.fin x) := by
  cases s <;> simp [inRange, JSNum.le, JSNum.lt, JSNum.gt]

theorem isFinite_of_isBetween (lo hi : ℚ) (s : JSNum) (h : s.isBetween lo hi = true) :
    s.isFinite = true := by
  cases s <;> simp [JSNum.isBetween] at h ⊢
  rfl

/-- C18: in every Redis state `getAllRawPairs(...belowMinRange())` returns, in the order of
the sorted set, exactly the entries whose score is strictly less than `min`, and
`getAllRawPairs(...aboveMaxRange())` exactly those whose score is strictly greater than
`max`, each as the pair of its encoded key and of what `parseFloat` reads from its score;
when the scores of the ledger are finite the pairs are the entries themselves, and when
every stored value lies in `[min, max]` both results are empty. -/
theorem Pointomatic.getAllRawPairs_out_of_range (p : Pointomatic) (db : Redis) :
    p.getAllRawPairs db (some p.belowMinRange.1) (some p.belowMinRange.2) =
      .ok (((db.zsetOf p.name).filter (fun e => JSNum.lt e.2 (.fin p.min))).map
        (fun e => (JSVal.str e.1, parseFloat (scoreReply e.2)))) ∧
    p.getAllRawPairs db (some p.aboveMaxRange.1) (some p.aboveMaxRange.2) =
      .ok (((db.zsetOf p.name).filter (fun e => JSNum.gt e.2 (.fin p.max))).map
        (fun e => (JSVal.str e.1, parseFloat (scoreReply e.2)))) ∧
    (db.allFinite p.name = true →
      p.getAllRawPairs db (some p.belowMinRange.1) (some p.belowMinRange.2) =
        .ok (((db.zsetOf p.name).filter (fun e => JSNum.lt e.2 (.fin p.min))).map
          (fun e => (JSVal.str e.1, e.2))) ∧
      p.getAllRawPairs db (some p.aboveMaxRange.1) (some p.aboveMaxRange.2) =
        .ok (((db.zsetOf p.name).filter (fun e => JSNum.gt e.2 (.fin p.max))).map
          (fun e => (JSVal.str e.1, e.2)))) ∧
    (p.allInRange db = true →
      p.getAllRawPairs db (some p.belowMinRange.1) (some p.belowMinRange.2) = .ok [] ∧
      p.getAllRawPairs db (some p.aboveMaxRange.1) (some p.aboveMaxRange.2) = .ok []) := by
  have hlo : p.getAllRawPairs db (some p.belowMinRange.1) (some p.belowMinRange.2) =
      .ok (pairUp (withScores
        ((db.zsetOf p.name).filter (fun e => JSNum.lt e.2 (.fin p.min))))) := by
    simp [getAllRawPairs, Redis.zrangebyscoreWithScores, belowMinRange, inRange_belowMin]
  have hhi : p.getAllRawPairs db (some p.aboveMaxRange.1) (some p.aboveMaxRange.2) =
      .ok (pairUp (withScores
        ((db.zsetOf p.name).filter (fun e => JSNum.gt e.2 (.fin p.max))))) := by
    simp [getAllRawPairs, Redis.zrangebyscoreWithScores, aboveMaxRange, inRange_aboveMax]
  refine ⟨?_, ?_, ?_, ?_⟩
  · rw [hlo, pairUp_withScores]
  · rw [hhi, pairUp_withScores]
  · intro hfin
    rw [hlo, hhi, pairUp_withScores_finite _ (all_filter_of_all _ _ _ hfin),
      pairUp_withScores_finite _ (all_filter_of_all _ _ _ hfin)]
    exact ⟨rfl, rfl⟩
  · intro hr
    have hall : ∀ e ∈ db.zsetOf p.name, e.2.isBetween p.min p.max = true :=
      List.all_eq_true.mp hr
    have h1 : (db.zsetOf p.name).filter (fun e => JSNum.lt e.2 (.fin p.min)) = [] := by
      rw [List.filter_eq_nil_iff]
      intro e he
      have hb := hall e he
      obtain ⟨m, s⟩ := e
      cases s <;> simp [JSNum.isBetween, JSNum.lt] at hb ⊢
      exact hb.1
    have h2 : (db.zsetOf p.name).filter (fun e => JSNum.gt e.2 (.fin p.max)) = [] := by
      rw [List.filter_eq_nil_iff]
      intro e he
      have hb := hall e he
      obtain ⟨m, s⟩ := e
      cases s <;> simp [JSNum.isBetween, JSNum.gt, JSNum.lt] at hb ⊢
      exact hb.2
    rw [hlo, hhi, h1, h2]
    exact ⟨rfl, rfl⟩

/-- Witness of C18 on the test ledger in the state with the values -5, 0 and 10: below
`min` there is the one entry with -5, above `max` there is none. -/
theorem Pointomatic.getAllRawPairs_out_of_range_witness :
    (specs false).getAllRawPairs dbLow (some (specs false).belowMinRange.1)
      (some (specs false).belowMinRange.2) = .ok [(.str "aaaaaaaa", .fin (-5))] ∧
    (specs false).getAllRawPairs dbLow (some (specs false).aboveMaxRange.1)
      (some (specs false).aboveMaxRange.2) = .ok [] :=
  (Pointomatic.getAllRawPairs_out_of_range (specs false) dbLow).2.2.1 (by decide)

/-- The indices `0` to `-1` select the whole list. -/
theorem rangeByIndex_all {α : Type} (l : List α) : rangeByIndex l 0 (-1) = l := by
  unfold rangeByIndex
  cases l with
  | nil => simp
  | cons a t =>
    have h1 : ¬ ((0 : Int) > ((a :: t).length : Int) + -1 ∨ (0 : Int) ≥ ((a :: t).length : Int)) := by
      simp only [List.length_cons, Nat.cast_add, Nat.cast_one]
      omega
    have h2 : (((a :: t).length : Int) + -1 - 0 + 1).toNat = (a :: t).length := by
      simp only [List.length_cons, Nat.cast_add, Nat.cast_one]
      omega
    simp only [show ((-1 : Int) < 0) from by decide, if_true, show ¬ ((0 : Int) < 0) from by decide,
      if_false, h1, h2, Int.toNat_zero, List.drop_zero, List.take_length]

/-- The interval from `min` to `max`, bounds included, holds every value in `[min, max]`. -/
theorem inRange_incl_of_isBetween (lo hi : ℚ) (s : JSNum) (h : s.isBetween lo hi = true) :
    inRange (.incl (.fin lo)) (.incl (.fin hi)) s = true := by
  cases s with
  | fin q =>
    simp only [JSNum.isBetween, decide_eq_true_eq] at h
    simp [inRange, JSNum.le, JSNum.lt, h.1, h.2]
  | nan => simp [JSNum.isBetween] at h
  | posInf => simp [JSNum.isBetween] at h
  | negInf => simp [JSNum.isBetween] at h

/-- C19: when every stored value lies in `[min, max]`, `getAllRawPairs()` and
`getAllRawPairs(min, max)` both return one pair `[encoded key, value]` per stored entry, in
the order of the sorted set, and `getAllPairs()` and `getAllPairs(min, max)` both return the
same pairs with `decrypt` applied to the keys; an entry stored for `encrypt(k)` with
`decrypt(encrypt(k)) = k` is returned as `[k, value]`. -/
theorem Pointomatic.getAllPairs_in_range (p : Pointomatic) (db : Redis)
    (h : p.allInRange db = true) :
    p.getAllRawPairs db none none
      = .ok ((db.zsetOf p.name).map (fun e => (JSVal.str e.1, e.2))) ∧
    p.getAllRawPairs db (some (.incl (.fin p.min))) (some (.incl (.fin p.max)))
      = .ok ((db.zsetOf p.name).map (fun e => (JSVal.str e.1, e.2))) ∧
    p.getAllPairs db none none
      = .ok ((db.zsetOf p.name).map (fun e => (JSVal.str (p.decrypt e.1), e.2))) ∧
    p.getAllPairs db (some (.incl (.fin p.min))) (some (.incl (.fin p.max)))
      = p.getAllPairs db none none ∧
    (∀ (k : String) (v : JSNum), (p.encrypt k, v) ∈ db.zsetOf p.name →
      p.decrypt (p.encrypt k) = k →
      (JSVal.str k, v) ∈ (db.zsetOf p.name).map (fun e => (JSVal.str (p.decrypt e.1), e.2))) := by
  have hall : ∀ e ∈ db.zsetOf p.name, e.2.isBetween p.min p.max = true :=
    List.all_eq_true.mp h
  have hfin : (db.zsetOf p.name).all (fun e => e.2.isFinite) = true := by
    rw [List.all_eq_true]
    intro e he
    exact isFinite_of_isBetween _ _ _ (hall e he)
  have hfilter : (db.zsetOf p.name).filter
      (fun e => inRange (.incl (.fin p.min)) (.incl (.fin p.max)) e.2) = db.zsetOf p.name := by
    rw [List.filter_eq_self]
    intro e he
    exact inRange_incl_of_isBetween _ _ _ (hall e he)
  have hraw : p.getAllRawPairs db none none
      = .ok ((db.zsetOf p.name).map (fun e => (JSVal.str e.1, e.2))) := by
    simp only [getAllRawPairs, Redis.zrangeWithScores, rangeByIndex_all]
    rw [pairUp_withScores_finite _ hfin]
  have hrange : p.getAllRawPairs db (some (.incl (.fin p.min))) (some (.incl (.fin p.max)))
      = .ok ((db.zsetOf p.name).map (fun e => (JSVal.str e.1, e.2))) := by
    simp only [getAllRawPairs, Redis.zrangebyscoreWithScores, hfilter]
    rw [pairUp_withScores_finite _ hfin]
  have hall1 : p.getAllPairs db none none
      = .ok ((db.zsetOf p.name).map (fun e => (JSVal.str (p.decrypt e.1), e.2))) := by
    simp only [getAllPairs, hraw, List.map_map]
    rfl
  refine ⟨hraw, hrange, hall1, ?_, ?_⟩
  · rw [hall1]
    simp only [getAllPairs, hrange, List.map_map]
    rfl
  · intro k v hm hdec
    rw [List.mem_map]
    exact ⟨(p.encrypt k, v), hm, by simp [hdec]⟩

/-- Witness of C19 on the test ledger after `create("abcdefgh", 150)`: both calls return
the one pair `["abcdefgh", 150]`. -/
theorem Pointomatic.getAllPairs_in_range_witness :
    (specs false).getAllPairs
      ((specs false).create Redis.empty "abcdefgh" (.num (.fin 150)) "first" utc).2
      (some (.incl (.fin (specs false).min))) (some (.incl (.fin (specs false).max)))
    = (specs false).getAllPairs
      ((specs false).create Redis.empty "abcdefgh" (.num (.fin 150)) "first" utc).2 none none :=
  (Pointomatic.getAllPairs_in_range (specs false)
    ((specs false).create Redis.empty "abcdefgh" (.num (.fin 150)) "first" utc).2
    (by decide)).2.2.2.1

/-! ## The accumulation of `ZUNIONSTORE` -/

theorem lookup_eq_none_iff {β : Type} (x : String) (l : List (String × β)) :
    lookup x l = none ↔ x ∉ l.map (fun e => e.1) := by
  induction l with
  | nil => simp [lookup]
  | cons hd t ih =>
    obtain ⟨k, v⟩ := hd
    by_cases hk : k = x
    · simp [lookup, hk]
    · have hx : ¬ x = k := fun e => hk e.symm
      simp [lookup, hk, hx, ih]

theorem lookup_update_self {β : Type} (k : String) (v old : β) (l : List (String × β))
    (h : lookup k l = some old) : lookup k (update k v l) = some v := by
  induction l with
  | nil => simp [lookup] at h
  | cons hd t ih =>
    obtain ⟨k', v'⟩ := hd
    by_cases hk : k' = k
    · rw [update, if_pos hk, lookup, if_pos hk]
    · rw [lookup, if_neg hk] at h
      rw [update, if_neg hk, lookup, if_neg hk, ih h]

theorem lookup_update_ne {β : Type} {k x : String} (hx : x ≠ k) (v : β)
    (l : List (String × β)) : lookup x (update k v l) = lookup x l := by
  induction l with
  | nil => rfl
  | cons hd t ih =>
    obtain ⟨k', v'⟩ := hd
    by_cases hk : k' = k
    · have hkx : ¬ k' = x := fun e => hx (e.symm.trans hk)
      rw [update, if_pos hk, lookup, if_neg hkx, lookup, if_neg hkx]
    · rw [update, if_neg hk, lookup, lookup, ih]

theorem map_fst_update {β : Type} (k : String) (v : β) (l : List (String × β)) :
    (update k v l).map (fun e => e.1) = l.map (fun e => e.1) := by
  induction l with
  | nil => rfl
  | cons hd t ih =>
    obtain ⟨k', v'⟩ := hd
    by_cases hk : k' = k
    · rw [update, if_pos hk]
      rfl
    · rw [update, if_neg hk, List.map_cons, List.map_cons, ih]

theorem all_update {β : Type} (f : String × β → Bool) (k : String) (v : β)
    (l : List (String × β)) (hl : l.all f = true) (hv : ∀ k', f (k', v) = true) :
    (update k v l).all f = true := by
  induction l with
  | nil => rfl
  | cons hd t ih =>
    obtain ⟨k', v'⟩ := hd
    simp only [List.all_cons, Bool.and_eq_true] at hl
    by_cases hk : k' = k
    · rw [update, if_pos hk]
      simp only [List.all_cons, Bool.and_eq_true]
      exact ⟨hv k', hl.2⟩
    · rw [update, if_neg hk]
      simp only [List.all_cons, Bool.and_eq_true]
      exact ⟨hl.1, ih hl.2⟩

theorem lookup_append_self {β : Type} (m : String) (v : β) (l : List (String × β))
    (h : lookup m l = none) : lookup m (l ++ [(m, v)]) = some v := by
  induction l with
  | nil => simp [lookup]
  | cons hd t ih =>
    obtain ⟨k', v'⟩ := hd
    by_cases hk : k' = m
    · rw [lookup, if_pos hk] at h
      cases h
    · rw [lookup, if_neg hk] at h
      rw [List.cons_append, lookup, if_neg hk, ih h]

theorem lookup_append_ne {β : Type} {m x : String} (hx : x ≠ m) (v : β)
    (l : List (String × β)) : lookup x (l ++ [(m, v)]) = lookup x l := by
  have hm : ¬ m = x := fun e => hx e.symm
  induction l with
  | nil => simp [lookup, hm]
  | cons hd t ih =>
    obtain ⟨k', v'⟩ := hd
    rw [List.cons_append, lookup, lookup, ih]

/-- A value found in a list of finite values is finite. -/
theorem isFinite_of_lookup (l : List (String × JSNum)) (h : l.all (fun e => e.2.isFinite) = true)
    {x : String} {v : JSNum} (hx : lookup x l = some v) : ∃ q, v = .fin q := by
  induction l with
  | nil => simp [lookup] at hx
  | cons hd t ih =>
    obtain ⟨k', v'⟩ := hd
    simp only [List.all_cons, Bool.and_eq_true] at h
    by_cases hk : k' = x
    · rw [lookup, if_pos hk] at hx
      cases hx
      cases v with
      | fin q => exact ⟨q, rfl⟩
      | nan => simp [JSNum.isFinite] at h
      | posInf => simp [JSNum.isFinite] at h
      | negInf => simp [JSNum.isFinite] at h
    · rw [lookup, if_neg hk] at hx
      exact ih h.2 hx

theorem valueOrZero_of_not_mem (l : List (String × JSNum)) (x : String)
    (h : x ∉ l.map (fun e => e.1)) : valueOrZero l x = 0 := by
  rw [valueOrZero, (lookup_eq_none_iff x l).mpr h]

/-- One step of the accumulation, with a finite weight, a finite score and finite
accumulated values: the accumulated value of the member grows by weight times score. -/
theorem valueOrZero_unionStep (w q : ℚ) (m : String) (acc : List (String × JSNum))
    (hacc : acc.all (fun e => e.2.isFinite) = true) (x : String) :
    valueOrZero (unionStep (.fin w) acc (m, .fin q)) x
      = valueOrZero acc x + (if x = m then w * q else 0) := by
  cases hl : lookup m acc with
  | none =>
    simp only [unionStep, hl, JSNum.mul, JSNum.nanToZero]
    by_cases hx : x = m
    · subst hx
      rw [valueOrZero, lookup_append_self _ _ _ hl, valueOrZero, hl]
      simp
    · rw [valueOrZero, lookup_append_ne hx, if_neg hx, add_zero]
      rfl
  | some old =>
    obtain ⟨o, ho⟩ := isFinite_of_lookup acc hacc hl
    subst ho
    simp only [unionStep, hl, JSNum.mul, JSNum.nanToZero, JSNum.add]
    by_cases hx : x = m
    · subst hx
      rw [valueOrZero, lookup_update_self _ _ _ _ hl, valueOrZero, hl]
      simp
    · rw [valueOrZero, lookup_update_ne hx, if_neg hx, add_zero]
      rfl

theorem mem_keys_unionStep (w : JSNum) (e : String × JSNum) (acc : List (String × JSNum))
    (x : String) :
    x ∈ (unionStep w acc e).map (fun e => e.1) ↔ x ∈ acc.map (fun e => e.1) ∨ x = e.1 := by
  cases hl : lookup e.1 acc with
  | none =>
    simp [unionStep, hl]
  | some old =>
    have hm : e.1 ∈ acc.map (fun e => e.1) := by
      by_contra hn
      rw [(lookup_eq_none_iff _ _).mpr hn] at hl
      cases hl
    simp only [unionStep, hl, map_fst_update]
    constructor
    · intro h
      exact Or.inl h
    · intro h
      rcases h with h | h
      · exact h
      · rw [h]
        exact hm

theorem nodup_keys_unionStep (w : JSNum) (e : String × JSNum) (acc : List (String × JSNum))
    (h : (acc.map (fun e => e.1)).Nodup) : ((unionStep w acc e).map (fun e => e.1)).Nodup := by
  cases hl : lookup e.1 acc with
  | none =>
    have hn := (lookup_eq_none_iff _ _).mp hl
    simp only [unionStep, hl, List.map_append, List.map_cons, List.map_nil]
    rw [List.nodup_append]
    refine ⟨h, List.nodup_singleton _, ?_⟩
    intro a ha hb
    rw [List.mem_singleton] at hb
    subst hb
    exact hn ha
  | some old =>
    simp only [unionStep, hl, map_fst_update]
    exact h

theorem allFinite_unionStep (w q : ℚ) (m : String) (acc : List (String × JSNum))
    (hacc : acc.all (fun e => e.2.isFinite) = true) :
    (unionStep (.fin w) acc (m, .fin q)).all (fun e => e.2.isFinite) = true := by
  cases hl : lookup m acc with
  | none =>
    simp only [unionStep, hl, JSNum.mul, JSNum.nanToZero, List.all_append, hacc]
    rfl
  | some old =>
    obtain ⟨o, ho⟩ := isFinite_of_lookup acc hacc hl
    subst ho
    simp only [unionStep, hl, JSNum.mul, JSNum.nanToZero, JSNum.add]
    exact all_update _ _ _ _ hacc (fun _ => rfl)

/-- The accumulation of one source whose scores are finite keeps the values finite. -/
theorem allFinite_unionAdd (w : ℚ) (z : ZSet) (hz : z.all (fun e => e.2.isFinite) = true) :
    ∀ acc : List (String × JSNum), acc.all (fun e => e.2.isFinite) = true →
      (unionAdd (.fin w) z acc).all (fun e => e.2.isFinite) = true := by
  induction z with
  | nil =>
    intro acc hacc
    exact hacc
  | cons hd t ih =>
    intro acc hacc
    obtain ⟨m, s⟩ := hd
    simp only [List.all_cons, Bool.and_eq_true] at hz
    cases s with
    | fin q => exact ih hz.2 _ (allFinite_unionStep w q m acc hacc)
    | nan => simp [JSNum.isFinite] at hz
    | posInf => simp [JSNum.isFinite] at hz
    | negInf => simp [JSNum.isFinite] at hz

theorem mem_keys_unionAdd (w : JSNum) (z : ZSet) (x : String) :
    ∀ acc : List (String × JSNum),
      x ∈ (unionAdd w z acc).map (fun e => e.1) ↔
        x ∈ acc.map (fun e => e.1) ∨ x ∈ z.map (fun e => e.1) := by
  induction z with
  | nil =>
    intro acc
    simp [unionAdd]
  | cons hd t ih =>
    intro acc
    rw [unionAdd, ih, mem_keys_unionStep, List.map_cons, List.mem_cons, or_assoc]

theorem nodup_keys_unionAdd (w : JSNum) (z : ZSet) :
    ∀ acc : List (String × JSNum), (acc.map (fun e => e.1)).Nodup →
      ((unionAdd w z acc).map (fun e => e.1)).Nodup := by
  induction z with
  | nil =>
    intro acc h
    exact h
  | cons hd t ih =>
    intro acc h
    exact ih _ (nodup_keys_unionStep w hd acc h)

/-- The accumulation of one source with finite scores, each member once: the accumulated
value of `x` grows by the weight times the score of `x` in the source. -/
theorem valueOrZero_unionAdd (w : ℚ) (x : String) (z : ZSet)
    (hz : z.all (fun e => e.2.isFinite) = true) (hn : (z.map (fun e => e.1)).Nodup) :
    ∀ acc : List (String × JSNum), acc.all (fun e => e.2.isFinite) = true →
      valueOrZero (unionAdd (.fin w) z acc) x = valueOrZero acc x + w * valueOrZero z x := by
  induction z with
  | nil =>
    intro acc hacc
    simp [unionAdd, valueOrZero, lookup]
  | cons hd t ih =>
    intro acc hacc
    obtain ⟨m, s⟩ := hd
    simp only [List.all_cons, Bool.and_eq_true] at hz
    rw [List.map_cons, List.nodup_cons] at hn
    cases s with
    | nan => simp [JSNum.isFinite] at hz
    | posInf => simp [JSNum.isFinite] at hz
    | negInf => simp [JSNum.isFinite] at hz
    | fin q =>
      rw [unionAdd, ih hz.2 hn.2 _ (allFinite_unionStep w q m acc hacc),
        valueOrZero_unionStep w q m acc hacc]
      by_cases hx : x = m
      · subst hx
        have h0 : valueOrZero t x = 0 := valueOrZero_of_not_mem t x hn.1
        have h1 : valueOrZero ((x, JSNum.fin q) :: t) x = q := by
          simp [valueOrZero, lookup]
        rw [if_pos rfl, h0, h1]
        ring
      · have hm : ¬ m = x := fun e => hx e.symm
        have h1 : valueOrZero ((m, JSNum.fin q) :: t) x = valueOrZero t x := by
          simp [valueOrZero, lookup, hm]
        rw [if_neg hx, h1]
        ring

theorem scoreOrZero_eq (db : Redis) (source x : String) :
    scoreOrZero db source x = valueOrZero (db.zsetOf source) x := rfl

theorem allFinite_unionAll (db : Redis) (ws : List (String × ℚ))
    (hws : sourcesWellFormed db ws) :
    ∀ acc : List (String × JSNum), acc.all (fun e => e.2.isFinite) = true →
      (unionAll db (finiteWeights ws) acc).all (fun e => e.2.isFinite) = true := by
  induction ws with
  | nil =>
    intro acc hacc
    exact hacc
  | cons hd t ih =>
    intro acc hacc
    obtain ⟨n, w⟩ := hd
    have h1 := hws (n, w) (List.mem_cons_self _ _)
    exact ih (fun nw h => hws nw (List.mem_cons_of_mem _ h)) _
      (allFinite_unionAdd w _ h1.1 acc hacc)

theorem mem_keys_unionAll (db : Redis) (ws : List (String × ℚ)) (x : String) :
    ∀ acc : List (String × JSNum),
      x ∈ (unionAll db (finiteWeights ws) acc).map (fun e => e.1) ↔
        x ∈ acc.map (fun e => e.1) ∨ x ∈ sourceMembers db ws := by
  induction ws with
  | nil =>
    intro acc
    simp [unionAll, finiteWeights, sourceMembers]
  | cons hd t ih =>
    intro acc
    obtain ⟨n, w⟩ := hd
    have h := ih (unionAdd (.fin w) (db.zsetOf n) acc)
    simp only [finiteWeights] at h
    simp only [finiteWeights, List.map_cons, unionAll, sourceMembers, List.mem_append, h,
      mem_keys_unionAdd, or_assoc]

theorem nodup_keys_unionAll (db : Redis) (ws : List (String × JSNum)) :
    ∀ acc : List (String × JSNum), (acc.map (fun e => e.1)).Nodup →
      ((unionAll db ws acc).map (fun e => e.1)).Nodup := by
  induction ws with
  | nil =>
    intro acc h
    exact h
  | cons hd t ih =>
    intro acc h
    obtain ⟨n, w⟩ := hd
    exact ih _ (nodup_keys_unionAdd w _ acc h)

/-- The accumulation over all the sources: the accumulated value of `x` grows by the
weighted sum of the scores of `x`. -/
theorem valueOrZero_unionAll (db : Redis) (x : String) (ws : List (String × ℚ))
    (hws : sourcesWellFormed db ws) :
    ∀ acc : List (String × JSNum), acc.all (fun e => e.2.isFinite) = true →
      valueOrZero (unionAll db (finiteWeights ws) acc) x
        = valueOrZero acc x + weightedSum db ws x := by
  induction ws with
  | nil =>
    intro acc hacc
    simp [unionAll, finiteWeights, weightedSum]
  | cons hd t ih =>
    intro acc hacc
    obtain ⟨n, w⟩ := hd
    have h1 := hws (n, w) (List.mem_cons_self _ _)
    have h2 := ih (fun nw h => hws nw (List.mem_cons_of_mem _ h)) _
      (allFinite_unionAdd w _ h1.1 acc hacc)
    simp only [finiteWeights] at h2
    simp only [finiteWeights, List.map_cons, unionAll, h2, weightedSum, List.sum_cons,
      valueOrZero_unionAdd w x _ h1.1 h1.2 acc hacc, scoreOrZero_eq]
    ring

/-- Sorting accumulated members with distinct names into a sorted set keeps each value. -/
theorem lookup_foldl_zinsert (x : String) (acc : List (String × JSNum)) :
    ∀ z0 : ZSet, (acc.map (fun e => e.1)).Nodup →
      (∀ k ∈ acc.map (fun e => e.1), lookup k z0 = none) →
      lookup x (acc.foldl (fun z e => zinsert e z) z0) =
        match lookup x acc with
        | some v => some v
        | none => lookup x z0 := by
  induction acc with
  | nil =>
    intro z0 _ _
    rfl
  | cons hd t ih =>
    intro z0 hn hz
    obtain ⟨k, v⟩ := hd
    rw [List.map_cons, List.nodup_cons] at hn
    have hk0 : lookup k z0 = none := hz k (List.mem_cons_self _ _)
    have hz' : ∀ k' ∈ t.map (fun e => e.1), lookup k' (zinsert (k, v) z0) = none := by
      intro k' hk'
      have hne : k' ≠ k := fun e => hn.1 (e ▸ hk')
      rw [lookup_zinsert_ne (k, v) z0 hne]
      exact hz k' (List.mem_cons_of_mem _ hk')
    rw [List.foldl_cons, ih _ hn.2 hz']
    by_cases hx : k = x
    · subst hx
      rw [(lookup_eq_none_iff k t).mpr hn.1, lookup_zinsert_self k v z0 hk0, lookup, if_pos rfl]
    · have hxk : x ≠ k := fun e => hx e.symm
      rw [lookup, if_neg hx, lookup_zinsert_ne (k, v) z0 hxk]

theorem zip_finiteWeights (ws : List (String × ℚ)) :
    ((finiteWeights ws).map (fun kw => kw.1)).zip ((finiteWeights ws).map (fun kw => kw.2))
      = finiteWeights ws := by
  induction ws with
  | nil => rfl
  | cons hd t ih =>
    simp only [finiteWeights, List.map_cons, List.zip_cons_cons] at ih ⊢
    rw [ih]

theorem any_isNaN_finiteWeights (ws : List (String × ℚ)) :
    ((finiteWeights ws).map (fun kw => kw.2)).any JSNum.isNaN = false := by
  induction ws with
  | nil => rfl
  | cons hd t ih =>
    simp only [finiteWeights, List.map_cons, List.any_cons] at ih ⊢
    rw [ih]
    rfl

/-- What `wsum` does for a non-empty mapping with finite weights. -/
theorem Pointomatic.wsum_finiteWeights (p : Pointomatic) (db : Redis) (destination : String)
    (ws : List (String × ℚ)) (hne : ws ≠ []) :
    p.wsum db destination (finiteWeights ws) =
      (.ok ⟨destination, finiteWeights ws, (unionAll db (finiteWeights ws) []).length⟩,
       db.putZSet destination
         ((unionAll db (finiteWeights ws) []).foldl (fun z e => zinsert e z) [])) := by
  have hlen : ¬ (finiteWeights ws).length < 1 := by
    cases ws with
    | nil => exact absurd rfl hne
    | cons hd t => simp [finiteWeights]
  simp only [Pointomatic.wsum, Redis.zunionstore, List.length_map, ne_eq,
    not_true_eq_false, or_self, any_isNaN_finiteWeights, Bool.false_eq_true,
    zip_finiteWeights, if_false, if_neg hlen]

/-- C13, as stated, fails for the empty mapping: `wsum("dest", {})` sends `ZUNIONSTORE` with
zero keys, which Redis rejects, so the call throws instead of returning a count. -/
theorem Pointomatic.wsum_empty_counterexample :
    (specs false).wsum dbAB "dest" []
      = (.error (.replyError
          "ERR at least 1 input key is needed for ZUNIONSTORE/ZINTERSTORE"), dbAB) := by
  decide

/-- C13, amended: for every destination name and every non-empty mapping of source names to
finite weights, the sources being sorted sets with finite scores, `wsum` returns
`{destination, weights, count}` where `count` is the number of distinct encoded keys across
the sources, and afterwards the destination holds, for each encoded key that appears in at
least one source, the sum over the listed sources of the weight of the source times the score
of the key in it (0 when the key is absent from it), and holds no other key. -/
theorem Pointomatic.wsum_weighted_sum (p : Pointomatic) (db : Redis) (destination : String)
    (ws : List (String × ℚ)) (hne : ws ≠ []) (hws : sourcesWellFormed db ws) :
    (p.wsum db destination (finiteWeights ws)).1 =
      .ok ⟨destination, finiteWeights ws, (sourceMembers db ws).dedup.length⟩ ∧
    (∀ x ∈ sourceMembers db ws,
      (p.wsum db destination (finiteWeights ws)).2.score? destination x
        = some (.fin (weightedSum db ws x))) ∧
    (∀ x, x ∉ sourceMembers db ws →
      (p.wsum db destination (finiteWeights ws)).2.score? destination x = none) := by
  have hnd : ((unionAll db (finiteWeights ws) []).map (fun e => e.1)).Nodup :=
    nodup_keys_unionAll db _ [] List.nodup_nil
  have hfin : (unionAll db (finiteWeights ws) []).all (fun e => e.2.isFinite) = true :=
    allFinite_unionAll db ws hws [] rfl
  have hmem : ∀ x, x ∈ (unionAll db (finiteWeights ws) []).map (fun e => e.1) ↔
      x ∈ sourceMembers db ws := by
    intro x
    rw [mem_keys_unionAll]
    simp
  have hval : ∀ x, valueOrZero (unionAll db (finiteWeights ws) []) x = weightedSum db ws x := by
    intro x
    rw [valueOrZero_unionAll db x ws hws [] rfl]
    simp [valueOrZero, lookup]
  have hscore : ∀ x, (db.putZSet destination
      ((unionAll db (finiteWeights ws) []).foldl (fun z e => zinsert e z) [])).score?
        destination x = lookup x (unionAll db (finiteWeights ws) []) := by
    intro x
    rw [Redis.score?_putZSet_self, lookup_foldl_zinsert x _ [] hnd (fun _ _ => rfl)]
    cases lookup x (unionAll db (finiteWeights ws) []) <;> rfl
  rw [Pointomatic.wsum_finiteWeights p db destination ws hne]
  refine ⟨?_, ?_, ?_⟩
  · have hperm : ((unionAll db (finiteWeights ws) []).map (fun e => e.1)).Perm
        (sourceMembers db ws).dedup := by
      rw [List.perm_ext_iff_of_nodup hnd (List.nodup_dedup _)]
      intro x
      rw [hmem, List.mem_dedup]
    have hlen := hperm.length_eq
    rw [List.length_map] at hlen
    simp only [hlen]
  · intro x hx
    simp only [hscore]
    cases hl : lookup x (unionAll db (finiteWeights ws) []) with
    | none =>
      exact absurd ((hmem x).mpr hx) ((lookup_eq_none_iff _ _).mp hl)
    | some v =>
      obtain ⟨q, hq⟩ := isFinite_of_lookup _ hfin hl
      subst hq
      have hv := hval x
      rw [valueOrZero, hl] at hv
      simp only at hv
      rw [hv]
  · intro x hx
    simp only [hscore]
    exact (lookup_eq_none_iff _ _).mpr (fun h => hx ((hmem x).mp h))

/-- Witness of C13 (amended): with `X` at 50 in `A` and at 20 in `B`, the weights
`{A: 1, B: -1}` give `X` the score 30 in the destination. -/
theorem Pointomatic.wsum_weighted_sum_witness :
    ((specs false).wsum dbAB "dest" (finiteWeights [("A", 1), ("B", -1)])).2.score? "dest" "X"
      = some (.fin 30) :=
  ((Pointomatic.wsum_weighted_sum (specs false) dbAB "dest" [("A", 1), ("B", -1)]
    (by decide) (by decide)).2.1 "X" (by decide)).trans (by decide!)

/-! ## A weighted sum back into the ledger -/

/-- The outcome of `ZUNIONSTORE` and the sorted sets it leaves are read from the sorted sets
only, and it writes no hash. -/
theorem Redis.zunionstore_congr {db db' : Redis} (h : db'.zsets = db.zsets)
    (destination : String) (numkeys : Nat) (keys : List String) (weights : List JSNum) :
    (db'.zunionstore destination numkeys keys weights).1
      = (db.zunionstore destination numkeys keys weights).1 ∧
    (db'.zunionstore destination numkeys keys weights).2.zsets
      = (db.zunionstore destination numkeys keys weights).2.zsets ∧
    (db.zunionstore destination numkeys keys weights).2.hashes = db.hashes := by
  have hu : ∀ (l acc : List (String × JSNum)), unionAll db' l acc = unionAll db l acc := by
    intro l
    induction l with
    | nil =>
      intro acc
      rfl
    | cons hd t ih =>
      intro acc
      obtain ⟨key, w⟩ := hd
      simp only [unionAll, Redis.zsetOf, h, ih]
  unfold Redis.zunionstore
  split
  · exact ⟨rfl, h, rfl⟩
  · split
    · exact ⟨rfl, h, rfl⟩
    · split
      · exact ⟨rfl, h, rfl⟩
      · simp only [hu, Redis.putZSet, h]
        exact ⟨trivial, trivial, trivial⟩

/-- C22: `wsum` consults neither the deletion log, the key predicate nor `min`/`max`: its
outcome is the same for every ledger object, it reads the sorted sets only and writes no
hash. On the test ledger with logging, after `create("bbbbbbbb", 30)`,
`wsum("backup", {points: 1})` and `delete("bbbbbbbb", "testing")` the key is in the deletion
log and absent from the score store; `wsum("points", {backup: 1})` then makes it present
again: `get` returns the value 30 for it while it is still in the deletion log and `create`
of it still throws `conflict D`. With the weight 10 the value stored is 300, above `max`. -/
theorem Pointomatic.wsum_resurrects_tombstoned :
    (∀ (p q : Pointomatic) (db : Redis) (destination : String) (ws : List (String × JSNum)),
      p.wsum db destination ws = q.wsum db destination ws) ∧
    (∀ (p : Pointomatic) (db db' : Redis) (destination : String) (ws : List (String × JSNum)),
      db'.zsets = db.zsets →
      (p.wsum db' destination ws).1 = (p.wsum db destination ws).1 ∧
      (p.wsum db' destination ws).2.zsets = (p.wsum db destination ws).2.zsets ∧
      (p.wsum db destination ws).2.hashes = db.hashes) ∧
    (specs true).log = true ∧
    (specs true).inDeleteLog dbBackupDeleted ((specs true).encrypt "bbbbbbbb") = true ∧
    dbBackupDeleted.score? (specs true).name ((specs true).encrypt "bbbbbbbb") = none ∧
    ((specs true).wsum dbBackupDeleted (specs true).name [("backup", .fin 1)]).1
      = .ok ⟨"points", [("backup", .fin 1)], 1⟩ ∧
    (specs true).get dbRestored "bbbbbbbb" = .ok ⟨"bbbbbbbb", .fin 30⟩ ∧
    (specs true).inDeleteLog dbRestored ((specs true).encrypt "bbbbbbbb") = true ∧
    ((specs true).create dbRestored "bbbbbbbb" (.num (.fin 99)) "again" utc).1
      = .error .conflictD ∧
    ((specs true).wsum dbBackupDeleted (specs true).name [("backup", .fin 10)]).2.score?
      (specs true).name ((specs true).encrypt "bbbbbbbb") = some (.fin 300) := by
  refine ⟨fun _ _ _ _ _ => rfl, ?_, by decide, by decide!, by decide!, by decide!, by decide!,
    by decide!, by decide!, by decide!⟩
  intro p db db' destination ws h
  obtain ⟨h1, h2, h3⟩ := Redis.zunionstore_congr h destination
    (ws.map (fun kw => kw.1)).length (ws.map (fun kw => kw.1)) (ws.map (fun kw => kw.2))
  unfold Pointomatic.wsum
  simp only []
  generalize db'.zunionstore destination (ws.map (fun kw => kw.1)).length
    (ws.map (fun kw => kw.1)) (ws.map (fun kw => kw.2)) = r' at h1 h2
  generalize db.zunionstore destination (ws.map (fun kw => kw.1)).length
    (ws.map (fun kw => kw.1)) (ws.map (fun kw => kw.2)) = r at h1 h2 h3
  obtain ⟨o', d'⟩ := r'
  obtain ⟨o, d⟩ := r
  simp only at h1 h2 h3
  subst h1
  cases o' <;> exact ⟨rfl, h2, h3⟩

/-! ## Two `create` calls that run concurrently -/

namespace Pointomatic

/-- The three steps of a call of `create`, run one after the other, are the method. -/
theorem createStep_create (p : Pointomatic) (db : Redis) (key : String) (rawvalue : JSVal)
    (reason now : String) :
    p.createStep
      (p.createStep (p.createStep db (.called key rawvalue reason now)).2
        (p.createStep db (.called key rawvalue reason now)).1).2
      (p.createStep (p.createStep db (.called key rawvalue reason now)).2
        (p.createStep db (.called key rawvalue reason now)).1).1
    = (.done (p.create db key rawvalue reason now).1, (p.create db key rawvalue reason now).2) := by
  cases h1 : p.assertKey key "create" with
  | error e => simp [createStep, create, h1]
  | ok u =>
    cases h2 : p.parseNumber rawvalue "create" with
    | error e => simp [createStep, create, h1, h2]
    | ok value =>
      cases h3 : p.assertRange (.num value) "create" with
      | error e => simp [createStep, create, h1, h2, h3]
      | ok u2 =>
        cases h4 : p.inDeleteLog db (p.encrypt key) with
        | true => simp [createStep, create, h1, h2, h3, h4]
        | false =>
          cases h5 : db.zaddNX p.name value (p.encrypt key) with
          | mk r db1 =>
            cases r with
            | error msg => simp [createStep, create, h1, h2, h3, h4, h5]
            | ok result =>
              by_cases h6 : result = 1
              · cases h7 : p.insertIntoLog db1 p.createLog (p.encrypt key) reason now with
                | mk r2 db2 =>
                  cases r2 <;> simp [createStep, create, h1, h2, h3, h4, h5, h6, h7]
              · simp [createStep, create, h1, h2, h3, h4, h5, h6]

theorem createLog_ne_deleteLog (name : String) : name ++ "CreateLog" ≠ name ++ "DeleteLog" := by
  intro h
  have h1 := congrArg String.data h
  simp only [String.data_append, List.append_cancel_left_eq] at h1
  exact absurd h1 (by decide)

/-- A write into the creation log leaves the deletion log as it was. -/
theorem inDeleteLog_insertIntoLog_createLog (p : Pointomatic) (db : Redis)
    (ek reason now f : String) :
    p.inDeleteLog (p.insertIntoLog db p.createLog ek reason now).2 f = p.inDeleteLog db f := by
  cases hlog : p.log with
  | false => simp [inDeleteLog, hlog]
  | true =>
    have hne : p.name ++ "DeleteLog" ≠ p.name ++ "CreateLog" :=
      fun e => createLog_ne_deleteLog p.name e.symm
    simp [inDeleteLog, insertIntoLog, createLog, deleteLog, hlog, startsWith_append,
      Redis.hexists, Redis.hashOf_hset_ne _ hne]

theorem done_of_stepsLeft (t : CreateTask) (h : t.stepsLeft = 0) : ∃ o, t = .done o := by
  cases t with
  | done o => exact ⟨o, rfl⟩
  | called _ _ _ _ => simp [CreateTask.stepsLeft] at h
  | inserting _ _ _ _ => simp [CreateTask.stepsLeft] at h
  | logging _ _ _ _ => simp [CreateTask.stepsLeft] at h

end Pointomatic

namespace Pointomatic

/-- A step of a call that has not inserted yet, while the key is absent: the call moves on
without touching Redis, or it inserts its value. -/
theorem createStep_pending_absent (p : Pointomatic) (db : Redis) (k : String) (a : CreateArgs)
    (t : CreateTask)
    (hk : p.invalid k = false) (hv : parseFloat a.rawvalue = .fin a.value)
    (hmin : p.min ≤ a.value) (hmax : a.value ≤ p.max)
    (hnt : p.inDeleteLog db (p.encrypt k) = false)
    (habs : db.score? p.name (p.encrypt k) = none) (ht : t.isPending k a) :
    (((p.createStep db t).1.isPending k a ∧ (p.createStep db t).2 = db) ∨
      ((p.createStep db t).1.hasInserted k a ∧
        (p.createStep db t).2.score? p.name (p.encrypt k) = some (.fin a.value) ∧
        (p.createStep db t).2.hashes = db.hashes)) ∧
    (p.createStep db t).1.stepsLeft ≤ t.stepsLeft - 1 := by
  rcases ht with ht | ht
  · subst ht
    have hs : p.createStep db (.called k a.rawvalue a.reason a.now)
        = (.inserting k (.fin a.value) a.reason a.now, db) := by
      simp only [createStep, assertKey_valid p hk, parseNumber_fin p hv,
        assertRange_inRange p hmin hmax, hnt]
      rfl
    rw [hs]
    exact ⟨Or.inl ⟨Or.inr rfl, rfl⟩, by simp [CreateTask.stepsLeft, createStep]⟩
  · subst ht
    have hz : db.zaddNX p.name (.fin a.value) (p.encrypt k) =
        (.ok 1, db.putZSet p.name (zinsert (p.encrypt k, .fin a.value) (db.zsetOf p.name))) := by
      unfold Redis.score? at habs
      simp [Redis.zaddNX, JSNum.isNaN, habs]
    have hs : p.createStep db (.inserting k (.fin a.value) a.reason a.now)
        = (.logging k (.fin a.value) a.reason a.now,
           db.putZSet p.name (zinsert (p.encrypt k, .fin a.value) (db.zsetOf p.name))) := by
      simp only [createStep, hz]
      rfl
    rw [hs]
    refine ⟨Or.inr ⟨Or.inl rfl, ?_, rfl⟩, by simp [CreateTask.stepsLeft, createStep]⟩
    rw [Redis.score?_putZSet_self]
    exact lookup_zinsert_self _ _ _ habs

/-- A step of a call that has not inserted yet, while the key is present: the call moves on
or throws `conflict E`, and Redis is as it was. -/
theorem createStep_pending_present (p : Pointomatic) (db : Redis) (k : String) (a : CreateArgs)
    (t : CreateTask) (s : JSNum)
    (hk : p.invalid k = false) (hv : parseFloat a.rawvalue = .fin a.value)
    (hmin : p.min ≤ a.value) (hmax : a.value ≤ p.max)
    (hnt : p.inDeleteLog db (p.encrypt k) = false)
    (hpres : db.score? p.name (p.encrypt k) = some s) (ht : t.isPending k a) :
    ((p.createStep db t).1.isPending k a ∨ (p.createStep db t).1.hasLost) ∧
    (p.createStep db t).2 = db ∧
    (p.createStep db t).1.stepsLeft ≤ t.stepsLeft - 1 := by
  rcases ht with ht | ht
  · subst ht
    have hs : p.createStep db (.called k a.rawvalue a.reason a.now)
        = (.inserting k (.fin a.value) a.reason a.now, db) := by
      simp only [createStep, assertKey_valid p hk, parseNumber_fin p hv,
        assertRange_inRange p hmin hmax, hnt]
      rfl
    rw [hs]
    exact ⟨Or.inl (Or.inr rfl), rfl, by simp [CreateTask.stepsLeft, createStep]⟩
  · subst ht
    have hz : db.zaddNX p.name (.fin a.value) (p.encrypt k) = (.ok 0, db) := by
      unfold Redis.score? at hpres
      simp [Redis.zaddNX, JSNum.isNaN, hpres]
    have hs : p.createStep db (.inserting k (.fin a.value) a.reason a.now)
        = (.done (.error .conflictE), db) := by
      simp only [createStep, hz]
      rfl
    rw [hs]
    exact ⟨Or.inr rfl, rfl, by simp [CreateTask.stepsLeft, createStep]⟩

/-- A step of a call that has inserted: it writes the creation log, or it is finished. The
sorted sets and the deletion log are as they were. -/
theorem createStep_inserted (p : Pointomatic) (db : Redis) (k : String) (a : CreateArgs)
    (t : CreateTask) (ht : t.hasInserted k a) :
    (p.createStep db t).1.hasInserted k a ∧
    (p.createStep db t).2.zsets = db.zsets ∧
    (∀ f, p.inDeleteLog (p.createStep db t).2 f = p.inDeleteLog db f) ∧
    (p.createStep db t).1.stepsLeft ≤ t.stepsLeft - 1 := by
  rcases ht with ht | ht
  · subst ht
    obtain ⟨r, hr⟩ := p.insertIntoLog_createLog db (p.encrypt k) a.reason a.now
    have hs : p.createStep db (.logging k (.fin a.value) a.reason a.now)
        = (.done (.ok ⟨k, .fin a.value⟩),
           (p.insertIntoLog db p.createLog (p.encrypt k) a.reason a.now).2) := by
      simp only [createStep]
      generalize p.insertIntoLog db p.createLog (p.encrypt k) a.reason a.now = w at hr ⊢
      obtain ⟨w1, w2⟩ := w
      simp only at hr
      subst hr
      rfl
    rw [hs]
    exact ⟨Or.inr rfl, insertIntoLog_zsets p _ _ _ _ _,
      fun f => inDeleteLog_insertIntoLog_createLog p db _ _ _ f, by simp [CreateTask.stepsLeft, createStep]⟩
  · subst ht
    exact ⟨Or.inr rfl, rfl, fun _ => rfl, by simp [CreateTask.stepsLeft, createStep]⟩

/-- A call that has thrown `conflict E` does nothing more. -/
theorem createStep_lost (p : Pointomatic) (db : Redis) (t : CreateTask) (ht : t.hasLost) :
    (p.createStep db t).1.hasLost ∧ (p.createStep db t).2 = db ∧
    (p.createStep db t).1.stepsLeft ≤ t.stepsLeft - 1 := by
  unfold CreateTask.hasLost at ht
  subst ht
  exact ⟨rfl, rfl, by simp [CreateTask.stepsLeft, createStep]⟩

end Pointomatic

namespace Pointomatic

/-- A step of the first call keeps the invariant of the two calls. -/
theorem raceInv_step_first (p : Pointomatic) (k : String) (a b : CreateArgs)
    (t1 t2 : CreateTask) (db : Redis)
    (hk : p.invalid k = false) (hva : parseFloat a.rawvalue = .fin a.value)
    (hmina : p.min ≤ a.value) (hmaxa : a.value ≤ p.max)
    (h : p.raceInv k a b (t1, t2, db)) :
    p.raceInv k a b ((p.createStep db t1).1, t2, (p.createStep db t1).2) ∧
    (p.createStep db t1).1.stepsLeft ≤ t1.stepsLeft - 1 := by
  obtain ⟨hnt, hcases⟩ := h
  simp only at hnt hcases
  rcases hcases with ⟨habs, hp1, hp2⟩ | ⟨hsc, hi1, h2⟩ | ⟨hsc, hi2, h1⟩
  · obtain ⟨hstep, hleft⟩ :=
      createStep_pending_absent p db k a t1 hk hva hmina hmaxa hnt habs hp1
    refine ⟨?_, hleft⟩
    rcases hstep with ⟨hp1', hdb⟩ | ⟨hi1', hsc', hh⟩
    · rw [hdb]
      exact ⟨hnt, Or.inl ⟨habs, hp1', hp2⟩⟩
    · refine ⟨?_, Or.inr (Or.inl ⟨hsc', hi1', Or.inl hp2⟩)⟩
      show p.inDeleteLog (p.createStep db t1).2 (p.encrypt k) = false
      rw [inDeleteLog_congr p hh]
      exact hnt
  · obtain ⟨hi1', hz, hdl, hleft⟩ := createStep_inserted p db k a t1 hi1
    refine ⟨⟨?_, Or.inr (Or.inl ⟨?_, hi1', h2⟩)⟩, hleft⟩
    · show p.inDeleteLog (p.createStep db t1).2 (p.encrypt k) = false
      rw [hdl]
      exact hnt
    · show (p.createStep db t1).2.score? p.name (p.encrypt k) = some (.fin a.value)
      rw [Redis.score?_congr hz]
      exact hsc
  · rcases h1 with hp1 | hl1
    · obtain ⟨hstep, hdb, hleft⟩ :=
        createStep_pending_present p db k a t1 _ hk hva hmina hmaxa hnt hsc hp1
      refine ⟨?_, hleft⟩
      rw [hdb]
      exact ⟨hnt, Or.inr (Or.inr ⟨hsc, hi2, hstep⟩)⟩
    · obtain ⟨hl1', hdb, hleft⟩ := createStep_lost p db t1 hl1
      refine ⟨?_, hleft⟩
      rw [hdb]
      exact ⟨hnt, Or.inr (Or.inr ⟨hsc, hi2, Or.inr hl1'⟩)⟩

/-- A step of the second call keeps the invariant of the two calls. -/
theorem raceInv_step_second (p : Pointomatic) (k : String) (a b : CreateArgs)
    (t1 t2 : CreateTask) (db : Redis)
    (hk : p.invalid k = false) (hvb : parseFloat b.rawvalue = .fin b.value)
    (hminb : p.min ≤ b.value) (hmaxb : b.value ≤ p.max)
    (h : p.raceInv k a b (t1, t2, db)) :
    p.raceInv k a b (t1, (p.createStep db t2).1, (p.createStep db t2).2) ∧
    (p.createStep db t2).1.stepsLeft ≤ t2.stepsLeft - 1 := by
  obtain ⟨hnt, hcases⟩ := h
  simp only at hnt hcases
  rcases hcases with ⟨habs, hp1, hp2⟩ | ⟨hsc, hi1, h2⟩ | ⟨hsc, hi2, h1⟩
  · obtain ⟨hstep, hleft⟩ :=
      createStep_pending_absent p db k b t2 hk hvb hminb hmaxb hnt habs hp2
    refine ⟨?_, hleft⟩
    rcases hstep with ⟨hp2', hdb⟩ | ⟨hi2', hsc', hh⟩
    · rw [hdb]
      exact ⟨hnt, Or.inl ⟨habs, hp1, hp2'⟩⟩
    · refine ⟨?_, Or.inr (Or.inr ⟨hsc', hi2', Or.inl hp1⟩)⟩
      show p.inDeleteLog (p.createStep db t2).2 (p.encrypt k) = false
      rw [inDeleteLog_congr p hh]
      exact hnt
  · rcases h2 with hp2 | hl2
    · obtain ⟨hstep, hdb, hleft⟩ :=
        createStep_pending_present p db k b t2 _ hk hvb hminb hmaxb hnt hsc hp2
      refine ⟨?_, hleft⟩
      rw [hdb]
      exact ⟨hnt, Or.inr (Or.inl ⟨hsc, hi1, hstep⟩)⟩
    · obtain ⟨hl2', hdb, hleft⟩ := createStep_lost p db t2 hl2
      refine ⟨?_, hleft⟩
      rw [hdb]
      exact ⟨hnt, Or.inr (Or.inl ⟨hsc, hi1, Or.inr hl2'⟩)⟩
  · obtain ⟨hi2', hz, hdl, hleft⟩ := createStep_inserted p db k b t2 hi2
    refine ⟨⟨?_, Or.inr (Or.inr ⟨?_, hi2', h1⟩)⟩, hleft⟩
    · show p.inDeleteLog (p.createStep db t2).2 (p.encrypt k) = false
      rw [hdl]
      exact hnt
    · show (p.createStep db t2).2.score? p.name (p.encrypt k) = some (.fin b.value)
      rw [Redis.score?_congr hz]
      exact hsc

/-- The invariant holds after every schedule, and each call has at most as many steps left
as it had, less the steps it was given. -/
theorem raceInv_race (p : Pointomatic) (k : String) (a b : CreateArgs)
    (hk : p.invalid k = false)
    (hva : parseFloat a.rawvalue = .fin a.value) (hmina : p.min ≤ a.value)
    (hmaxa : a.value ≤ p.max)
    (hvb : parseFloat b.rawvalue = .fin b.value) (hminb : p.min ≤ b.value)
    (hmaxb : b.value ≤ p.max) (schedule : List Bool) :
    ∀ st : CreateTask × CreateTask × Redis, p.raceInv k a b st →
      p.raceInv k a b (p.race schedule st) ∧
      (p.race schedule st).1.stepsLeft ≤ st.1.stepsLeft - schedule.count true ∧
      (p.race schedule st).2.1.stepsLeft ≤ st.2.1.stepsLeft - schedule.count false := by
  induction schedule with
  | nil =>
    intro st h
    exact ⟨h, by simp [race], by simp [race]⟩
  | cons first rest ih =>
    intro st h
    obtain ⟨t1, t2, db⟩ := st
    cases first with
    | true =>
      obtain ⟨hinv, hleft⟩ := raceInv_step_first p k a b t1 t2 db hk hva hmina hmaxa h
      obtain ⟨h1, h2, h3⟩ := ih _ hinv
      have hrace : p.race (true :: rest) (t1, t2, db)
          = p.race rest ((p.createStep db t1).1, t2, (p.createStep db t1).2) := rfl
      rw [hrace]
      refine ⟨h1, ?_, ?_⟩
      · simp only [List.count_cons_self] at h2 ⊢
        omega
      · simpa using h3
    | false =>
      obtain ⟨hinv, hleft⟩ := raceInv_step_second p k a b t1 t2 db hk hvb hminb hmaxb h
      obtain ⟨h1, h2, h3⟩ := ih _ hinv
      have hrace : p.race (false :: rest) (t1, t2, db)
          = p.race rest (t1, (p.createStep db t2).1, (p.createStep db t2).2) := rfl
      rw [hrace]
      refine ⟨h1, ?_, ?_⟩
      · simpa using h2
      · simp only [List.count_cons_self] at h3 ⊢
        omega

end Pointomatic

/-- C21, as stated, fails for a key that is absent because it was deleted: on the test ledger
with logging, after `create("bbbbbbbb", 30)` and `delete("bbbbbbbb", "testing")` the key is
absent from the ledger, and two concurrent calls `create("bbbbbbbb", 99)` and
`create("bbbbbbbb", 50)`, here with their steps alternating, both throw `conflict D`: neither
succeeds and nothing is stored. -/
theorem Pointomatic.concurrent_create_counterexample :
    dbDeleted.score? (specs true).name ((specs true).encrypt "bbbbbbbb") = none ∧
    (specs true).race [true, false, true, false, true, false]
      (.called "bbbbbbbb" (.num (.fin 99)) "one" utc,
       .called "bbbbbbbb" (.num (.fin 50)) "two" utc, dbDeleted)
      = (.done (.error .conflictD), .done (.error .conflictD), dbDeleted) := by
  decide

/-- C21, amended: for a valid key that is absent from the ledger and not in the deletion log,
and two raw values that parse as numbers `v1` and `v2` in `[min, max]`, two calls of `create`
for that key whose steps are interleaved by any schedule that gives each call its three steps
both finish, exactly one of them returns `{key, value}` with its own value, the other throws
`conflict E`, and the value stored is the one of the call that returned. -/
theorem Pointomatic.concurrent_create (p : Pointomatic) (db : Redis) (k : String)
    (raw1 raw2 : JSVal) (v1 v2 : ℚ) (reason1 now1 reason2 now2 : String)
    (schedule : List Bool)
    (hk : p.invalid k = false)
    (habs : db.score? p.name (p.encrypt k) = none)
    (hnt : p.inDeleteLog db (p.encrypt k) = false)
    (hv1 : parseFloat raw1 = .fin v1) (hmin1 : p.min ≤ v1) (hmax1 : v1 ≤ p.max)
    (hv2 : parseFloat raw2 = .fin v2) (hmin2 : p.min ≤ v2) (hmax2 : v2 ≤ p.max)
    (h1 : 3 ≤ schedule.count true) (h2 : 3 ≤ schedule.count false) :
    ((p.race schedule (.called k raw1 reason1 now1, .called k raw2 reason2 now2, db)).1
        = .done (.ok ⟨k, .fin v1⟩) ∧
      (p.race schedule (.called k raw1 reason1 now1, .called k raw2 reason2 now2, db)).2.1
        = .done (.error .conflictE) ∧
      (p.race schedule (.called k raw1 reason1 now1, .called k raw2 reason2 now2, db)).2.2.score?
        p.name (p.encrypt k) = some (.fin v1)) ∨
    ((p.race schedule (.called k raw1 reason1 now1, .called k raw2 reason2 now2, db)).1
        = .done (.error .conflictE) ∧
      (p.race schedule (.called k raw1 reason1 now1, .called k raw2 reason2 now2, db)).2.1
        = .done (.ok ⟨k, .fin v2⟩) ∧
      (p.race schedule (.called k raw1 reason1 now1, .called k raw2 reason2 now2, db)).2.2.score?
        p.name (p.encrypt k) = some (.fin v2)) := by
  have hinit : p.raceInv k ⟨raw1, v1, reason1, now1⟩ ⟨raw2, v2, reason2, now2⟩
      (.called k raw1 reason1 now1, .called k raw2 reason2 now2, db) :=
    ⟨hnt, Or.inl ⟨habs, Or.inl rfl, Or.inl rfl⟩⟩
  obtain ⟨⟨_, hcases⟩, hl1, hl2⟩ := raceInv_race p k ⟨raw1, v1, reason1, now1⟩
    ⟨raw2, v2, reason2, now2⟩ hk hv1 hmin1 hmax1 hv2 hmin2 hmax2 schedule _ hinit
  generalize p.race schedule (.called k raw1 reason1 now1, .called k raw2 reason2 now2, db)
    = final at hcases hl1 hl2 ⊢
  obtain ⟨t1, t2, d⟩ := final
  have hl1' : t1.stepsLeft ≤ 3 - schedule.count true := hl1
  have hl2' : t2.stepsLeft ≤ 3 - schedule.count false := hl2
  have hz1 : t1.stepsLeft = 0 := by omega
  have hz2 : t2.stepsLeft = 0 := by omega
  have hpend : ∀ (t : CreateTask) (a : CreateArgs), t.stepsLeft = 0 → ¬ t.isPending k a := by
    intro t a hz hp
    rcases hp with hp | hp <;> rw [hp] at hz <;> simp [CreateTask.stepsLeft] at hz
  have hins : ∀ (t : CreateTask) (a : CreateArgs), t.stepsLeft = 0 → t.hasInserted k a →
      t = .done (.ok ⟨k, .fin a.value⟩) := by
    intro t a hz hi
    rcases hi with hi | hi
    · rw [hi] at hz
      simp [CreateTask.stepsLeft] at hz
    · exact hi
  simp only at hcases
  rcases hcases with ⟨_, hp1, _⟩ | ⟨hsc, hi1, h2'⟩ | ⟨hsc, hi2, h1'⟩
  · exact absurd hp1 (hpend t1 _ hz1)
  · left
    rcases h2' with hp2 | hl
    · exact absurd hp2 (hpend t2 _ hz2)
    · exact ⟨hins t1 _ hz1 hi1, hl, hsc⟩
  · right
    rcases h1' with hp1 | hl
    · exact absurd hp1 (hpend t1 _ hz1)
    · exact ⟨hl, hins t2 _ hz2 hi2, hsc⟩

/-- Witness of C21 (amended) on the test ledger, from the empty server, for a schedule in
which the second call sends its `ZADD NX` first: one call returns, the other throws
`conflict E`, and the value of the call that returned is stored. -/
theorem Pointomatic.concurrent_create_witness :
    (((specs true).race [true, false, false, false, true, true]
        (.called "abcdefgh" (.num (.fin 99)) "one" utc,
         .called "abcdefgh" (.num (.fin 50)) "two" utc, Redis.empty)).1
        = .done (.ok ⟨"abcdefgh", .fin 99⟩) ∧
      ((specs true).race [true, false, false, false, true, true]
        (.called "abcdefgh" (.num (.fin 99)) "one" utc,
         .called "abcdefgh" (.num (.fin 50)) "two" utc, Redis.empty)).2.1
        = .done (.error .conflictE) ∧
      ((specs true).race [true, false, false, false, true, true]
        (.called "abcdefgh" (.num (.fin 99)) "one" utc,
         .called "abcdefgh" (.num (.fin 50)) "two" utc, Redis.empty)).2.2.score?
        (specs true).name ((specs true).encrypt "abcdefgh") = some (.fin 99)) ∨
    (((specs true).race [true, false, false, false, true, true]
        (.called "abcdefgh" (.num (.fin 99)) "one" utc,
         .called "abcdefgh" (.num (.fin 50)) "two" utc, Redis.empty)).1
        = .done (.error .conflictE) ∧
      ((specs true).race [true, false, false, false, true, true]
        (.called "abcdefgh" (.num (.fin 99)) "one" utc,
         .called "abcdefgh" (.num (.fin 50)) "two" utc, Redis.empty)).2.1
        = .done (.ok ⟨"abcdefgh", .fin 50⟩) ∧
      ((specs true).race [true, false, false, false, true, true]
        (.called "abcdefgh" (.num (.fin 99)) "one" utc,
         .called "abcdefgh" (.num (.fin 50)) "two" utc, Redis.empty)).2.2.score?
        (specs true).name ((specs true).encrypt "abcdefgh") = some (.fin 50)) :=
  Pointomatic.concurrent_create (specs true) Redis.empty "abcdefgh" (.num (.fin 99))
    (.num (.fin 50)) 99 50 "one" utc "two" utc [true, false, false, false, true, true]
    (by decide) (by decide) (by decide) rfl (by decide) (by decide) rfl (by decide) (by decide)
    (by decide) (by decide)
